import Mathlib

/-!
# Verification of the entrystore core

Shallow embedding of the entrystore repository: the schema grammar
(`src/source/schema.ts`), the per-backend value hydration
(`src/source/entry/csv/schema.ts`, `src/source/entry/sqlite/index.ts`),
the partitioned CSV store (`src/source/entry/csv/index.ts`) and the
SQLite-backed store (`src/source/entry/sqlite/index.ts`).

Modelling conventions:
* JavaScript numbers are idealised as rationals (`Rat`); `Date` objects are
  represented by their integer epoch-millisecond value; `URL` objects by
  their canonical href string.
* Strings produced by hydration are represented by their parsed content
  (an inductive of "wire cells") rather than raw character sequences;
  distinct constructors correspond to the distinct textual forms the code
  produces, and the JavaScript parsing primitives (`parseInt`, `parseFloat`,
  `JSON.parse`) are modelled as the evident inverses on those forms.
* JavaScript objects are modelled as association lists in key-insertion
  order; structural (lodash `isEqual`) equality of objects is key-order
  insensitive and is modelled by `lookup`-based equivalence.
* Fallible code returns `Except Err`.
-/

namespace Entrystore

/-- Identifiers of generic data types (`GenericTypeIdentifier` in
`src/source/types/common.ts`): the six storable kinds plus the `Nullable`
marker produced by `inferTypeByValue` for a `null` value. -/
inductive GTypeId where
  | Boolean | Number | String | Date | URL | Embedded | Nullable
deriving DecidableEq, Repr

/-- Metadata about a field (`TypeMeta` in `src/source/types/common.ts`). -/
structure TypeMeta where
  type : GTypeId
  isList : Bool
  isNullable : Bool
deriving DecidableEq, Repr

/-- A type map (`TypeMap`): a JS object mapping field names to metadata,
modelled as an association list in key order. -/
abbrev TypeMapL := List (String × TypeMeta)

/-- A schema (`Schema` in `src/source/types/common.ts`): the index field
name and the type map.  The index is `Option`al because `decodeSchema`
yields JS `undefined` when no starred token exists. -/
structure SchemaL where
  index : Option String
  map : TypeMapL
deriving DecidableEq, Repr

/-- JSON-serialisable values (payload of an `Embedded` field, i.e. a value
accepted by `isJSON` in `src/source/schema.ts`).  `JSON.stringify` followed
by `JSON.parse` is the identity on these trees, which is exactly the
condition `isJSON` tests. -/
inductive JSONVal where
  | null : JSONVal
  | bool : Bool → JSONVal
  | num : Rat → JSONVal
  | str : String → JSONVal
  | arr : List JSONVal → JSONVal
  | obj : List (String × JSONVal) → JSONVal

/-- Runtime values of entry fields (`SupportedData | SupportedData[]` in
`src/source/types/common.ts`). -/
inductive Value where
  | boolean : Bool → Value
  | number : Rat → Value
  | str : String → Value
  | date : Int → Value
  | url : String → Value
  | embedded : JSONVal → Value
  | vnull : Value
  | list : List Value → Value

mutual

/-- Model of `isJSON`/`JSON.stringify` (`src/source/schema.ts`): the JSON
tree a value serialises to, or `none` when the value does not survive a
`JSON.parse(JSON.stringify(v))` round trip (`Date` and `URL` instances
serialise to strings and therefore fail `isJSON`). -/
def valueToJSON : Value → Option JSONVal
  | .boolean b => some (.bool b)
  | .number q => some (.num q)
  | .str s => some (.str s)
  | .date _ => none
  | .url _ => none
  | .embedded j => some j
  | .vnull => some .null
  | .list xs => (valuesToJSON xs).map .arr

/-- `valueToJSON` over the elements of a JS array. -/
def valuesToJSON : List Value → Option (List JSONVal)
  | [] => some []
  | v :: vs => do pure ((← valueToJSON v) :: (← valuesToJSON vs))

end

/-- An entry: a JS object mapping field names to values, modelled as an
association list in key order. -/
abbrev Entry := List (String × Value)

/-- Error taxonomy (`src/source/error/`). -/
inductive Err where
  | missingSchema
  | schemaMismatched
  | validation
  | nonCompliantKey
  | unsupportedType
  | typeUndetermined
  | storageNotFound
deriving DecidableEq, Repr

/-! ## Schema grammar (`src/source/schema.ts`) -/

/-- The name of a type identifier as it appears in a grammar token. -/
def typeName : GTypeId → String
  | .Boolean => "Boolean"
  | .Number => "Number"
  | .String => "String"
  | .Date => "Date"
  | .URL => "URL"
  | .Embedded => "Embedded"
  | .Nullable => "Nullable"

/-- Recover a type identifier from its name (the cast applied to the
captured word group in `decodeSchema`). -/
def parseGTypeId : String → Option GTypeId
  | "Boolean" => some .Boolean
  | "Number" => some .Number
  | "String" => some .String
  | "Date" => some .Date
  | "URL" => some .URL
  | "Embedded" => some .Embedded
  | "Nullable" => some .Nullable
  | _ => none

/-- Encode one field to its grammar token, as `encodeSchema` does:
optional `*` for the index field, brackets for a list, trailing `?` for
nullable. -/
def encodeToken (isIndex : Bool) (m : TypeMeta) : String :=
  (if isIndex then "*" else "")
    ++ (if m.isList then "[" ++ typeName m.type ++ "]" else typeName m.type)
    ++ (if m.isNullable then "?" else "")

/-- `encodeSchema` (`src/source/schema.ts`, lines 126-134): map every
field of the schema to its token; a field is starred iff its name equals
`schema.index`. -/
def encodeSchema (s : SchemaL) : List (String × String) :=
  s.map.map fun kv => (kv.1, encodeToken (s.index == some kv.1) kv.2)

/-- The anchored star test `/^\*/` applied to tokens. -/
def tokenStarred (s : String) : Bool :=
  s.toList.head? == some '*'

/-- Decode one token: list iff the token contains a bracketed base
(which on grammar tokens is equivalent to containing an opening bracket),
nullable iff it ends in a question mark, and the base name is the token
stripped of the leading star/bracket and trailing markers (the regex
replacement). `none` models the unchecked cast failing to be a real
identifier. -/
def decodeToken (tok : String) : Option TypeMeta :=
  let cs := tok.toList
  let isList := cs.contains '['
  let isNullable := cs.getLast? == some '?'
  let s1 := if cs.head? == some '*' then cs.drop 1 else cs
  let s2 := if s1.head? == some '[' then s1.drop 1 else s1
  let s3 := if s2.getLast? == some '?' then s2.dropLast else s2
  let s4 := if s3.getLast? == some ']' then s3.dropLast else s3
  (parseGTypeId (String.mk s4)).map fun t => ⟨t, isList, isNullable⟩

/-- Decode every token of an encoded schema, keeping key order
(`mapValues`). -/
def decodeMapTokens : List (String × String) → Option TypeMapL
  | [] => some []
  | (k, tok) :: rest => do pure ((k, ← decodeToken tok) :: (← decodeMapTokens rest))

/-- `decodeSchema` (`src/source/schema.ts`, lines 102-119): the index is
the key of the first starred token (JS `undefined`, i.e. `none`, when
there is none), and the map decodes every token. -/
def decodeSchema (enc : List (String × String)) : Option SchemaL :=
  let index := ((enc.filter fun kv => tokenStarred kv.2).head?).map Prod.fst
  (decodeMapTokens enc).map fun map => ⟨index, map⟩

/-- The four kinds acceptable for an index field (`SupportedKey`). -/
def keyKind (t : GTypeId) : Prop :=
  t = .Number ∨ t = .String ∨ t = .Date ∨ t = .URL

instance : DecidablePred keyKind := fun t => by unfold keyKind; infer_instance

/-- A well-formed schema in the sense of the specification: unique field
names, one index field of a key kind that is neither a list nor nullable,
and every field of one of the six supported bases. -/
def WellFormedSchema (s : SchemaL) : Prop :=
  (s.map.map Prod.fst).Nodup ∧
  (∃ i m, s.index = some i ∧ s.map.lookup i = some m ∧
    keyKind m.type ∧ m.isList = false ∧ m.isNullable = false) ∧
  ∀ p ∈ s.map, p.2.type ≠ .Nullable

/-- Every meta decodes back from its token. -/
theorem decodeToken_encodeToken (st : Bool) (m : TypeMeta) :
    decodeToken (encodeToken st m) = some m := by
  obtain ⟨t, l, n⟩ := m
  cases t <;> cases l <;> cases n <;> cases st <;> decide

/-- A token is starred exactly when the encoded field is the index. -/
theorem tokenStarred_encodeToken (st : Bool) (m : TypeMeta) :
    tokenStarred (encodeToken st m) = st := by
  obtain ⟨t, l, n⟩ := m
  cases t <;> cases l <;> cases n <;> cases st <;> decide

theorem decodeMapTokens_encode (l : TypeMapL) (idx : Option String) :
    decodeMapTokens (l.map fun kv => (kv.1, encodeToken (idx == some kv.1) kv.2)) =
      some l := by
  induction l with
  | nil => rfl
  | cons p rest ih =>
      simp only [List.map_cons, decodeMapTokens, decodeToken_encodeToken, ih]
      rfl

theorem lookup_filter_key_of_nodup {α : Type} (l : List (String × α))
    (i : String) (m : α) (hnd : (l.map Prod.fst).Nodup)
    (hl : l.lookup i = some m) :
    l.filter (fun kv => i == kv.1) = [(i, m)] := by
  induction l with
  | nil => simp [List.lookup] at hl
  | cons p rest ih =>
      obtain ⟨k, v⟩ := p
      simp only [List.map_cons, List.nodup_cons] at hnd
      by_cases hik : i = k
      · subst hik
        have hlk : ((i, v) :: rest).lookup i = some v := by
          simp [List.lookup]
        rw [hlk] at hl
        obtain rfl : v = m := by injection hl
        have hfil : rest.filter (fun kv => i == kv.1) = [] := by
          rw [List.filter_eq_nil_iff]
          intro kv hkv hbeq
          refine absurd ?_ hnd.1
          obtain rfl : i = kv.1 := beq_iff_eq.mp hbeq
          exact List.mem_map_of_mem Prod.fst hkv
        simp [List.filter, hfil]
      · have hlk : ((k, v) :: rest).lookup i = rest.lookup i := by
          simp [List.lookup, beq_eq_false_iff_ne.mpr hik]
        rw [hlk] at hl
        have hrec := ih hnd.2 hl
        simp [List.filter, beq_eq_false_iff_ne.mpr hik, hrec]

/-- Claim C2.  For every well-formed schema `S` (one index field of a key
kind, non-nullable, non-list; every field a supported base with list and
nullable flags), `decodeSchema (encodeSchema S) = S`. -/
theorem claim_C2_schema_roundtrip (S : SchemaL) (h : WellFormedSchema S) :
    decodeSchema (encodeSchema S) = some S := by
  obtain ⟨hnd, ⟨i, m, hidx, hlook, _, _, _⟩, _⟩ := h
  have hmap : decodeMapTokens (encodeSchema S) = some S.map :=
    decodeMapTokens_encode S.map S.index
  have hfil : (encodeSchema S).filter (fun kv => tokenStarred kv.2)
      = (S.map.filter fun kv => i == kv.1).map
          (fun kv => (kv.1, encodeToken (S.index == some kv.1) kv.2)) := by
    unfold encodeSchema
    rw [List.filter_map]
    congr 1
    apply List.filter_congr
    intro kv _
    show tokenStarred (encodeToken (S.index == some kv.1) kv.2) = (i == kv.1)
    rw [tokenStarred_encodeToken, hidx]
    rfl
  rw [lookup_filter_key_of_nodup S.map i m hnd hlook] at hfil
  obtain ⟨sidx, smap⟩ := S
  simp only at hidx
  subst hidx
  simp [decodeSchema, hmap, hfil]

/-- A concrete schema mirroring the test prototype
(`timestamp: *Date, value: String`). -/
def sampleSchema : SchemaL :=
  ⟨some "timestamp",
    [("timestamp", ⟨.Date, false, false⟩), ("value", ⟨.String, false, false⟩)]⟩

/-- Witness for C2: `sampleSchema` is well-formed and round-trips. -/
theorem claim_C2_schema_roundtrip_witness :
    WellFormedSchema sampleSchema ∧
      decodeSchema (encodeSchema sampleSchema) = some sampleSchema := by
  have hwf : WellFormedSchema sampleSchema :=
    ⟨by decide, ⟨"timestamp", ⟨.Date, false, false⟩, rfl, by decide,
      Or.inr (Or.inr (Or.inl rfl)), rfl, rfl⟩, by decide⟩
  exact ⟨hwf, claim_C2_schema_roundtrip sampleSchema hwf⟩

/-! ## Value hydration

The CSV backend (`src/source/entry/csv/schema.ts`, grammar-aware variant
imported by `CSVStore`) hydrates every value to a string; the SQLite
backend (`src/source/entry/sqlite/index.ts` companion schema module)
hydrates to a boolean/number/string.  Hydrated strings are modelled by
their parsed content: a decimal numeral by the rational it denotes, a
JSON text by the JSON tree it denotes.  `parseInt`/`parseFloat`/
`JSON.parse` applied to a form the code itself produced are modelled as
the evident inverses; applying them to a form outside the model (for
example `parseFloat` of a non-numeral string, which yields `NaN`) is
represented by an `unsupportedType` error and is never exercised by the
theorems below. -/

/-- JS truncation toward zero (`parseInt` on a numeral,
`ToIntegerOrInfinity` inside the `Date` constructor). -/
def ratTrunc (q : Rat) : Int :=
  if q < 0 then ⌈q⌉ else ⌊q⌋

theorem ratTrunc_intCast (n : Int) : ratTrunc (n : Rat) = n := by
  unfold ratTrunc
  split <;> simp

namespace CSV

/-- The wire form of one CSV cell, viewed by its parsed content. -/
inductive Cell where
  | dec (q : Rat)
  | raw (s : String)
  | jsonArr (cells : List Cell)
  | jsonTxt (j : JSONVal)

/-- `hydrateGeneric` (csv/schema.ts): booleans to `"1"`/`"0"`, numbers to
their numeral, strings verbatim, dates to epoch seconds, URLs to their
href, then the `isJSON` fallback serialising to JSON text; anything else
is an `UnsupportedTypeError`. -/
def hydrateGeneric (v : Value) : Except Err Cell :=
  match v with
  | .boolean b => .ok (.dec (if b then 1 else 0))
  | .number q => .ok (.dec q)
  | .str s => .ok (.raw s)
  | .date ms => .ok (.dec ((ms : Rat) / 1000))
  | .url href => .ok (.raw href)
  | v =>
      match valueToJSON v with
      | some j => .ok (.jsonTxt j)
      | none => .error .unsupportedType

/-- `hydrate` (csv/schema.ts): an array maps `hydrateGeneric` over its
elements and serialises the result as a JSON array; otherwise
`hydrateGeneric`. -/
def hydrate (v : Value) : Except Err Cell :=
  match v with
  | .list xs => (xs.mapM hydrateGeneric).map .jsonArr
  | v => hydrateGeneric v

/-- `dehydrateGeneric` (csv/schema.ts): parse the stored string back
according to the type identifier.  Cases where the stored form lies
outside the model of the parse in question (for example `parseFloat` of
arbitrary text producing `NaN`) are mapped to `unsupportedType` and are
never exercised; the genuine `default` throw of the source is the
`.Nullable` case. -/
def dehydrateGeneric (t : GTypeId) (c : Cell) : Except Err Value :=
  match t, c with
  | .Boolean, .dec q => .ok (.boolean (ratTrunc q != 0))
  | .Date, .dec q => .ok (.date (ratTrunc (q * 1000)))
  | .Number, .dec q => .ok (.number q)
  | .String, .raw s => .ok (.str s)
  | .URL, .raw s => .ok (.url s)
  | .Embedded, .jsonTxt j => .ok (.embedded j)
  | _, _ => .error .unsupportedType

/-- `dehydrate` (csv/schema.ts): a list meta parses the JSON array and
dehydrates every element; otherwise `dehydrateGeneric`. -/
def dehydrate (meta : TypeMeta) (c : Cell) : Except Err Value :=
  if meta.isList then
    match c with
    | .jsonArr cells => (cells.mapM (dehydrateGeneric meta.type)).map .list
    | _ => .error .unsupportedType
  else
    dehydrateGeneric meta.type c

end CSV

namespace SQLite

/-- The wire form of one SQLite-stored value, viewed by its parsed
content (`jsonArr` and `jsonTxt` are TEXT columns holding JSON). -/
inductive Cell where
  | num (q : Rat)
  | text (s : String)
  | jsonArr (cells : List Cell)
  | jsonTxt (j : JSONVal)

/-- `hydrateGeneric` (sqlite companion schema module): booleans to the
integers 0/1, numbers kept, strings verbatim, dates to epoch
milliseconds, URLs to their href, then the `isJSON` fallback. -/
def hydrateGeneric (v : Value) : Except Err Cell :=
  match v with
  | .boolean b => .ok (.num (if b then 1 else 0))
  | .number q => .ok (.num q)
  | .str s => .ok (.text s)
  | .date ms => .ok (.num (ms : Rat))
  | .url href => .ok (.text href)
  | v =>
      match valueToJSON v with
      | some j => .ok (.jsonTxt j)
      | none => .error .unsupportedType

/-- `hydrate` (sqlite): arrays serialise their element-hydrated forms as
JSON; otherwise `hydrateGeneric`. -/
def hydrate (v : Value) : Except Err Cell :=
  match v with
  | .list xs => (xs.mapM hydrateGeneric).map .jsonArr
  | v => hydrateGeneric v

/-- `dehydrateGeneric` (sqlite): `Boolean` is JS truthiness of the stored
value, `Date` wraps the stored number, `Number` and `String` return the
stored value verbatim (whatever its runtime type), `Embedded` parses the
JSON text, `URL` re-wraps the href.  The genuine `default` throw is the
`.Nullable` case; other unlisted combinations lie outside the model and
are never exercised. -/
def dehydrateGeneric (t : GTypeId) (c : Cell) : Except Err Value :=
  match t, c with
  | .Boolean, .num q => .ok (.boolean (q != 0))
  | .Boolean, .text s => .ok (.boolean (s != ""))
  | .Date, .num q => .ok (.date (ratTrunc q))
  | .Number, .num q => .ok (.number q)
  | .Number, .text s => .ok (.str s)
  | .String, .text s => .ok (.str s)
  | .String, .num q => .ok (.number q)
  | .Embedded, .jsonTxt j => .ok (.embedded j)
  | .URL, .text s => .ok (.url s)
  | _, _ => .error .unsupportedType

/-- `dehydrate` (sqlite): a list meta parses the JSON array and
dehydrates every element; otherwise `dehydrateGeneric`. -/
def dehydrate (meta : TypeMeta) (c : Cell) : Except Err Value :=
  if meta.isList then
    match c with
    | .jsonArr cells => (cells.mapM (dehydrateGeneric meta.type)).map .list
    | _ => .error .unsupportedType
  else
    dehydrateGeneric meta.type c

end SQLite

/-- Whether a present scalar value has the runtime kind a type identifier
names (the correspondence `inferTypeByValue` establishes). -/
def scalarMatches : GTypeId → Value → Bool
  | .Boolean, .boolean _ => true
  | .Number, .number _ => true
  | .String, .str _ => true
  | .Date, .date _ => true
  | .URL, .url _ => true
  | .Embedded, .embedded _ => true
  | _, _ => false

/-- Whether a value matches a type meta: a list of matching scalars for a
list meta, a matching scalar otherwise. -/
def valueMatches (meta : TypeMeta) (v : Value) : Bool :=
  if meta.isList then
    match v with
    | .list xs => xs.all (scalarMatches meta.type)
    | _ => false
  else
    scalarMatches meta.type v

theorem valueToJSON_embedded (j : JSONVal) :
    valueToJSON (.embedded j) = some j := by
  simp [valueToJSON]

theorem csv_scalar_roundtrip (t : GTypeId) (v : Value)
    (h : scalarMatches t v = true) :
    (CSV.hydrateGeneric v).bind (CSV.dehydrateGeneric t) = .ok v := by
  cases t <;> cases v <;> simp [scalarMatches] at h
  case Boolean.boolean b =>
    cases b
    · show Except.ok (Value.boolean (ratTrunc 0 != 0)) = _
      norm_num [ratTrunc]
    · show Except.ok (Value.boolean (ratTrunc 1 != 0)) = _
      norm_num [ratTrunc]
  case Number.number q => rfl
  case String.str s => rfl
  case Date.date ms =>
    show Except.ok (Value.date (ratTrunc ((ms : Rat) / 1000 * 1000))) = _
    rw [div_mul_cancel₀ _ (by norm_num : (1000 : Rat) ≠ 0), ratTrunc_intCast]
  case URL.url s => rfl
  case Embedded.embedded j =>
    show (CSV.hydrateGeneric (.embedded j)).bind _ = _
    rw [show CSV.hydrateGeneric (.embedded j) = .ok (.jsonTxt j) by
      simp [CSV.hydrateGeneric, valueToJSON_embedded]]
    rfl

theorem sqlite_scalar_roundtrip (t : GTypeId) (v : Value)
    (h : scalarMatches t v = true) :
    (SQLite.hydrateGeneric v).bind (SQLite.dehydrateGeneric t) = .ok v := by
  cases t <;> cases v <;> simp [scalarMatches] at h
  case Boolean.boolean b =>
    cases b
    · show Except.ok (Value.boolean ((0 : Rat) != 0)) = _
      norm_num
    · show Except.ok (Value.boolean ((1 : Rat) != 0)) = _
      norm_num
  case Number.number q => rfl
  case String.str s => rfl
  case Date.date ms =>
    show Except.ok (Value.date (ratTrunc (ms : Rat))) = _
    rw [ratTrunc_intCast]
  case URL.url s => rfl
  case Embedded.embedded j =>
    show (SQLite.hydrateGeneric (.embedded j)).bind _ = _
    rw [show SQLite.hydrateGeneric (.embedded j) = .ok (.jsonTxt j) by
      simp [SQLite.hydrateGeneric, valueToJSON_embedded]]
    rfl

theorem except_bind_ok_split {α β : Type} (f : Except Err α) (g : α → Except Err β)
    (b : β) (h : f.bind g = .ok b) : ∃ a, f = .ok a ∧ g a = .ok b := by
  cases hf : f with
  | error e => rw [hf] at h; simp [Except.bind] at h
  | ok a => rw [hf] at h; exact ⟨a, rfl, h⟩

theorem csv_list_roundtrip (t : GTypeId) (xs : List Value)
    (h : ∀ x ∈ xs, scalarMatches t x = true) :
    ∃ cells, xs.mapM CSV.hydrateGeneric = .ok cells ∧
      cells.mapM (CSV.dehydrateGeneric t) = .ok xs := by
  induction xs with
  | nil => exact ⟨[], rfl, rfl⟩
  | cons x rest ih =>
      obtain ⟨cells, hc1, hc2⟩ := ih fun y hy => h y (List.mem_cons_of_mem x hy)
      obtain ⟨c, hcx, hdx⟩ :=
        except_bind_ok_split _ _ _ (csv_scalar_roundtrip t x (h x (List.mem_cons_self x rest)))
      refine ⟨c :: cells, ?_, ?_⟩
      · rw [List.mapM_cons, hcx, hc1]; rfl
      · rw [List.mapM_cons, hdx, hc2]; rfl

theorem sqlite_list_roundtrip (t : GTypeId) (xs : List Value)
    (h : ∀ x ∈ xs, scalarMatches t x = true) :
    ∃ cells, xs.mapM SQLite.hydrateGeneric = .ok cells ∧
      cells.mapM (SQLite.dehydrateGeneric t) = .ok xs := by
  induction xs with
  | nil => exact ⟨[], rfl, rfl⟩
  | cons x rest ih =>
      obtain ⟨cells, hc1, hc2⟩ := ih fun y hy => h y (List.mem_cons_of_mem x hy)
      obtain ⟨c, hcx, hdx⟩ :=
        except_bind_ok_split _ _ _ (sqlite_scalar_roundtrip t x (h x (List.mem_cons_self x rest)))
      refine ⟨c :: cells, ?_, ?_⟩
      · rw [List.mapM_cons, hcx, hc1]; rfl
      · rw [List.mapM_cons, hdx, hc2]; rfl

/-- Dehydration undoes hydration on both backends for every value whose
runtime kind matches the meta. -/
theorem value_roundtrip_both (meta : TypeMeta) (v : Value)
    (h : valueMatches meta v = true) :
    (CSV.hydrate v).bind (CSV.dehydrate meta) = .ok v ∧
      (SQLite.hydrate v).bind (SQLite.dehydrate meta) = .ok v := by
  obtain ⟨t, l, n⟩ := meta
  cases l
  · have hs : scalarMatches t v = true := by simpa [valueMatches] using h
    have hnl : ∀ xs, v ≠ Value.list xs := by
      intro xs hv
      rw [hv] at hs
      cases t <;> simp [scalarMatches] at hs
    constructor
    · obtain ⟨c, hc1, hc2⟩ := except_bind_ok_split _ _ _ (csv_scalar_roundtrip t v hs)
      have hh : CSV.hydrate v = CSV.hydrateGeneric v := by
        cases v <;> first | rfl | exact absurd rfl (hnl _)
      rw [hh, hc1]
      exact hc2
    · obtain ⟨c, hc1, hc2⟩ := except_bind_ok_split _ _ _ (sqlite_scalar_roundtrip t v hs)
      have hh : SQLite.hydrate v = SQLite.hydrateGeneric v := by
        cases v <;> first | rfl | exact absurd rfl (hnl _)
      rw [hh, hc1]
      exact hc2
  · obtain ⟨xs, rfl, hall⟩ : ∃ xs, v = .list xs ∧ xs.all (scalarMatches t) := by
      cases v <;> simp_all [valueMatches]
    rw [List.all_eq_true] at hall
    constructor
    · obtain ⟨cells, hc1, hc2⟩ := csv_list_roundtrip t xs hall
      show ((xs.mapM CSV.hydrateGeneric).map CSV.Cell.jsonArr).bind
          (CSV.dehydrate ⟨t, true, n⟩) = _
      rw [hc1]
      show (cells.mapM (CSV.dehydrateGeneric t)).map Value.list = _
      rw [hc2]
      rfl
    · obtain ⟨cells, hc1, hc2⟩ := sqlite_list_roundtrip t xs hall
      show ((xs.mapM SQLite.hydrateGeneric).map SQLite.Cell.jsonArr).bind
          (SQLite.dehydrate ⟨t, true, n⟩) = _
      rw [hc1]
      show (cells.mapM (SQLite.dehydrateGeneric t)).map Value.list = _
      rw [hc2]
      rfl

/-- Claim C3.  For every type meta and every value whose runtime kind
matches it (the six kinds and lists thereof), dehydration undoes
hydration, for the CSV encoding and for the SQLite encoding. -/
theorem claim_C3_value_roundtrip (meta : TypeMeta) (v : Value)
    (h : valueMatches meta v = true) :
    (CSV.hydrate v).bind (CSV.dehydrate meta) = .ok v ∧
      (SQLite.hydrate v).bind (SQLite.dehydrate meta) = .ok v :=
  value_roundtrip_both meta v h

/-- Witness for C3: a list-of-dates field round-trips on both backends. -/
theorem claim_C3_value_roundtrip_witness :
    valueMatches ⟨.Date, true, false⟩ (.list [.date 946684800000, .date 1]) = true ∧
      (CSV.hydrate (.list [.date 946684800000, .date 1])).bind
          (CSV.dehydrate ⟨.Date, true, false⟩) =
        .ok (.list [.date 946684800000, .date 1]) ∧
      (SQLite.hydrate (.list [.date 946684800000, .date 1])).bind
          (SQLite.dehydrate ⟨.Date, true, false⟩) =
        .ok (.list [.date 946684800000, .date 1]) := by
  have h := claim_C3_value_roundtrip ⟨.Date, true, false⟩
    (.list [.date 946684800000, .date 1]) (by decide)
  exact ⟨by decide, h.1, h.2⟩

/-! ## Schema reflection and validation (`src/source/schema.ts`) -/

/-- The field-name rule `keyRegExp` (one or more of letters, digits,
underscore). -/
def keyCompliant (k : String) : Bool :=
  !k.toList.isEmpty && k.toList.all fun c => c.isAlphanum || c == '_'

/-- Whether a value is the JS `null` literal. -/
def Value.isNull : Value → Bool
  | .vnull => true
  | _ => false

/-- `inferTypeByValue` (`src/source/schema.ts`, lines 236-254): the kind
of a runtime value, with `null` inferred as `Nullable` and the `isJSON`
fallback inferring `Embedded`; anything else is `UnsupportedTypeError`.
The JS `undefined` produced by taking the head of an empty array has no
branch and also falls to the throw; callers pass `.error` directly for
that case. -/
def inferTypeByValue (v : Value) : Except Err GTypeId :=
  match v with
  | .boolean _ => .ok .Boolean
  | .number _ => .ok .Number
  | .str _ => .ok .String
  | .date _ => .ok .Date
  | .url _ => .ok .URL
  | .vnull => .ok .Nullable
  | v =>
      match valueToJSON v with
      | some _ => .ok .Embedded
      | none => .error .unsupportedType

/-- Infer the meta of one field value, as `inferTypeMapFromEntry` does:
the kind of the value (of its first element for an array, throwing for an
empty array since `inferTypeByValue(undefined)` throws), `isList` from
`Array.isArray`, `isNullable` from `value === null`. -/
def inferFieldMeta (v : Value) : Except Err TypeMeta :=
  match v with
  | .list xs =>
      match xs.head? with
      | none => .error .unsupportedType
      | some x => (inferTypeByValue x).map fun t => ⟨t, true, false⟩
  | v => (inferTypeByValue v).map fun t => ⟨t, false, v.isNull⟩

/-- `inferTypeMapFromEntry` (`src/source/schema.ts`, lines 217-229):
check each field name against the key rule, then infer its meta, keeping
entry key order. -/
def inferTypeMapFromEntry : Entry → Except Err TypeMapL
  | [] => .ok []
  | (k, v) :: rest =>
      if keyCompliant k then do
        pure ((k, ← inferFieldMeta v) :: (← inferTypeMapFromEntry rest))
      else .error .nonCompliantKey

/-- lodash `isEqual` on two type maps (JS objects): key-order
insensitive. -/
def jsEqTypeMap (a b : TypeMapL) : Bool :=
  (a.all fun kv => b.lookup kv.1 == some kv.2) &&
    (b.all fun kv => a.lookup kv.1 == some kv.2)

/-- The per-field comparison the `isEqualWith` customizer in `validate`
performs: either identical metas, or the expected meta is nullable and
the derived meta is the expected one without nullability, or the derived
meta is the null marker. -/
def metaRelaxEq (em dm : TypeMeta) : Bool :=
  em == dm ||
    (em.isNullable &&
      ((⟨em.type, em.isList, false⟩ : TypeMeta) == dm ||
        dm == (⟨.Nullable, false, true⟩ : TypeMeta)))

/-- The per-field descent of `isEqualWith(typeMap, derived, customizer)`:
same key set (lodash object equality is key-order insensitive) and the
customizer accepting each key's pair of metas. -/
def typeMapEquiv (expected derived : TypeMapL) : Bool :=
  (expected.all fun kv =>
    match derived.lookup kv.1 with
    | some dm => metaRelaxEq kv.2 dm
    | none => false) &&
  (derived.all fun kv => (expected.lookup kv.1).isSome)

/-- The full `isEqualWith(typeMap, derived, customizer)` call of
`validate`.  lodash invokes the customizer on the top-level pair first.
When the expected map is deeply equal to the derived map the customizer
answers `true` outright.  Otherwise it evaluates
`typeMap.isNullable && (...)`: if the expected map has no field named
`isNullable` that reads `undefined`, the customizer yields `undefined`
and lodash descends per field (`typeMapEquiv`).  If the expected map
DOES carry a field named `isNullable`, the meta object stored there is
truthy and the customizer returns a definite boolean: the two fallback
comparisons match the derived map — whose values are all meta objects —
against objects holding primitives (`isNullable: false` and
`{type: "Nullable", isList: false, isNullable: true}`), so both are
always `false`, and the whole call degenerates to the already-failed
deep equality. -/
def typeMapEqualWith (expected derived : TypeMapL) : Bool :=
  if jsEqTypeMap expected derived then true
  else
    match expected.lookup "isNullable" with
    | some _ => false
    | none => typeMapEquiv expected derived

/-- `validate` (`src/source/schema.ts`, lines 285-312): derive a type map
from the entry (propagating its errors) and throw `ValidationError` iff
the `isEqualWith` comparison fails. -/
def validate (typeMap : TypeMapL) (e : Entry) : Except Err Unit :=
  match inferTypeMapFromEntry e with
  | .error err => .error err
  | .ok derived =>
      if typeMapEqualWith typeMap derived then .ok () else .error .validation

/-- The specification's wording of the comparison, written independently
of the source: the derived map is structurally equal to the expected map
(same key set, lookup-wise), except that a nullable expected field
accepts a present value of the declared kind with matching list-ness, or
the absent/null marker. -/
def TypeMapMatchesSpec (expected derived : TypeMapL) : Prop :=
  (∀ kv ∈ expected, ∃ dm, derived.lookup kv.1 = some dm ∧
    (kv.2 = dm ∨ (kv.2.isNullable = true ∧
      (dm = ⟨kv.2.type, kv.2.isList, false⟩ ∨ dm = ⟨.Nullable, false, true⟩)))) ∧
  (∀ kv ∈ derived, (expected.lookup kv.1).isSome = true)

theorem typeMapEquiv_iff_spec (expected derived : TypeMapL) :
    typeMapEquiv expected derived = true ↔ TypeMapMatchesSpec expected derived := by
  unfold typeMapEquiv TypeMapMatchesSpec
  rw [Bool.and_eq_true, List.all_eq_true, List.all_eq_true]
  apply and_congr
  · apply forall_congr'
    intro kv
    apply imp_congr Iff.rfl
    cases hdl : derived.lookup kv.1 with
    | none => simp
    | some dm =>
        simp only [metaRelaxEq, Bool.or_eq_true, Bool.and_eq_true, beq_iff_eq]
        constructor
        · rintro (h | ⟨h1, h2 | h2⟩)
          · exact ⟨dm, rfl, Or.inl h⟩
          · exact ⟨dm, rfl, Or.inr ⟨h1, Or.inl h2.symm⟩⟩
          · exact ⟨dm, rfl, Or.inr ⟨h1, Or.inr h2⟩⟩
        · rintro ⟨dm', hdm', h⟩
          obtain rfl : dm = dm' := by injection hdm'
          rcases h with h | ⟨h1, h2 | h2⟩
          · exact Or.inl h
          · exact Or.inr ⟨h1, Or.inl h2.symm⟩
          · exact Or.inr ⟨h1, Or.inr h2⟩
  · apply forall_congr'
    intro kv
    apply imp_congr Iff.rfl
    rfl

theorem inferFieldMeta_error (v : Value) (err : Err)
    (h : inferFieldMeta v = .error err) : err = .unsupportedType := by
  cases v with
  | boolean b => exact Except.noConfusion h
  | number q => exact Except.noConfusion h
  | str s => exact Except.noConfusion h
  | date ms => exact Except.noConfusion h
  | url s => exact Except.noConfusion h
  | vnull => exact Except.noConfusion h
  | embedded j =>
      have hit : inferTypeByValue (Value.embedded j) = .ok .Embedded := by
        simp [inferTypeByValue, valueToJSON_embedded]
      simp only [inferFieldMeta, hit] at h
      exact Except.noConfusion h
  | list xs =>
      cases xs with
      | nil => injection h with h'; exact h'.symm
      | cons x xt =>
          have hred : inferFieldMeta (Value.list (x :: xt)) =
              (inferTypeByValue x).map fun t => ⟨t, true, false⟩ := rfl
          rw [hred] at h
          cases x with
          | boolean b => exact Except.noConfusion h
          | number q => exact Except.noConfusion h
          | str s => exact Except.noConfusion h
          | date ms => exact Except.noConfusion h
          | url s => exact Except.noConfusion h
          | vnull => exact Except.noConfusion h
          | embedded j =>
              have hit : inferTypeByValue (Value.embedded j) = .ok .Embedded := by
                simp [inferTypeByValue, valueToJSON_embedded]
              rw [hit] at h
              exact Except.noConfusion h
          | list ys =>
              cases hys : valueToJSON (Value.list ys) with
              | none =>
                  have hit : inferTypeByValue (Value.list ys) =
                      .error .unsupportedType := by
                    simp [inferTypeByValue, hys]
                  rw [hit] at h
                  injection h with h'
                  exact h'.symm
              | some j =>
                  have hit : inferTypeByValue (Value.list ys) = .ok .Embedded := by
                    simp [inferTypeByValue, hys]
                  rw [hit] at h
                  exact Except.noConfusion h

theorem inferTypeMapFromEntry_error (e : Entry) (err : Err)
    (h : inferTypeMapFromEntry e = .error err) :
    err = .nonCompliantKey ∨ err = .unsupportedType := by
  induction e with
  | nil => simp [inferTypeMapFromEntry] at h
  | cons kv rest ih =>
      obtain ⟨k, v⟩ := kv
      unfold inferTypeMapFromEntry at h
      by_cases hk : keyCompliant k = true
      · rw [if_pos hk] at h
        cases hm : inferFieldMeta v with
        | error e' =>
            rw [hm] at h
            injection h with h'
            subst h'
            exact Or.inr (inferFieldMeta_error v e' hm)
        | ok m =>
            rw [hm] at h
            cases hr : inferTypeMapFromEntry rest with
            | error e2 =>
                rw [hr] at h
                injection h with h'
                subst h'
                exact ih hr
            | ok tl =>
                rw [hr] at h
                exact Except.noConfusion h
      · rw [if_neg hk] at h
        injection h with h'
        exact Or.inl h'.symm

/-- Plain deep equality of the maps implies the relaxed per-field
comparison. -/
theorem jsEq_imp_equiv (M D : TypeMapL) (h : jsEqTypeMap M D = true) :
    typeMapEquiv M D = true := by
  unfold jsEqTypeMap at h
  unfold typeMapEquiv
  rw [Bool.and_eq_true, List.all_eq_true, List.all_eq_true] at h ⊢
  obtain ⟨h1, h2⟩ := h
  constructor
  · intro kv hkv
    have hl : D.lookup kv.1 = some kv.2 := beq_iff_eq.mp (h1 kv hkv)
    rw [hl]
    simp [metaRelaxEq]
  · intro kv hkv
    have hl : M.lookup kv.1 = some kv.2 := beq_iff_eq.mp (h2 kv hkv)
    rw [hl]
    rfl

/-- The C8 scenario: an expected map with a field literally named
`isNullable` (a compliant field name), nullable, met by the null
marker. -/
def MC8 : TypeMapL := [("isNullable", ⟨.String, false, true⟩)]

def eC8 : Entry := [("isNullable", Value.vnull)]

def DC8 : TypeMapL := [("isNullable", ⟨.Nullable, false, true⟩)]

/-- C8 counterexample: the derived map matches the expected one in the
sense worded by the specification (the nullable field meets the null
marker), yet `validate` raises `Validation` — the top-level customizer
call sees a truthy `typeMap.isNullable` and short-circuits to plain deep
equality, skipping the per-field relaxation. -/
theorem claim_C8_counterexample :
    inferTypeMapFromEntry eC8 = .ok DC8 ∧
    TypeMapMatchesSpec MC8 DC8 ∧
    validate MC8 eC8 = .error .validation := by
  refine ⟨rfl, ⟨?_, ?_⟩, rfl⟩
  · intro kv hkv
    rcases List.mem_singleton.mp hkv with rfl
    exact ⟨⟨.Nullable, false, true⟩, rfl, Or.inr ⟨rfl, Or.inr rfl⟩⟩
  · intro kv hkv
    rcases List.mem_singleton.mp hkv with rfl
    rfl

/-- Claim C8, amended.  For every expected type map without a field
literally named `isNullable`, `validate` raises a `Validation` error iff
the type map derived from the entry exists and is not structurally equal
to the expected map modulo the nullable relaxation (as worded by the
specification); derivation failures surface as their own error kinds,
never as `Validation`.  Maps carrying a field named `isNullable` trip
the top-level customizer short-circuit instead
(`claim_C8_counterexample`). -/
theorem claim_C8_validate_iff (M : TypeMapL) (e : Entry)
    (hno : M.lookup "isNullable" = (none : Option TypeMeta)) :
    validate M e = .error .validation ↔
      ∃ D, inferTypeMapFromEntry e = .ok D ∧ ¬ TypeMapMatchesSpec M D := by
  unfold validate
  cases hinf : inferTypeMapFromEntry e with
  | error err =>
      simp only
      constructor
      · intro h
        obtain rfl : err = Err.validation := by injection h
        rcases inferTypeMapFromEntry_error e _ hinf with h' | h' <;> simp at h'
      · rintro ⟨D, hD, _⟩
        exact Except.noConfusion hD
  | ok D =>
      simp only
      have hcond : (typeMapEqualWith M D = true) ↔ typeMapEquiv M D = true := by
        unfold typeMapEqualWith
        rw [hno]
        by_cases hje : jsEqTypeMap M D = true
        · rw [if_pos hje]
          exact ⟨fun _ => jsEq_imp_equiv M D hje, fun _ => rfl⟩
        · rw [if_neg hje]
      by_cases heq : typeMapEquiv M D = true
      · rw [if_pos (hcond.mpr heq)]
        simp only [reduceCtorEq, false_iff, not_exists]
        rintro D' ⟨hD', hnm⟩
        obtain rfl : D = D' := by injection hD'
        exact hnm ((typeMapEquiv_iff_spec M D).mp heq)
      · rw [if_neg fun hc => heq (hcond.mp hc)]
        simp only [true_iff]
        refine ⟨D, rfl, fun hm => heq ((typeMapEquiv_iff_spec M D).mpr hm)⟩

/-- Witness for the amended C8 at a concrete map and entry. -/
theorem claim_C8_validate_iff_witness :
    ([("a", (⟨.Number, false, false⟩ : TypeMeta))] : TypeMapL).lookup
      "isNullable" = none ∧
    (validate [("a", ⟨.Number, false, false⟩)] [("a", Value.str "x")] =
        .error .validation ↔
      ∃ D, inferTypeMapFromEntry [("a", Value.str "x")] = .ok D ∧
        ¬ TypeMapMatchesSpec [("a", ⟨.Number, false, false⟩)] D) :=
  ⟨rfl, claim_C8_validate_iff [("a", ⟨.Number, false, false⟩)]
    [("a", Value.str "x")] rfl⟩

/-! ## JavaScript collection semantics

Helpers modelling the exact behaviour of the JS constructs the stores
use: the `>` comparator on index values, `Array.prototype.sort` with the
`byKey` comparator (V8: stable, ascending, ties keep submission order),
lodash `uniqBy` (keeps the first occurrence, comparing computed keys with
SameValueZero: value equality for primitives, reference equality for
objects — two separately materialised `Date`/`URL` objects are never
SameValueZero-equal, which the model renders as `false` for object
kinds), and lodash `chunk`. -/

/-- The JS `>` on two field values (`byKey` in csv/index.ts and the
append decision): numeric for numbers and dates (dates compare by their
time value), lexicographic for strings and URLs (objects convert to their
primitive string), `false` for any mixed or incomparable pair. -/
def jsGTv : Value → Value → Bool
  | .number a, .number b => b < a
  | .date a, .date b => b < a
  | .str a, .str b => b < a
  | .url a, .url b => b < a
  | .boolean a, .boolean b => b < a
  | _, _ => false

/-- The JS `>` lifted to possibly-`undefined` operands: any comparison
with `undefined` is `false`. -/
def jsGTo : Option Value → Option Value → Bool
  | some a, some b => jsGTv a b
  | _, _ => false

/-- `entry[index]` where `index` itself may be `undefined`. -/
def entryKeyO (idx : Option String) (e : Entry) : Option Value :=
  idx.bind fun i => e.lookup i

/-- The `byKey` comparator read as "a strictly after b". -/
def byKeyGT (idx : Option String) (a b : Entry) : Bool :=
  jsGTo (entryKeyO idx a) (entryKeyO idx b)

/-- Insert an element into a sorted list directly before the first
element strictly greater than it — the V8 insertion-sort placement for a
comparator that never returns 0, which keeps ties in submission order. -/
def insertByKey {α : Type} (gt : α → α → Bool) (e : α) : List α → List α
  | [] => [e]
  | x :: xs => if gt x e then e :: x :: xs else x :: insertByKey gt e xs

/-- `Array.prototype.sort` with the `byKey` comparator: stable ascending
insertion sort. -/
def jsSortBy {α : Type} (gt : α → α → Bool) (l : List α) : List α :=
  l.foldl (fun acc e => insertByKey gt e acc) []

/-- SameValueZero on two field values: value equality for the primitive
kinds and `null`, reference equality (never true across separate
materialisations, rendered `false`) for object kinds. -/
def svzEq : Value → Value → Bool
  | .number a, .number b => a == b
  | .str a, .str b => a == b
  | .boolean a, .boolean b => a == b
  | .vnull, .vnull => true
  | _, _ => false

/-- SameValueZero on possibly-`undefined` values
(`undefined === undefined` holds). -/
def svzEqO : Option Value → Option Value → Bool
  | some a, some b => svzEq a b
  | none, none => true
  | _, _ => false

/-- lodash `uniqBy` keyed on `entry[index]`: keep an entry iff no kept
entry before it has a SameValueZero-equal key. -/
def uniqByKeyAux (idx : Option String) (seen : List (Option Value)) :
    List Entry → List Entry
  | [] => []
  | e :: rest =>
      if seen.any fun s => svzEqO s (entryKeyO idx e) then
        uniqByKeyAux idx seen rest
      else
        e :: uniqByKeyAux idx (entryKeyO idx e :: seen) rest

/-- lodash `uniqBy` keyed on the index value. -/
def uniqByKey (idx : Option String) (l : List Entry) : List Entry :=
  uniqByKeyAux idx [] l

/-- Keep the first occurrence of every string (the writer-set key
enumeration of `put`, which creates one writer per distinct partition). -/
def dedupFirst : List String → List String
  | [] => []
  | s :: rest => s :: dedupFirst (rest.filter fun x => !(x == s))
termination_by l => l.length
decreasing_by
  simp only [List.length_cons]
  exact Nat.lt_succ_of_le (List.length_filter_le _ rest)

/-- lodash `chunk` with positive size (recursion on fuel). -/
def jsChunkGo {α : Type} (size : Nat) : Nat → List α → List (List α)
  | _, [] => []
  | 0, _ => []
  | fuel + 1, l => l.take size :: jsChunkGo size fuel (l.drop size)

/-- lodash `chunk`: split into groups of `size`; `chunk(l, 0)` is `[]`. -/
def jsChunk {α : Type} (size : Nat) (l : List α) : List (List α) :=
  if size = 0 then [] else jsChunkGo size l.length l

/-- lodash `isEqual` on two schemas (`ensureSchemaAgreed`). -/
def jsEqSchema (a b : SchemaL) : Bool :=
  a.index == b.index && jsEqTypeMap a.map b.map

/-- Reduction of an `Except` bind on a success. -/
theorem exceptBind_ok {ε α β : Type} (a : α) (f : α → Except ε β) :
    Except.bind (.ok a) f = f a := rfl

/-- Reduction of an `Except` bind on a failure. -/
theorem exceptBind_error {ε α β : Type} (e : ε) (f : α → Except ε β) :
    Except.bind (.error e) f = .error e := rfl

/-! ## The CSV store (`src/source/entry/csv/index.ts`)

State model: `schema.json` as an optional encoded schema, each partition
file as a header line plus parsed rows (the `columns: true` view of the
`csv-parse`/`csv-stringify` round trip), and the in-memory schema cache.
The storage adapter is abstracted to this file map; the partitioner is an
explicit pair of functions (§4.D of the spec treats it as an interface).
-/

namespace CSV

/-- A parsed CSV row: field name to hydrated cell, in column order. -/
abbrev RowN := List (String × Cell)

/-- One partition file: the header line and the data rows. -/
structure CSVFile where
  header : List String
  rows : List RowN

/-- A partitioner instance: `getPartition` maps an index value (possibly
`undefined`) to a partition name; `getRange` returns the first and last
of a list of populated partition names. -/
structure Partitioner where
  getPartition : Option Value → String
  getRange : List String → Option (String × String)

/-- Persistent plus cached state of a `CSVStore`. -/
structure CSVState where
  schemaFile : Option (List (String × String))
  files : List (String × CSVFile)
  cache : Option SchemaL

/-- Construction options: the partitioner, and the declared template as
an explicit schema value (§9 of the spec: the decorator reflection
amounts to such a value via `getSchemaFromPrototype`). -/
structure CSVConfig where
  partitioner : Partitioner
  template : Option SchemaL

/-- Update or create one file in the adapter namespace. -/
def setFile : List (String × CSVFile) → String → CSVFile →
    List (String × CSVFile)
  | [], p, f => [(p, f)]
  | kv :: rest, p, f =>
      if kv.1 == p then (p, f) :: rest else kv :: setFile rest p f

/-- String equality of two written cells (`===` on the parsed column and
the hydrated probe).  Wire forms of distinct constructors can only meet
for mixed-kind columns, which well-typed stores never produce; the model
compares them as unequal. -/
def cellBeq : Cell → Cell → Bool
  | .dec a, .dec b => a == b
  | .raw a, .raw b => a == b
  | _, _ => false

/-- `===` against a possibly-absent column value. -/
def cellBeqO : Option Cell → Option Cell → Bool
  | some a, some b => cellBeq a b
  | _, _ => false

/-- `mapValues(entry, hydrate)`: hydrate every field of an entry. -/
def hydrateEntry (e : Entry) : Except Err RowN :=
  e.mapM fun kv => do pure (kv.1, ← hydrate kv.2)

/-- `dehydrateNative`: dehydrate every column of a parsed row according
to the schema map (`map[key]` being `undefined` crashes the source; the
model reports an error, a state well-typed stores never reach). -/
def dehydrateRow (map : TypeMapL) (r : RowN) : Except Err Entry :=
  r.mapM fun kv =>
    match map.lookup kv.1 with
    | some meta => do pure (kv.1, ← dehydrate meta kv.2)
    | none => .error .unsupportedType

/-- `getSchema`: read and decode `schema.json`, `undefined` on any
failure. -/
def getStoredSchema (st : CSVState) : Option SchemaL :=
  st.schemaFile.bind fun enc => decodeSchema enc

/-- `initialise` (csv/index.ts, lines 357-382): persist the template on
first-time initialisation, otherwise reconcile template and stored
schema (`ensureSchemaAgreed`), failing with `MissingSchema` when neither
exists. -/
def initialise (cfg : CSVConfig) (st : CSVState) :
    Except Err (SchemaL × CSVState) :=
  match getStoredSchema st, cfg.template with
  | none, some p => .ok (p, { st with schemaFile := some (encodeSchema p) })
  | some s, some p =>
      if jsEqSchema p s then .ok (p, st) else .error .schemaMismatched
  | some s, none => .ok (s, st)
  | none, none => .error .missingSchema

/-- `ensureSchema`: resolve once and cache. -/
def ensureSchema (cfg : CSVConfig) (st : CSVState) :
    Except Err (SchemaL × CSVState) :=
  match st.cache with
  | some s => .ok (s, st)
  | none =>
      (initialise cfg st).map fun p => (p.1, { p.2 with cache := some p.1 })

/-- The rows stored in a partition (`getCSVEntries`): empty when the
file does not exist. -/
def partitionRows (st : CSVState) (p : String) : List RowN :=
  match st.files.lookup p with
  | some f => f.rows
  | none => []

/-- The first entry of an existing partition file as the writer probes it
(`getFirst(partition)`: header plus first row; a row-less file parses to
no native entry and dehydrates to the empty object). -/
def firstEntryOfFile (map : TypeMapL) (f : CSVFile) : Except Err Entry :=
  match f.rows.head? with
  | none => .ok []
  | some r => dehydrateRow map r

/-- The last entry of an existing partition file as the writer probes it
(`getLast(partition)`: header plus tail line). -/
def lastEntryOfFile (map : TypeMapL) (f : CSVFile) : Except Err Entry :=
  match f.rows.getLast? with
  | none => .ok []
  | some r => dehydrateRow map r

/-- `mixPartitionWith` (csv/index.ts, lines 390-407): dehydrate the
existing rows, prepend the batch, deduplicate by index key with `uniqBy`
(first occurrence wins) and sort ascending. -/
def mixPartitionWith (schema : SchemaL) (st : CSVState) (p : String)
    (entries : List Entry) : Except Err (List Entry) := do
  let existing ← (partitionRows st p).mapM (dehydrateRow schema.map)
  pure (jsSortBy (byKeyGT schema.index) (uniqByKey schema.index (entries ++ existing)))

/-- The append-versus-rewrite decision of `createWriter` (csv/index.ts,
lines 219-223): `first && last && sortedEntries[0][index] > last[index]`.
When the file exists, `first` and `last` are always truthy (an empty
object for a row-less file), so the condition reduces to the file
existing and the comparison holding; a comparison against `undefined` is
`false`. -/
def decideAppend (idx : Option String) (fileExists : Bool)
    (batchHead lastE : Option Entry) : Bool :=
  fileExists && jsGTo (batchHead.bind (entryKeyO idx))
    (lastE.bind (entryKeyO idx))

/-- The writer probe of the partition\'s current first and last entries
(`createWriter`, csv/index.ts lines 210-217): `getFirst` is awaited first
and may fail, then `getLast`. -/
def probeLast (map : TypeMapL) : Option CSVFile → Except Err (Option Entry)
  | none => pure none
  | some f => do
      let _ ← firstEntryOfFile map f
      (lastEntryOfFile map f).map some

/-- The cargo worker of `createWriter` (csv/index.ts, lines 201-238),
processing one batch for one partition: validate, probe the partition,
sort the batch, decide the mode, then append the hydrated rows or
rewrite the whole partition (header first).  Append mode emits the lines
with `header: false`: `csv-stringify` takes its columns from the FIRST
record of the batch and writes each record positionally under them, and
the appended lines later re-parse keyed by the EXISTING file header —
modelled by pairing the file header with each hydrated row read back in
the first-record column order (`zip` truncation stands for a
column-count mismatch, an empty cell for a missing record field). -/
def writePartition (schema : SchemaL) (st : CSVState) (p : String)
    (batch : List Entry) : Except Err CSVState := do
  let _ ← batch.forM fun e => validate schema.map e
  let file? := st.files.lookup p
  let lastE? ← probeLast schema.map file?
  let sortedB := jsSortBy (byKeyGT schema.index) batch
  if decideAppend schema.index file?.isSome sortedB.head? lastE? then
    let rowsNew ← sortedB.mapM hydrateEntry
    let cols := match rowsNew.head? with
      | some r0 => r0.map Prod.fst
      | none => []
    match file? with
    | some f =>
        let rowsAppended := rowsNew.map fun r =>
          f.header.zip (cols.map fun c => ((r.lookup c).getD (Cell.raw "")))
        pure { st with files := setFile st.files p ⟨f.header, f.rows ++ rowsAppended⟩ }
    | none => .error .storageNotFound
  else
    let merged ← mixPartitionWith schema st p sortedB
    let rowsNew ← merged.mapM hydrateEntry
    let header := match merged.head? with
      | some e => e.map Prod.fst
      | none => []
    pure { st with files := setFile st.files p ⟨header, rowsNew⟩ }

/-- `put` (csv/index.ts, lines 169-194): resolve the schema, validate,
sort the batch, bucket by partition in first-occurrence order and drain
each partition's writer. -/
def put (cfg : CSVConfig) (st : CSVState) (entries : List Entry) :
    Except Err CSVState := do
  let (schema, st1) ← ensureSchema cfg st
  let _ ← entries.forM fun e => validate schema.map e
  let sorted := jsSortBy (byKeyGT schema.index) entries
  let partOf := fun e => cfg.partitioner.getPartition (entryKeyO schema.index e)
  let parts := dedupFirst (sorted.map partOf)
  parts.foldlM
    (fun stAcc pt => writePartition schema stAcc pt (sorted.filter fun e => partOf e == pt))
    st1

/-- `get` (csv/index.ts, lines 151-163): hydrate the key, load the
partition the partitioner names, find the row whose index column equals
the hydrated key (`===` on strings) and dehydrate it. -/
def get (cfg : CSVConfig) (st : CSVState) (key : Value) :
    Except Err (Option Entry × CSVState) := do
  let (schema, st1) ← ensureSchema cfg st
  let encodedKey ← hydrate key
  let pt := cfg.partitioner.getPartition (some key)
  match (partitionRows st1 pt).find? fun r =>
      cellBeqO (schema.index.bind fun i => r.lookup i) (some encodedKey) with
  | some r => do pure (some (← dehydrateRow schema.map r), st1)
  | none => pure (none, st1)

/-- `collection("csv")` through the local adapter: the csv files of the
root, alphabetically. -/
def collectionNames (st : CSVState) : List String :=
  jsSortBy (fun a b : String => decide (b < a)) (st.files.map Prod.fst)

/-- `partitionRange`: the partitioner's range over the populated
partition names. -/
def partitionRange (cfg : CSVConfig) (st : CSVState) : Option (String × String) :=
  cfg.partitioner.getRange (collectionNames st)

/-- `getFirst` with no explicit partition (csv/index.ts, lines 299-313):
resolve the schema, locate the first populated partition, read its first
row. -/
def getFirst (cfg : CSVConfig) (st : CSVState) :
    Except Err (Option Entry × CSVState) := do
  let (schema, st1) ← ensureSchema cfg st
  match partitionRange cfg st1 with
  | none => pure (none, st1)
  | some (f, _) =>
      match st1.files.lookup f with
      | none => .error .storageNotFound
      | some file =>
          match file.rows.head? with
          | none => pure (some [], st1)
          | some r => do pure (some (← dehydrateRow schema.map r), st1)

/-- `getLast` with no explicit partition (csv/index.ts, lines 320-334). -/
def getLast (cfg : CSVConfig) (st : CSVState) :
    Except Err (Option Entry × CSVState) := do
  let (schema, st1) ← ensureSchema cfg st
  match partitionRange cfg st1 with
  | none => pure (none, st1)
  | some (_, l) =>
      match st1.files.lookup l with
      | none => .error .storageNotFound
      | some file =>
          match file.rows.getLast? with
          | none => pure (some [], st1)
          | some r => do pure (some (← dehydrateRow schema.map r), st1)

/-- `firstKey` (csv/index.ts, lines 128-132): the getter captures
`this.schema?.index` *before* awaiting `first`, then evaluates
`index && entry?.[index]`. -/
def firstKey (cfg : CSVConfig) (st : CSVState) :
    Except Err (Option Value × CSVState) := do
  let idxBefore := st.cache.bind fun s => s.index
  let (e?, st') ← getFirst cfg st
  pure ((match idxBefore with
    | none => none
    | some i => e?.bind fun e => e.lookup i), st')

/-- `lastKey` (csv/index.ts, lines 140-144), same early capture. -/
def lastKey (cfg : CSVConfig) (st : CSVState) :
    Except Err (Option Value × CSVState) := do
  let idxBefore := st.cache.bind fun s => s.index
  let (e?, st') ← getLast cfg st
  pure ((match idxBefore with
    | none => none
    | some i => e?.bind fun e => e.lookup i), st')

/-- `fields`: the keys of the resolved schema map. -/
def fields (cfg : CSVConfig) (st : CSVState) :
    Except Err (List String × CSVState) := do
  let (schema, st1) ← ensureSchema cfg st
  pure (schema.map.map Prod.fst, st1)

end CSV

/-! ## The SQLite store (`src/source/entry/sqlite/index.ts`)

State model: the `schema` table as an optional encoded schema row, the
`records` table as a list of rows in insertion order with the primary-key
constraint enforced by `ON CONFLICT DO NOTHING`, and the in-memory
schema cache.  The per-task open/close of the database file carries no
state at this level; the single-slot write queue serialises `put` tasks,
so a `put` is one atomic state transition here. -/

namespace SQLite

/-- A stored record row: column name to stored value, in column order. -/
abbrev RowS := List (String × Cell)

/-- Persistent plus cached state of a `SQLiteStore`. -/
structure SQLState where
  schemaTable : Option (List (String × String))
  records : List RowS
  cache : Option SchemaL

/-- Construction options: the declared template as an explicit schema
value. -/
structure SQLConfig where
  template : Option SchemaL

/-- Drop the first `!` of a legacy token. -/
def removeFirstBang : List Char → List Char
  | [] => []
  | c :: cs => if c = '!' then cs else c :: removeFirstBang cs

/-- The legacy-token rewrite of `getSchema`: a token containing `!`
becomes `*` plus the token with its first `!` removed. -/
def compatToken (tok : String) : String :=
  if tok.toList.contains '!' then String.mk ('*' :: removeFirstBang tok.toList)
  else tok

/-- `getSchema` (sqlite/index.ts, lines 281-320): read the schema row
(`undefined` when the table is missing), rewrite legacy `!` tokens to the
`*` convention, and when that changed anything overwrite the schema table
with the re-encoded schema. -/
def getSchema (st : SQLState) : Option SchemaL × SQLState :=
  match st.schemaTable with
  | none => (none, st)
  | some enc =>
      let compat := enc.map fun kv => (kv.1, compatToken kv.2)
      match decodeSchema compat with
      | none => (none, st)
      | some schema =>
          if compat == enc then (some schema, st)
          else (some schema, { st with schemaTable := some (encodeSchema schema) })

/-- `initialise` (sqlite/index.ts, lines 327-352): create both tables
and persist the template on first-time initialisation, otherwise
reconcile (`ensureSchemaAgreed`), failing with `MissingSchema` when
neither schema exists. -/
def initialise (cfg : SQLConfig) (st : SQLState) :
    Except Err (SchemaL × SQLState) :=
  match getSchema st with
  | (stored, st1) =>
      match stored, cfg.template with
      | none, some p =>
          .ok (p, { st1 with schemaTable := some (encodeSchema p), records := [] })
      | some s, some p =>
          if jsEqSchema p s then .ok (p, st1) else .error .schemaMismatched
      | some s, none => .ok (s, st1)
      | none, none => .error .missingSchema

/-- `ensureSchema`: resolve once and cache. -/
def ensureSchema (cfg : SQLConfig) (st : SQLState) :
    Except Err (SchemaL × SQLState) :=
  match st.cache with
  | some s => .ok (s, st)
  | none =>
      (initialise cfg st).map fun p => (p.1, { p.2 with cache := some p.1 })

/-- SQL `=` between a stored cell and a bound parameter (well-typed
columns meet same-kind values; mixed pairs never compare equal in any
state the theorems exercise). -/
def cellBeqS : Cell → Cell → Bool
  | .num a, .num b => a == b
  | .text a, .text b => a == b
  | _, _ => false

/-- SQL `=` against a possibly-absent column. -/
def cellBeqSO : Option Cell → Option Cell → Bool
  | some a, some b => cellBeqS a b
  | _, _ => false

/-- SQLite ordering of stored values: numerics before text, numerics by
value, text lexicographically. -/
def cellLtS : Cell → Cell → Bool
  | .num a, .num b => decide (a < b)
  | .num _, _ => true
  | _, .num _ => false
  | .text a, .text b => decide (a < b)
  | _, _ => false

/-- Build the parameter row of one entry: hydrate the entry, then read
the hydrated values in schema-field order (the `INSERT` lists columns in
that order). -/
def rowLookupOrdered (he : RowS) (fields : List String) : Except Err RowS :=
  fields.mapM fun f =>
    match he.lookup f with
    | some c => pure (f, c)
    | none => .error .storageNotFound

def entryRow (fields : List String) (e : Entry) : Except Err RowS := do
  let he ← e.mapM fun kv => do pure (kv.1, ← hydrate kv.2)
  rowLookupOrdered he fields

/-- Insert one row honouring `ON CONFLICT DO NOTHING`: skipped iff a
stored row already has an equal primary-key (index column) value; with
no index column declared there is no primary key and every row lands. -/
def insertRow (idx : Option String) (records : List RowS) (r : RowS) :
    List RowS :=
  match idx with
  | none => records ++ [r]
  | some i =>
      if records.any fun r0 => cellBeqSO (r0.lookup i) (r.lookup i) then records
      else records ++ [r]

/-- `put` (sqlite/index.ts, lines 136-166): a no-op for an empty batch;
otherwise resolve the schema, validate, chunk by
`floor(999 / fieldsCount)` and run one multi-row conflict-ignoring
insert per chunk. -/
def put (cfg : SQLConfig) (st : SQLState) (entries : List Entry) :
    Except Err SQLState :=
  if entries.isEmpty then .ok st
  else do
    let (schema, st1) ← ensureSchema cfg st
    let _ ← entries.forM fun e => validate schema.map e
    let fields := schema.map.map Prod.fst
    let chunks := jsChunk (999 / fields.length) entries
    let newRecords ← chunks.foldlM
      (fun recs chunk => do
        let rows ← chunk.mapM (entryRow fields)
        pure (rows.foldl (insertRow schema.index) recs))
      st1.records
    pure { st1 with records := newRecords }

/-- `get` (sqlite/index.ts, lines 112-130): select the row whose index
column equals the hydrated key and dehydrate each column. -/
def get (cfg : SQLConfig) (st : SQLState) (key : Value) :
    Except Err (Option Entry × SQLState) := do
  let (schema, st1) ← ensureSchema cfg st
  let k ← hydrate key
  match schema.index with
  | none => .error .storageNotFound
  | some i =>
      match st1.records.find? fun r => cellBeqSO (r.lookup i) (some k) with
      | some r => do
          pure (some (← r.mapM fun kv =>
            match schema.map.lookup kv.1 with
            | some meta => do pure (kv.1, ← dehydrate meta kv.2)
            | none => .error .unsupportedType), st1)
      | none => pure (none, st1)

/-- `mapValues(native, dehydrate)` over one stored row. -/
def dehydrateRowS (map : TypeMapL) (r : RowS) : Except Err Entry :=
  r.mapM fun kv =>
    match map.lookup kv.1 with
    | some meta => do pure (kv.1, ← dehydrate meta kv.2)
    | none => .error .unsupportedType

/-- `ORDER BY index ASC|DESC LIMIT 1`: the stored row whose index column
is least (ascending) or greatest (descending); rows are unique on the
index column in every state the theorems exercise, so tie order is
immaterial. -/
def selectTop (asc : Bool) (i : String) (records : List RowS) : Option RowS :=
  records.foldl
    (fun best r =>
      match best with
      | none => some r
      | some b =>
          let cmp := match r.lookup i, b.lookup i with
            | some rc, some bc => if asc then cellLtS rc bc else cellLtS bc rc
            | _, _ => false
          if cmp then some r else some b)
    none

/-- `getTop` with ascending order (`first`). -/
def getFirst (cfg : SQLConfig) (st : SQLState) :
    Except Err (Option Entry × SQLState) := do
  let (schema, st1) ← ensureSchema cfg st
  match schema.index with
  | none => .error .storageNotFound
  | some i =>
      match selectTop true i st1.records with
      | none => pure (none, st1)
      | some r => do pure (some (← dehydrateRowS schema.map r), st1)

/-- `getTop` with descending order (`last`). -/
def getLast (cfg : SQLConfig) (st : SQLState) :
    Except Err (Option Entry × SQLState) := do
  let (schema, st1) ← ensureSchema cfg st
  match schema.index with
  | none => .error .storageNotFound
  | some i =>
      match selectTop false i st1.records with
      | none => pure (none, st1)
      | some r => do pure (some (← dehydrateRowS schema.map r), st1)

/-- `firstKey` (sqlite/index.ts, lines 93-95): projects
`entry?.[this.schema!.index]` *after* `first` resolved, so it reads the
resolved cache. -/
def firstKey (cfg : SQLConfig) (st : SQLState) :
    Except Err (Option Value × SQLState) := do
  let (e?, st') ← getFirst cfg st
  pure ((e?.bind fun e => st'.cache.bind fun s => s.index.bind fun i => e.lookup i), st')

/-- `lastKey` (sqlite/index.ts, lines 103-105). -/
def lastKey (cfg : SQLConfig) (st : SQLState) :
    Except Err (Option Value × SQLState) := do
  let (e?, st') ← getLast cfg st
  pure ((e?.bind fun e => st'.cache.bind fun s => s.index.bind fun i => e.lookup i), st')

/-- `fields`: the keys of the resolved schema map. -/
def fields (cfg : SQLConfig) (st : SQLState) :
    Except Err (List String × SQLState) := do
  let (schema, st1) ← ensureSchema cfg st
  pure (schema.map.map Prod.fst, st1)

end SQLite

/-! ## Claim C7: schema reconciliation on first resolution -/

/-- Claim C7.  On first schema resolution of either store: template and
persisted schema both present and structurally equal proceeds (with the
template as the resolved schema); both present and unequal fails with
`SchemaMismatched`; neither fails with `MissingSchema`; exactly one
present uses that one, a template being persisted on first creation. -/
theorem claim_C7_schema_resolution
    (cfg : CSV.CSVConfig) (st : CSV.CSVState)
    (scfg : SQLite.SQLConfig) (sst : SQLite.SQLState) :
    ((∀ s p, CSV.getStoredSchema st = some s → cfg.template = some p →
      (jsEqSchema p s = true → CSV.initialise cfg st = .ok (p, st)) ∧
      (jsEqSchema p s = false → CSV.initialise cfg st = .error .schemaMismatched)) ∧
    (CSV.getStoredSchema st = none → cfg.template = none →
      CSV.initialise cfg st = .error .missingSchema) ∧
    (∀ s, CSV.getStoredSchema st = some s → cfg.template = none →
      CSV.initialise cfg st = .ok (s, st)) ∧
    (∀ p, CSV.getStoredSchema st = none → cfg.template = some p →
      CSV.initialise cfg st =
        .ok (p, { st with schemaFile := some (encodeSchema p) }))) ∧
    ((∀ s p st1, SQLite.getSchema sst = (some s, st1) → scfg.template = some p →
      (jsEqSchema p s = true → SQLite.initialise scfg sst = .ok (p, st1)) ∧
      (jsEqSchema p s = false →
        SQLite.initialise scfg sst = .error .schemaMismatched)) ∧
    (∀ st1, SQLite.getSchema sst = (none, st1) → scfg.template = none →
      SQLite.initialise scfg sst = .error .missingSchema) ∧
    (∀ s st1, SQLite.getSchema sst = (some s, st1) → scfg.template = none →
      SQLite.initialise scfg sst = .ok (s, st1)) ∧
    (∀ p st1, SQLite.getSchema sst = (none, st1) → scfg.template = some p →
      SQLite.initialise scfg sst =
        .ok (p, { st1 with schemaTable := some (encodeSchema p), records := [] }))) := by
  refine ⟨⟨?_, ?_, ?_, ?_⟩, ⟨?_, ?_, ?_, ?_⟩⟩
  · intro s p hs hp
    constructor <;> intro heq <;> unfold CSV.initialise <;> rw [hs, hp] <;> simp [heq]
  · intro hs hp
    unfold CSV.initialise; rw [hs, hp]
  · intro s hs hp
    unfold CSV.initialise; rw [hs, hp]
  · intro p hs hp
    unfold CSV.initialise; rw [hs, hp]
  · intro s p st1 hs hp
    constructor <;> intro heq <;> unfold SQLite.initialise <;> rw [hs, hp] <;> simp [heq]
  · intro st1 hs hp
    unfold SQLite.initialise; rw [hs, hp]
  · intro s st1 hs hp
    unfold SQLite.initialise; rw [hs, hp]
  · intro p st1 hs hp
    unfold SQLite.initialise; rw [hs, hp]

/-- A second sample schema differing from `sampleSchema` by an extra
field (the spec's S6 scenario). -/
def sampleSchemaExtra : SchemaL :=
  ⟨some "timestamp",
    [("timestamp", ⟨.Date, false, false⟩), ("value", ⟨.String, false, false⟩),
      ("additional", ⟨.String, false, false⟩)]⟩

/-- Witness for C7: on a CSV backing persisted from `sampleSchema`, a
matching template proceeds, a mismatching one fails with
`SchemaMismatched`; on an empty backing without a template resolution
fails with `MissingSchema`, and with a template it persists it. -/
theorem claim_C7_schema_resolution_witness :
    (CSV.initialise ⟨⟨fun _ => "p", fun _ => none⟩, some sampleSchema⟩
      ⟨some (encodeSchema sampleSchema), [], none⟩ =
        .ok (sampleSchema, ⟨some (encodeSchema sampleSchema), [], none⟩)) ∧
    (CSV.initialise ⟨⟨fun _ => "p", fun _ => none⟩, some sampleSchemaExtra⟩
      ⟨some (encodeSchema sampleSchema), [], none⟩ = .error .schemaMismatched) ∧
    (SQLite.initialise ⟨none⟩ ⟨none, [], none⟩ = .error .missingSchema) ∧
    (SQLite.initialise ⟨some sampleSchema⟩ ⟨none, [], none⟩ =
      .ok (sampleSchema, ⟨some (encodeSchema sampleSchema), [], none⟩)) := by
  refine ⟨?_, ?_, ?_, ?_⟩
  · exact ((claim_C7_schema_resolution
      ⟨⟨fun _ => "p", fun _ => none⟩, some sampleSchema⟩
      ⟨some (encodeSchema sampleSchema), [], none⟩
      ⟨none⟩ ⟨none, [], none⟩).1.1 sampleSchema sampleSchema (by decide) rfl).1 (by decide)
  · exact ((claim_C7_schema_resolution
      ⟨⟨fun _ => "p", fun _ => none⟩, some sampleSchemaExtra⟩
      ⟨some (encodeSchema sampleSchema), [], none⟩
      ⟨none⟩ ⟨none, [], none⟩).1.1 sampleSchema sampleSchemaExtra (by decide) rfl).2 (by decide)
  · exact (claim_C7_schema_resolution
      ⟨⟨fun _ => "p", fun _ => none⟩, none⟩ ⟨none, [], none⟩
      ⟨none⟩ ⟨none, [], none⟩).2.2.1 ⟨none, [], none⟩ rfl rfl
  · exact (claim_C7_schema_resolution
      ⟨⟨fun _ => "p", fun _ => none⟩, none⟩ ⟨none, [], none⟩
      ⟨some sampleSchema⟩ ⟨none, [], none⟩).2.2.2.2 sampleSchema ⟨none, [], none⟩ rfl rfl

/-! ## Claim C10: schema immutability after resolution -/

theorem csv_ensureSchema_hit (cfg : CSV.CSVConfig) (st : CSV.CSVState)
    (s : SchemaL) (hc : st.cache = some s) :
    CSV.ensureSchema cfg st = .ok (s, st) := by
  unfold CSV.ensureSchema
  rw [hc]

theorem sql_ensureSchema_hit (cfg : SQLite.SQLConfig) (st : SQLite.SQLState)
    (s : SchemaL) (hc : st.cache = some s) :
    SQLite.ensureSchema cfg st = .ok (s, st) := by
  unfold SQLite.ensureSchema
  rw [hc]

theorem csv_writePartition_preserves (schema : SchemaL) (st : CSV.CSVState)
    (p : String) (batch : List Entry) (st' : CSV.CSVState)
    (h : CSV.writePartition schema st p batch = .ok st') :
    st'.cache = st.cache ∧ st'.schemaFile = st.schemaFile := by
  unfold CSV.writePartition at h
  simp only [bind, Except.bind, pure, Except.pure] at h
  repeat' split at h
  all_goals
    first
      | exact Except.noConfusion h
      | (injection h with h'; subst h'; exact ⟨rfl, rfl⟩)

theorem csv_foldlM_writePartition_preserves (schema : SchemaL)
    (g : String → List Entry) (parts : List String) :
    ∀ st0 st', parts.foldlM (fun stA pt => CSV.writePartition schema stA pt (g pt)) st0 =
        .ok st' →
      st'.cache = st0.cache ∧ st'.schemaFile = st0.schemaFile := by
  induction parts with
  | nil =>
      intro st0 st' h
      obtain rfl : st0 = st' := by injection h
      exact ⟨rfl, rfl⟩
  | cons pt rest ih =>
      intro st0 st' h
      rw [List.foldlM_cons] at h
      cases hw : CSV.writePartition schema st0 pt (g pt) with
      | error e => rw [hw] at h; exact Except.noConfusion h
      | ok st1 =>
          rw [hw] at h
          have h1 := csv_writePartition_preserves schema st0 pt (g pt) st1 hw
          have h2 := ih st1 st' h
          exact ⟨h2.1.trans h1.1, h2.2.trans h1.2⟩

/-- The public operations of the CSV store. -/
inductive CSVOp where
  | opPut (entries : List Entry)
  | opGet (key : Value)
  | opFirst | opLast | opFirstKey | opLastKey | opFields

/-- One public operation as a state transition of the CSV store. -/
def CSVStep (cfg : CSV.CSVConfig) (st : CSV.CSVState) : CSVOp → Except Err CSV.CSVState
  | .opPut es => CSV.put cfg st es
  | .opGet k => (CSV.get cfg st k).map Prod.snd
  | .opFirst => (CSV.getFirst cfg st).map Prod.snd
  | .opLast => (CSV.getLast cfg st).map Prod.snd
  | .opFirstKey => (CSV.firstKey cfg st).map Prod.snd
  | .opLastKey => (CSV.lastKey cfg st).map Prod.snd
  | .opFields => (CSV.fields cfg st).map Prod.snd

/-- The public operations of the SQLite store. -/
inductive SQLOp where
  | opPut (entries : List Entry)
  | opGet (key : Value)
  | opFirst | opLast | opFirstKey | opLastKey | opFields

/-- One public operation as a state transition of the SQLite store. -/
def SQLStep (cfg : SQLite.SQLConfig) (st : SQLite.SQLState) :
    SQLOp → Except Err SQLite.SQLState
  | .opPut es => SQLite.put cfg st es
  | .opGet k => (SQLite.get cfg st k).map Prod.snd
  | .opFirst => (SQLite.getFirst cfg st).map Prod.snd
  | .opLast => (SQLite.getLast cfg st).map Prod.snd
  | .opFirstKey => (SQLite.firstKey cfg st).map Prod.snd
  | .opLastKey => (SQLite.lastKey cfg st).map Prod.snd
  | .opFields => (SQLite.fields cfg st).map Prod.snd

theorem csv_get_state (cfg : CSV.CSVConfig) (st : CSV.CSVState) (k : Value)
    (s : SchemaL) (hc : st.cache = some s) (r : Option Entry × CSV.CSVState)
    (h : CSV.get cfg st k = .ok r) : r.2 = st := by
  unfold CSV.get at h
  rw [csv_ensureSchema_hit cfg st s hc] at h
  simp only [bind, Except.bind, pure, Except.pure] at h
  repeat' split at h
  all_goals
    first
      | exact Except.noConfusion h
      | (injection h with h'; subst h'; rfl)

theorem csv_readop_state (cfg : CSV.CSVConfig) (st : CSV.CSVState)
    (s : SchemaL) (hc : st.cache = some s) :
    (∀ r, CSV.getFirst cfg st = .ok r → r.2 = st) ∧
    (∀ r, CSV.getLast cfg st = .ok r → r.2 = st) ∧
    (∀ r, CSV.fields cfg st = .ok r → r.2 = st) := by
  refine ⟨?_, ?_, ?_⟩ <;> intro r h
  · unfold CSV.getFirst at h
    rw [csv_ensureSchema_hit cfg st s hc] at h
    simp only [bind, Except.bind, pure, Except.pure] at h
    repeat' split at h
    all_goals
      first
        | exact Except.noConfusion h
        | (injection h with h'; subst h'; rfl)
  · unfold CSV.getLast at h
    rw [csv_ensureSchema_hit cfg st s hc] at h
    simp only [bind, Except.bind, pure, Except.pure] at h
    repeat' split at h
    all_goals
      first
        | exact Except.noConfusion h
        | (injection h with h'; subst h'; rfl)
  · unfold CSV.fields at h
    rw [csv_ensureSchema_hit cfg st s hc] at h
    injection h with h'
    subst h'
    rfl

theorem csv_keyop_state (cfg : CSV.CSVConfig) (st : CSV.CSVState)
    (s : SchemaL) (hc : st.cache = some s) :
    (∀ r, CSV.firstKey cfg st = .ok r → r.2 = st) ∧
    (∀ r, CSV.lastKey cfg st = .ok r → r.2 = st) := by
  constructor <;> intro r h
  · unfold CSV.firstKey at h
    cases hf : CSV.getFirst cfg st with
    | error e =>
        rw [hf] at h
        exact Except.noConfusion h
    | ok r1 =>
        rw [hf] at h
        obtain ⟨e?, st1⟩ := r1
        injection h with h'
        subst h'
        exact (csv_readop_state cfg st s hc).1 (e?, st1) hf
  · unfold CSV.lastKey at h
    cases hf : CSV.getLast cfg st with
    | error e =>
        rw [hf] at h
        exact Except.noConfusion h
    | ok r1 =>
        rw [hf] at h
        obtain ⟨e?, st1⟩ := r1
        injection h with h'
        subst h'
        exact (csv_readop_state cfg st s hc).2.1 (e?, st1) hf

theorem sql_put_preserves (cfg : SQLite.SQLConfig) (st : SQLite.SQLState)
    (es : List Entry) (s : SchemaL) (hc : st.cache = some s)
    (st' : SQLite.SQLState) (h : SQLite.put cfg st es = .ok st') :
    st'.cache = some s ∧ st'.schemaTable = st.schemaTable := by
  unfold SQLite.put at h
  by_cases he : es.isEmpty
  · rw [if_pos he] at h
    injection h with h'
    subst h'
    exact ⟨hc, rfl⟩
  · rw [if_neg he] at h
    rw [sql_ensureSchema_hit cfg st s hc] at h
    simp only [bind, Except.bind, pure, Except.pure] at h
    repeat' split at h
    all_goals
      first
        | exact Except.noConfusion h
        | (injection h with h'; subst h'; exact ⟨hc, rfl⟩)

theorem sql_readop_state (cfg : SQLite.SQLConfig) (st : SQLite.SQLState)
    (s : SchemaL) (hc : st.cache = some s) :
    (∀ r : Option Entry × SQLite.SQLState, SQLite.getFirst cfg st = .ok r → r.2 = st) ∧
    (∀ r : Option Entry × SQLite.SQLState, SQLite.getLast cfg st = .ok r → r.2 = st) ∧
    (∀ k (r : Option Entry × SQLite.SQLState), SQLite.get cfg st k = .ok r → r.2 = st) ∧
    (∀ r : List String × SQLite.SQLState, SQLite.fields cfg st = .ok r → r.2 = st) := by
  refine ⟨?_, ?_, ?_, ?_⟩
  · intro r h
    unfold SQLite.getFirst at h
    rw [sql_ensureSchema_hit cfg st s hc] at h
    simp only [bind, Except.bind, pure, Except.pure] at h
    repeat' split at h
    all_goals
      first
        | exact Except.noConfusion h
        | (injection h with h'; subst h'; rfl)
  · intro r h
    unfold SQLite.getLast at h
    rw [sql_ensureSchema_hit cfg st s hc] at h
    simp only [bind, Except.bind, pure, Except.pure] at h
    repeat' split at h
    all_goals
      first
        | exact Except.noConfusion h
        | (injection h with h'; subst h'; rfl)
  · intro k r h
    unfold SQLite.get at h
    rw [sql_ensureSchema_hit cfg st s hc] at h
    simp only [bind, Except.bind, pure, Except.pure] at h
    repeat' split at h
    all_goals
      first
        | exact Except.noConfusion h
        | (injection h with h'; subst h'; rfl)
  · intro r h
    unfold SQLite.fields at h
    rw [sql_ensureSchema_hit cfg st s hc] at h
    injection h with h'
    subst h'
    rfl

theorem sql_keyop_state (cfg : SQLite.SQLConfig) (st : SQLite.SQLState)
    (s : SchemaL) (hc : st.cache = some s) :
    (∀ r, SQLite.firstKey cfg st = .ok r → r.2 = st) ∧
    (∀ r, SQLite.lastKey cfg st = .ok r → r.2 = st) := by
  constructor <;> intro r h
  · unfold SQLite.firstKey at h
    cases hf : SQLite.getFirst cfg st with
    | error e => rw [hf] at h; exact Except.noConfusion h
    | ok r1 =>
        rw [hf] at h
        obtain ⟨e?, st1⟩ := r1
        injection h with h'
        subst h'
        exact (sql_readop_state cfg st s hc).1 (e?, st1) hf
  · unfold SQLite.lastKey at h
    cases hf : SQLite.getLast cfg st with
    | error e => rw [hf] at h; exact Except.noConfusion h
    | ok r1 =>
        rw [hf] at h
        obtain ⟨e?, st1⟩ := r1
        injection h with h'
        subst h'
        exact (sql_readop_state cfg st s hc).2.1 (e?, st1) hf

/-- Claim C10.  Once a store's schema is resolved (cached), every public
operation that succeeds leaves the cached schema untouched and never
mutates the persisted schema (`schema.json` for CSV, the `schema` table
for SQLite). -/
theorem claim_C10_schema_immutable (s : SchemaL) :
    (∀ cfg st op st', st.cache = some s → CSVStep cfg st op = .ok st' →
      st'.cache = some s ∧ st'.schemaFile = st.schemaFile) ∧
    (∀ cfg st op st', st.cache = some s → SQLStep cfg st op = .ok st' →
      st'.cache = some s ∧ st'.schemaTable = st.schemaTable) := by
  constructor
  · intro cfg st op st' hc h
    cases op with
    | opPut es =>
        simp only [CSVStep] at h
        unfold CSV.put at h
        rw [csv_ensureSchema_hit cfg st s hc] at h
        simp only [bind, Except.bind] at h
        cases hv : (es.forM fun e => validate s.map e : Except Err Unit) with
        | error e => rw [hv] at h; exact Except.noConfusion h
        | ok u =>
            rw [hv] at h
            have := csv_foldlM_writePartition_preserves s _ _ st st' h
            exact ⟨this.1.trans hc, this.2⟩
    | opGet k =>
        simp only [CSVStep] at h
        cases hg : CSV.get cfg st k with
        | error e => rw [hg] at h; exact Except.noConfusion h
        | ok r =>
            rw [hg] at h
            injection h with h'
            subst h'
            rw [csv_get_state cfg st k s hc r hg]
            exact ⟨hc, rfl⟩
    | opFirst =>
        simp only [CSVStep] at h
        cases hg : CSV.getFirst cfg st with
        | error e => rw [hg] at h; exact Except.noConfusion h
        | ok r =>
            rw [hg] at h
            injection h with h'
            subst h'
            rw [(csv_readop_state cfg st s hc).1 r hg]
            exact ⟨hc, rfl⟩
    | opLast =>
        simp only [CSVStep] at h
        cases hg : CSV.getLast cfg st with
        | error e => rw [hg] at h; exact Except.noConfusion h
        | ok r =>
            rw [hg] at h
            injection h with h'
            subst h'
            rw [(csv_readop_state cfg st s hc).2.1 r hg]
            exact ⟨hc, rfl⟩
    | opFirstKey =>
        simp only [CSVStep] at h
        cases hg : CSV.firstKey cfg st with
        | error e => rw [hg] at h; exact Except.noConfusion h
        | ok r =>
            rw [hg] at h
            injection h with h'
            subst h'
            rw [(csv_keyop_state cfg st s hc).1 r hg]
            exact ⟨hc, rfl⟩
    | opLastKey =>
        simp only [CSVStep] at h
        cases hg : CSV.lastKey cfg st with
        | error e => rw [hg] at h; exact Except.noConfusion h
        | ok r =>
            rw [hg] at h
            injection h with h'
            subst h'
            rw [(csv_keyop_state cfg st s hc).2 r hg]
            exact ⟨hc, rfl⟩
    | opFields =>
        simp only [CSVStep] at h
        cases hg : CSV.fields cfg st with
        | error e => rw [hg] at h; exact Except.noConfusion h
        | ok r =>
            rw [hg] at h
            injection h with h'
            subst h'
            rw [(csv_readop_state cfg st s hc).2.2 r hg]
            exact ⟨hc, rfl⟩
  · intro cfg st op st' hc h
    cases op with
    | opPut es =>
        simp only [SQLStep] at h
        exact sql_put_preserves cfg st es s hc st' h
    | opGet k =>
        simp only [SQLStep] at h
        cases hg : SQLite.get cfg st k with
        | error e => rw [hg] at h; exact Except.noConfusion h
        | ok r =>
            rw [hg] at h
            injection h with h'
            subst h'
            rw [(sql_readop_state cfg st s hc).2.2.1 k r hg]
            exact ⟨hc, rfl⟩
    | opFirst =>
        simp only [SQLStep] at h
        cases hg : SQLite.getFirst cfg st with
        | error e => rw [hg] at h; exact Except.noConfusion h
        | ok r =>
            rw [hg] at h
            injection h with h'
            subst h'
            rw [(sql_readop_state cfg st s hc).1 r hg]
            exact ⟨hc, rfl⟩
    | opLast =>
        simp only [SQLStep] at h
        cases hg : SQLite.getLast cfg st with
        | error e => rw [hg] at h; exact Except.noConfusion h
        | ok r =>
            rw [hg] at h
            injection h with h'
            subst h'
            rw [(sql_readop_state cfg st s hc).2.1 r hg]
            exact ⟨hc, rfl⟩
    | opFirstKey =>
        simp only [SQLStep] at h
        cases hg : SQLite.firstKey cfg st with
        | error e => rw [hg] at h; exact Except.noConfusion h
        | ok r =>
            rw [hg] at h
            injection h with h'
            subst h'
            rw [(sql_keyop_state cfg st s hc).1 r hg]
            exact ⟨hc, rfl⟩
    | opLastKey =>
        simp only [SQLStep] at h
        cases hg : SQLite.lastKey cfg st with
        | error e => rw [hg] at h; exact Except.noConfusion h
        | ok r =>
            rw [hg] at h
            injection h with h'
            subst h'
            rw [(sql_keyop_state cfg st s hc).2 r hg]
            exact ⟨hc, rfl⟩
    | opFields =>
        simp only [SQLStep] at h
        cases hg : SQLite.fields cfg st with
        | error e => rw [hg] at h; exact Except.noConfusion h
        | ok r =>
            rw [hg] at h
            injection h with h'
            subst h'
            rw [(sql_readop_state cfg st s hc).2.2.2 r hg]
            exact ⟨hc, rfl⟩

/-- A CSV store state with the schema resolved and persisted. -/
def csvStateW : CSV.CSVState :=
  ⟨some (encodeSchema sampleSchema), [], some sampleSchema⟩

/-- A single-partition CSV configuration without a template. -/
def csvConfigW : CSV.CSVConfig :=
  ⟨⟨fun _ => "p", fun _ => none⟩, none⟩

/-- A SQLite store state with the schema resolved and persisted. -/
def sqlStateW : SQLite.SQLState :=
  ⟨some (encodeSchema sampleSchema), [], some sampleSchema⟩

/-- A SQLite configuration without a template. -/
def sqlConfigW : SQLite.SQLConfig := ⟨none⟩

/-- Witness for C10: a concrete operation on each resolved store
preserves the cached and persisted schemas. -/
theorem claim_C10_schema_immutable_witness :
    csvStateW.cache = some sampleSchema ∧
    CSVStep csvConfigW csvStateW (.opGet (.date 0)) = .ok csvStateW ∧
    (csvStateW.cache = some sampleSchema ∧
      csvStateW.schemaFile = csvStateW.schemaFile) ∧
    sqlStateW.cache = some sampleSchema ∧
    SQLStep sqlConfigW sqlStateW (.opGet (.date 0)) = .ok sqlStateW ∧
    (sqlStateW.cache = some sampleSchema ∧
      sqlStateW.schemaTable = sqlStateW.schemaTable) :=
  ⟨rfl, rfl,
    (claim_C10_schema_immutable sampleSchema).1 csvConfigW csvStateW
      (.opGet (.date 0)) csvStateW rfl rfl,
    rfl, rfl,
    (claim_C10_schema_immutable sampleSchema).2 sqlConfigW sqlStateW
      (.opGet (.date 0)) sqlStateW rfl rfl⟩

/-! ## Properties of the JS sort, uniq and comparison helpers -/

section SortLemmas

variable {α : Type} (gt : α → α → Bool)

theorem mem_insertByKey (e : α) (l : List α) (x : α) :
    x ∈ insertByKey gt e l ↔ x = e ∨ x ∈ l := by
  induction l with
  | nil => simp [insertByKey]
  | cons y ys ih =>
      unfold insertByKey
      split
      · simp
      · simp only [List.mem_cons, ih]
        tauto

theorem mem_foldl_insert (l : List α) :
    ∀ acc x, (x ∈ l.foldl (fun a e => insertByKey gt e a) acc ↔ x ∈ acc ∨ x ∈ l) := by
  induction l with
  | nil => simp
  | cons y ys ih =>
      intro acc x
      rw [List.foldl_cons, ih, mem_insertByKey]
      simp
      tauto

theorem mem_jsSortBy (l : List α) (x : α) : x ∈ jsSortBy gt l ↔ x ∈ l := by
  unfold jsSortBy
  rw [mem_foldl_insert]
  simp

/-- Sortedness in the sense produced by the JS comparator: no element is
strictly greater than its successor. -/
def SortedGT (l : List α) : Prop :=
  l.Chain' fun a b => gt a b = false

theorem sortedGT_insertByKey
    (hasym : ∀ a b, gt a b = true → gt b a = false)
    (e : α) (l : List α) (hs : SortedGT gt l) :
    SortedGT gt (insertByKey gt e l) := by
  induction l with
  | nil => simp [insertByKey, SortedGT]
  | cons y ys ih =>
      unfold insertByKey
      split
      · rename_i hy
        exact List.Chain'.cons (hasym y e hy) hs
      · rename_i hy
        have hys : SortedGT gt ys := (List.chain'_cons'.mp hs).2
        have hins := ih hys
        rw [SortedGT, List.chain'_cons']
        refine ⟨?_, hins⟩
        intro z hz
        cases ys with
        | nil =>
            simp [insertByKey] at hz
            subst hz
            simpa using hy
        | cons w ws =>
            unfold insertByKey at hz
            revert hz
            split
            · intro hz

              simp at hz
              subst hz
              simpa using hy
            · intro hz
              simp at hz
              subst hz
              exact (List.chain'_cons.mp hs).1

theorem sortedGT_jsSortBy
    (hasym : ∀ a b, gt a b = true → gt b a = false) (l : List α) :
    SortedGT gt (jsSortBy gt l) := by
  unfold jsSortBy
  suffices h : ∀ acc, SortedGT gt acc → SortedGT gt
      (l.foldl (fun a e => insertByKey gt e a) acc) by
    exact h [] (by simp [SortedGT])
  induction l with
  | nil => intro acc h; simpa using h
  | cons y ys ih =>
      intro acc h
      rw [List.foldl_cons]
      exact ih _ (sortedGT_insertByKey gt hasym y acc h)

/-- In a sorted list whose members all lie in `S`, on which non-greater
is transitive, the head is not greater than any member. -/
theorem sortedGT_head_min (S : α → Prop)
    (hneg : ∀ a b c, S a → S b → S c →
      gt a b = false → gt b c = false → gt a c = false)
    (hirr : ∀ a, S a → gt a a = false) :
    ∀ (l : List α), SortedGT gt l → (∀ x ∈ l, S x) →
      ∀ hd, l.head? = some hd → ∀ x ∈ l, gt hd x = false := by
  intro l
  induction l with
  | nil => intro _ _ hd _ x hx; cases hx
  | cons y ys ih =>
      intro hs hS hd hh x hx
      have hdy : y = hd := by injection hh
      subst hdy
      rcases List.mem_cons.mp hx with rfl | hx'
      · exact hirr x (hS x (List.mem_cons_self x ys))
      · cases ys with
        | nil => cases hx'
        | cons z zs =>
            have h1 : gt y z = false := (List.chain'_cons.mp hs).1
            have hrest := ih (List.chain'_cons.mp hs).2
              (fun w hw => hS w (List.mem_cons_of_mem y hw)) z rfl x hx'
            exact hneg y z x (hS y (List.mem_cons_self y _)) (hS z (by simp))
              (hS x (List.mem_cons_of_mem y hx')) h1 hrest

/-- Inserting an element into a sorted list leaves the filtered class
sequence unchanged except for appending the element when it belongs to
the class: classmates are never strictly ordered among themselves, so
they all sit before the insertion point. -/
theorem filter_insertByKey (S : α → Prop) (p : α → Bool)
    (hrev : ∀ y z w, S y → S z → S w →
      gt y z = false → gt y w = true → gt z w = true)
    (hties : ∀ a b, p a = true → p b = true → gt a b = false)
    (hirr : ∀ a, S a → gt a a = false)
    (e : α) (hSe : S e) :
    ∀ (l : List α), SortedGT gt l → (∀ x ∈ l, S x) →
      (insertByKey gt e l).filter p =
        if p e then l.filter p ++ [e] else l.filter p := by
  have hneg : ∀ a b c, S a → S b → S c →
      gt a b = false → gt b c = false → gt a c = false := by
    intro a b c ha hb hc h1 h2
    by_contra hcon
    rw [Bool.not_eq_false] at hcon
    have := hrev a b c ha hb hc h1 hcon
    rw [h2] at this
    cases this
  intro l
  induction l with
  | nil =>
      intro _ _
      cases hpe : p e <;> simp [insertByKey, List.filter, hpe]
  | cons y ys ih =>
      intro hs hSl
      unfold insertByKey
      split
      · rename_i hy
        by_cases hpe : p e = true
        · have hfilnil : (y :: ys).filter p = [] := by
            rw [List.filter_eq_nil_iff]
            intro z hz hpz
            have hgze : gt z e = true := by
              rcases List.mem_cons.mp hz with rfl | hz'
              · exact hy
              · have hyz : gt y z = false :=
                  sortedGT_head_min gt S hneg hirr
                    (y :: ys) hs hSl y rfl z hz
                exact hrev y z e (hSl y (List.mem_cons_self y ys)) (hSl z hz)
                  hSe hyz hy
            rw [hties z e hpz hpe] at hgze
            cases hgze
          rw [if_pos hpe, hfilnil, List.filter_cons, if_pos hpe, hfilnil]
          rfl
        · rw [Bool.not_eq_true] at hpe
          simp [List.filter_cons, hpe]
      · rename_i hy
        have hys : SortedGT gt ys := (List.chain'_cons'.mp hs).2
        have hrec := ih hys fun x hx => hSl x (List.mem_cons_of_mem y hx)
        by_cases hpe : p e = true <;> by_cases hpy : p y = true <;>
          simp [List.filter_cons, hpy, hpe, hrec]

/-- Sorting preserves the filtered subsequence of any class whose members
are mutually unordered: the JS sort with the `byKey` comparator is stable
on key-equal entries. -/
theorem filter_jsSortBy (S : α → Prop) (p : α → Bool)
    (hasym : ∀ a b, gt a b = true → gt b a = false)
    (hrev : ∀ y z w, S y → S z → S w →
      gt y z = false → gt y w = true → gt z w = true)
    (hties : ∀ a b, p a = true → p b = true → gt a b = false)
    (hirr : ∀ a, S a → gt a a = false)
    (l : List α) (hSl : ∀ x ∈ l, S x) :
    (jsSortBy gt l).filter p = l.filter p := by
  unfold jsSortBy
  suffices h : ∀ (rest acc : List α), SortedGT gt acc → (∀ x ∈ acc, S x) →
      (∀ x ∈ rest, S x) →
      (rest.foldl (fun a e => insertByKey gt e a) acc).filter p =
        acc.filter p ++ rest.filter p by
    simpa using h l [] (by simp [SortedGT]) (by simp) hSl
  intro rest
  induction rest with
  | nil => intro acc _ _ _; simp
  | cons y ys ih =>
      intro acc hsort hSacc hSrest
      rw [List.foldl_cons]
      have hSy : S y := hSrest y (List.mem_cons_self y ys)
      rw [ih (insertByKey gt y acc)
        (sortedGT_insertByKey gt hasym y acc hsort)
        (fun x hx => by
          rcases (mem_insertByKey gt y acc x).mp hx with rfl | hx'
          · exact hSy
          · exact hSacc x hx')
        (fun x hx => hSrest x (List.mem_cons_of_mem y hx))]
      rw [filter_insertByKey gt S p hrev hties hirr y hSy acc hsort hSacc]
      rw [List.filter_cons]
      by_cases hpy : p y = true
      · simp [hpy]
      · simp [hpy]

end SortLemmas

/-! ## Comparison facts about index values and their hydrated cells -/

theorem jsGTv_irrefl (a : Value) : jsGTv a a = false := by
  cases a <;> simp [jsGTv]

theorem jsGTv_asymm (a b : Value) (h : jsGTv a b = true) : jsGTv b a = false := by
  cases a <;> cases b <;> simp_all [jsGTv] <;> exact h.le

theorem byKeyGT_irrefl (idx : Option String) (e : Entry) :
    byKeyGT idx e e = false := by
  unfold byKeyGT
  cases h : entryKeyO idx e <;> simp [jsGTo, jsGTv_irrefl]

theorem byKeyGT_asymm (idx : Option String) (a b : Entry)
    (h : byKeyGT idx a b = true) : byKeyGT idx b a = false := by
  unfold byKeyGT at h ⊢
  revert h
  cases entryKeyO idx a <;> cases entryKeyO idx b <;> intro h <;>
    first
      | exact Bool.noConfusion h
      | exact jsGTv_asymm _ _ h

/-- A value not above another of the same kind is above anything the
latter is above (linearity within one kind). -/
theorem jsGTv_rev (t : GTypeId) (y z w : Value)
    (hy : scalarMatches t y = true) (hz : scalarMatches t z = true)
    (h1 : jsGTv y z = false) (h2 : jsGTv y w = true) : jsGTv z w = true := by
  cases t <;> cases y <;> simp [scalarMatches] at hy <;>
    cases z <;> simp [scalarMatches] at hz <;>
    cases w <;> simp_all [jsGTv] <;>
    first
      | omega
      | exact lt_of_lt_of_le h2 h1

/-- SameValueZero-equal values hydrate identically on the CSV backend. -/
theorem svzEq_hydrate_eq (v w : Value) (h : svzEq v w = true) :
    CSV.hydrate v = CSV.hydrate w := by
  cases v <;> cases w <;> simp_all [svzEq]

theorem cellBeq_comm (a b : CSV.Cell) : CSV.cellBeq a b = CSV.cellBeq b a := by
  cases a <;> cases b <;> simp [CSV.cellBeq, BEq.comm]

/-- Two values whose CSV-hydrated cells are string-equal are never
strictly ordered: same-kind pairs are equal-valued, mixed pairs do not
compare. -/
theorem hydEq_not_gt (a b : Value) (ca cb : CSV.Cell)
    (hca : CSV.hydrate a = .ok ca) (hcb : CSV.hydrate b = .ok cb)
    (hbeq : CSV.cellBeq ca cb = true) : jsGTv a b = false := by
  cases a <;> cases b <;> try rfl
  case boolean.boolean x y =>
      obtain rfl : CSV.Cell.dec (if x then 1 else 0) = ca := by injection hca
      obtain rfl : CSV.Cell.dec (if y then 1 else 0) = cb := by injection hcb
      simp [CSV.cellBeq] at hbeq
      cases x <;> cases y <;> simp_all [jsGTv]
  case number.number x y =>
      obtain rfl : CSV.Cell.dec x = ca := by injection hca
      obtain rfl : CSV.Cell.dec y = cb := by injection hcb
      simp [CSV.cellBeq] at hbeq
      simp [jsGTv, hbeq]
  case str.str x y =>
      obtain rfl : CSV.Cell.raw x = ca := by injection hca
      obtain rfl : CSV.Cell.raw y = cb := by injection hcb
      simp [CSV.cellBeq] at hbeq
      simp [jsGTv, hbeq]
  case date.date x y =>
      obtain rfl : CSV.Cell.dec ((x : Rat) / 1000) = ca := by injection hca
      obtain rfl : CSV.Cell.dec ((y : Rat) / 1000) = cb := by injection hcb
      simp [CSV.cellBeq] at hbeq
      have hxy : x = y := by
        field_simp at hbeq
        exact_mod_cast hbeq
      simp [jsGTv, hxy]
  case url.url x y =>
      obtain rfl : CSV.Cell.raw x = ca := by injection hca
      obtain rfl : CSV.Cell.raw y = cb := by injection hcb
      simp [CSV.cellBeq] at hbeq
      simp [jsGTv, hbeq]

/-! ## Entry well-typedness and row round trips -/

/-- Every field of the entry is declared by the map and its value matches
the declared meta. -/
def EntryMatchesMap (map : TypeMapL) (e : Entry) : Prop :=
  ∀ kv ∈ e, ∃ meta, map.lookup kv.1 = some meta ∧ valueMatches meta kv.2 = true

theorem pairM_ok {β : Type} (f : Value → Except Err β) (kv : String × Value)
    (rv : String × β)
    (h : (do pure (kv.1, ← f kv.2) : Except Err (String × β)) = .ok rv) :
    rv.1 = kv.1 ∧ f kv.2 = .ok rv.2 := by
  cases hf : f kv.2 with
  | error e => rw [hf] at h; exact Except.noConfusion h
  | ok c =>
      rw [hf] at h
      obtain rfl : (kv.1, c) = rv := by injection h
      exact ⟨rfl, by simp [hf]⟩

theorem forall₂_lookup {β : Type} (f : Value → Except Err β) (e : Entry)
    (r : List (String × β))
    (hf : List.Forall₂ (fun kv rv =>
      (do pure (kv.1, ← f kv.2) : Except Err (String × β)) = .ok rv) e r)
    (i : String) :
    (e.lookup i = none → r.lookup i = none) ∧
    (∀ v, e.lookup i = some v → ∃ c, f v = .ok c ∧ r.lookup i = some c) := by
  induction hf with
  | nil =>
      exact ⟨fun _ => rfl, fun v hv => by simp [List.lookup] at hv⟩
  | cons ha htl ih =>
      rename_i kv rv e' r'
      obtain ⟨k, v⟩ := kv
      obtain ⟨k', c⟩ := rv
      obtain ⟨hk, hc⟩ := pairM_ok f (k, v) (k', c) ha
      simp only at hk hc
      subst hk
      by_cases hik : i = k'
      · subst hik
        constructor
        · intro hnone
          simp [List.lookup] at hnone
        · intro w hw
          simp [List.lookup] at hw
          subst hw
          exact ⟨c, hc, by simp [List.lookup]⟩
      · have hbe : (i == k') = false := beq_eq_false_iff_ne.mpr hik
        constructor
        · intro hnone
          simp only [List.lookup, hbe] at hnone ⊢
          exact ih.1 hnone
        · intro w hw
          simp only [List.lookup, hbe] at hw ⊢
          exact ih.2 w hw

theorem entry_roundtrip_gen {β : Type} (hyd : Value → Except Err β)
    (deh : TypeMeta → β → Except Err Value)
    (hrt : ∀ meta v, valueMatches meta v = true →
      ∃ c, hyd v = .ok c ∧ deh meta c = .ok v)
    (map : TypeMapL) :
    ∀ e : Entry, EntryMatchesMap map e →
      ∃ r, e.mapM (fun kv => do pure (kv.1, ← hyd kv.2)) = .ok r ∧
        r.mapM (fun kv =>
          match map.lookup kv.1 with
          | some meta => do pure (kv.1, ← deh meta kv.2)
          | none => .error .unsupportedType) = .ok e := by
  intro e
  induction e with
  | nil => intro _; exact ⟨[], rfl, rfl⟩
  | cons kv rest ih =>
      intro hm
      obtain ⟨meta, hlk, hmv⟩ := hm kv (List.mem_cons_self kv rest)
      obtain ⟨c, hc, hd⟩ := hrt meta kv.2 hmv
      obtain ⟨r', hr1, hr2⟩ := ih fun q hq => hm q (List.mem_cons_of_mem kv hq)
      refine ⟨(kv.1, c) :: r', ?_, ?_⟩
      · rw [List.mapM_cons]
        rw [show (do pure (kv.1, ← hyd kv.2) : Except Err (String × β)) =
          .ok (kv.1, c) by rw [hc]; rfl]
        rw [hr1]
        rfl
      · rw [List.mapM_cons]
        simp only [hlk]
        rw [show (do pure (kv.1, ← deh meta c) : Except Err (String × Value)) =
          .ok (kv.1, kv.2) by rw [hd]; rfl]
        rw [hr2]
        rfl

/-! ## Small auxiliary list and cell lemmas -/

theorem mapM_ok_exists {α β : Type} (f : α → Except Err β) :
    ∀ (l : List α), (∀ x ∈ l, ∃ y, f x = .ok y) → ∃ r, l.mapM f = .ok r := by
  intro l
  induction l with
  | nil => exact fun _ => ⟨[], rfl⟩
  | cons x xs ih =>
      intro h
      obtain ⟨y, hy⟩ := h x (List.mem_cons_self x xs)
      obtain ⟨r, hr⟩ := ih fun z hz => h z (List.mem_cons_of_mem x hz)
      refine ⟨y :: r, ?_⟩
      rw [List.mapM_cons, hy, hr]
      rfl

theorem mapM_append_ok {α β : Type} (f : α → Except Err β) (l₁ l₂ : List α)
    (r₁ r₂ : List β) (h₁ : l₁.mapM f = .ok r₁) (h₂ : l₂.mapM f = .ok r₂) :
    (l₁ ++ l₂).mapM f = .ok (r₁ ++ r₂) := by
  induction l₁ generalizing r₁ with
  | nil =>
      obtain rfl : ([] : List β) = r₁ := by injection h₁
      simpa using h₂
  | cons x xs ih =>
      rw [List.mapM_cons] at h₁
      cases hx : f x with
      | error e => rw [hx] at h₁; exact Except.noConfusion h₁
      | ok y =>
          rw [hx] at h₁
          cases hxs : xs.mapM f with
          | error e => rw [hxs] at h₁; exact Except.noConfusion h₁
          | ok tl =>
              rw [hxs] at h₁
              obtain rfl : y :: tl = r₁ := by injection h₁
              rw [List.cons_append, List.mapM_cons, hx, ih tl hxs]
              rfl

theorem mem_of_getLast? {α : Type} :
    ∀ (l : List α) (a : α), l.getLast? = some a → a ∈ l := by
  intro l
  induction l with
  | nil => intro a h; exact Option.noConfusion h
  | cons x xs ih =>
      intro a h
      cases xs with
      | nil =>
          obtain rfl : x = a := by injection h
          exact List.mem_cons_self x []
      | cons y ys =>
          rw [List.getLast?_cons_cons] at h
          exact List.mem_cons_of_mem x (ih a h)

theorem sortedGT_getLast_max {α : Type} (gt : α → α → Bool) (S : α → Prop)
    (hneg : ∀ a b c, S a → S b → S c →
      gt a b = false → gt b c = false → gt a c = false)
    (hirr : ∀ a, S a → gt a a = false) :
    ∀ (l : List α), SortedGT gt l → (∀ x ∈ l, S x) →
      ∀ la, l.getLast? = some la → ∀ x ∈ l, gt x la = false := by
  intro l
  induction l with
  | nil => intro _ _ la h; exact absurd h (by simp)
  | cons y ys ih =>
      intro hs hS la hla x hx
      cases ys with
      | nil =>
          obtain rfl : y = la := by injection hla
          rcases List.mem_cons.mp hx with rfl | hx'
          · exact hirr x (hS x hx)
          · cases hx'
      | cons z zs =>
          rw [List.getLast?_cons_cons] at hla
          have hS' : ∀ w ∈ z :: zs, S w := fun w hw =>
            hS w (List.mem_cons_of_mem y hw)
          have hrest := ih (List.chain'_cons.mp hs).2 hS' la hla
          rcases List.mem_cons.mp hx with rfl | hx'
          · have h1 : gt x z = false := (List.chain'_cons.mp hs).1
            have h2 : gt z la = false := hrest z (List.mem_cons_self z zs)
            exact hneg x z la (hS x hx) (hS' z (List.mem_cons_self z zs))
              (hS' la (mem_of_getLast? _ la hla)) h1 h2
          · exact hrest x hx'

/-- Linearity companion to `jsGTv_rev`: a value not above a second of the
same kind inherits being below anything above the second. -/
theorem jsGTv_rev2 (t : GTypeId) (a b c : Value)
    (ha : scalarMatches t a = true) (hb : scalarMatches t b = true)
    (h1 : jsGTv a b = false) (h2 : jsGTv c b = true) : jsGTv c a = true := by
  cases t <;> cases a <;> simp [scalarMatches] at ha <;>
    cases b <;> simp [scalarMatches] at hb <;>
    cases c <;> simp_all [jsGTv] <;>
    first
      | omega
      | exact lt_of_le_of_lt h1 h2

theorem cellBeq_trans (a b c : CSV.Cell) (h1 : CSV.cellBeq a b = true)
    (h2 : CSV.cellBeq b c = true) : CSV.cellBeq a c = true := by
  cases a <;> cases b <;> cases c <;> simp_all [CSV.cellBeq]

/-- The hydrated form of a key-kind value compares equal to itself under
the string equality of `get` (key kinds hydrate to numerals or raw
text). -/
theorem hydrate_key_self_beq (t : GTypeId) (k : Value) (hkt : keyKind t)
    (hk : scalarMatches t k = true) :
    ∃ c, CSV.hydrate k = .ok c ∧ CSV.cellBeq c c = true := by
  rcases hkt with rfl | rfl | rfl | rfl <;> cases k <;>
    simp [scalarMatches] at hk <;>
    first
      | exact ⟨_, rfl, by simp [CSV.cellBeq]⟩

/-- SQL flavour of `hydrate_key_self_beq`. -/
theorem hydrateS_key_self_beq (t : GTypeId) (k : Value) (hkt : keyKind t)
    (hk : scalarMatches t k = true) :
    ∃ c, SQLite.hydrate k = .ok c ∧ SQLite.cellBeqS c c = true := by
  rcases hkt with rfl | rfl | rfl | rfl <;> cases k <;>
    simp [scalarMatches] at hk <;>
    first
      | exact ⟨_, rfl, by simp [SQLite.cellBeqS]⟩

theorem setFile_lookup_self (files : List (String × CSV.CSVFile)) (p : String)
    (f : CSV.CSVFile) : (CSV.setFile files p f).lookup p = some f := by
  induction files with
  | nil => simp [CSV.setFile, List.lookup]
  | cons kv rest ih =>
      unfold CSV.setFile
      by_cases hkp : (kv.1 == p) = true
      · rw [if_pos hkp]
        simp [List.lookup]
      · rw [if_neg hkp]
        rw [List.lookup]
        have hbe : (p == kv.1) = false := by
          rw [Bool.not_eq_true] at hkp
          rw [beq_eq_false_iff_ne] at hkp ⊢
          exact Ne.symm hkp
        rw [hbe]
        exact ih

theorem setFile_lookup_other (files : List (String × CSV.CSVFile)) (p q : String)
    (f : CSV.CSVFile) (hqp : q ≠ p) :
    (CSV.setFile files p f).lookup q = files.lookup q := by
  induction files with
  | nil =>
      simp [CSV.setFile, List.lookup, beq_eq_false_iff_ne.mpr hqp]
  | cons kv rest ih =>
      unfold CSV.setFile
      by_cases hkp : (kv.1 == p) = true
      · rw [if_pos hkp]
        obtain rfl : kv.1 = p := beq_iff_eq.mp hkp
        rw [List.lookup, List.lookup, beq_eq_false_iff_ne.mpr hqp]
      · rw [if_neg hkp]
        rw [List.lookup, List.lookup]
        cases hq : (q == kv.1) with
        | true => rfl
        | false => exact ih

/-! ## Find, filter and uniq transfer lemmas -/

theorem find_eq_filter_head {α : Type} (p : α → Bool) (l : List α) :
    l.find? p = (l.filter p).head? := by
  induction l with
  | nil => rfl
  | cons x xs ih =>
      cases hx : p x
      · rw [List.find?_cons_of_neg _ (by simp [hx]),
          List.filter_cons_of_neg (by simp [hx]), ih]
      · rw [List.find?_cons_of_pos _ (by simp [hx]),
          List.filter_cons_of_pos (by simp [hx])]
        rfl

theorem mapM_ok_forall₂ {α β : Type} (f : α → Except Err β) :
    ∀ (l : List α) (r : List β), l.mapM f = .ok r →
      List.Forall₂ (fun a b => f a = .ok b) l r := by
  intro l
  induction l with
  | nil =>
      intro r h
      obtain rfl : ([] : List β) = r := by injection h
      exact List.Forall₂.nil
  | cons x xs ih =>
      intro r h
      rw [List.mapM_cons] at h
      cases hx : f x with
      | error e => rw [hx] at h; exact Except.noConfusion h
      | ok b =>
          rw [hx] at h
          cases hxs : xs.mapM f with
          | error e => rw [hxs] at h; exact Except.noConfusion h
          | ok tl =>
              rw [hxs] at h
              obtain rfl : b :: tl = r := by injection h
              exact List.Forall₂.cons hx (ih tl hxs)

theorem forall₂_find {α β : Type} (R : α → β → Prop) (p : α → Bool) (q : β → Bool)
    (l : List α) (r : List β) (hf : List.Forall₂ R l r)
    (hpq : ∀ a b, R a b → q b = p a) :
    (∀ a0, (l.filter p).head? = some a0 →
      ∃ b0, r.find? q = some b0 ∧ R a0 b0) ∧
    ((l.filter p).head? = none → r.find? q = none) := by
  induction hf with
  | nil => exact ⟨(fun a0 h => Option.noConfusion h), (fun _ => rfl)⟩
  | cons ha hl ih =>
      rename_i a b as bs
      constructor
      · intro a0 h0
        cases hpa : p a
        · rw [List.filter_cons_of_neg (by simp [hpa])] at h0
          rw [List.find?_cons, hpq a b ha, hpa]
          exact ih.1 a0 h0
        · rw [List.filter_cons_of_pos (by simp [hpa])] at h0
          obtain rfl : a = a0 := by injection h0
          refine ⟨b, ?_, ha⟩
          rw [List.find?_cons, hpq a b ha, hpa]
      · intro h0
        cases hpa : p a
        · rw [List.filter_cons_of_neg (by simp [hpa])] at h0
          rw [List.find?_cons, hpq a b ha, hpa]
          exact ih.2 h0
        · rw [List.filter_cons_of_pos (by simp [hpa])] at h0
          cases h0

theorem mem_uniqByKeyAux (idx : Option String) :
    ∀ (l : List Entry) (seen : List (Option Value)) (x : Entry),
      x ∈ uniqByKeyAux idx seen l → x ∈ l := by
  intro l
  induction l with
  | nil => intro seen x hx; cases hx
  | cons e rest ih =>
      intro seen x hx
      unfold uniqByKeyAux at hx
      by_cases hdrop : (seen.any fun s => svzEqO s (entryKeyO idx e)) = true
      · rw [if_pos hdrop] at hx
        exact List.mem_cons_of_mem e (ih seen x hx)
      · rw [if_neg hdrop] at hx
        rcases List.mem_cons.mp hx with rfl | hx'
        · exact List.mem_cons_self x rest
        · exact List.mem_cons_of_mem e (ih _ x hx')

/-- `uniqBy` keeps the first member of every SameValueZero key class, so
the head of any class that respects SameValueZero is unchanged. -/
theorem uniq_filter_head (idx : Option String) (pk : Option Value → Bool)
    (hp : ∀ s k, svzEqO s k = true → pk s = pk k) :
    ∀ (l : List Entry) (seen : List (Option Value)), (∀ s ∈ seen, pk s = false) →
      ((uniqByKeyAux idx seen l).filter fun e => pk (entryKeyO idx e)).head? =
        (l.filter fun e => pk (entryKeyO idx e)).head? := by
  intro l
  induction l with
  | nil => intro seen _; rfl
  | cons e rest ih =>
      intro seen hseen
      unfold uniqByKeyAux
      by_cases hdrop : (seen.any fun s => svzEqO s (entryKeyO idx e)) = true
      · rw [if_pos hdrop]
        obtain ⟨s, hsin, hsvz⟩ := List.any_eq_true.mp hdrop
        have hpe : pk (entryKeyO idx e) = false := by
          rw [← hp s _ hsvz]
          exact hseen s hsin
        rw [List.filter_cons_of_neg (by simp [hpe])]
        exact ih seen hseen
      · rw [if_neg hdrop]
        cases hpe : pk (entryKeyO idx e)
        · rw [List.filter_cons_of_neg (by simp [hpe]),
            List.filter_cons_of_neg (by simp [hpe])]
          refine ih (entryKeyO idx e :: seen) ?_
          intro s hs
          rcases List.mem_cons.mp hs with rfl | hs'
          · exact hpe
          · exact hseen s hs'
        · rw [List.filter_cons_of_pos (by simp [hpe]),
            List.filter_cons_of_pos (by simp [hpe])]
          rfl

/-! ## Claim C4: the append-versus-rewrite decision -/

/-- Within one key kind the comparator is negatively transitive. -/
theorem jsGTv_negtrans (t : GTypeId) (a b c : Value)
    (ha : scalarMatches t a = true) (hb : scalarMatches t b = true)
    (hc : scalarMatches t c = true)
    (h1 : jsGTv a b = false) (h2 : jsGTv b c = false) : jsGTv a c = false := by
  cases t <;> cases a <;> simp [scalarMatches] at ha <;>
    cases b <;> simp [scalarMatches] at hb <;>
    cases c <;> simp [scalarMatches] at hc <;> simp_all [jsGTv] <;>
    first
      | omega
      | exact le_trans h1 h2

/-- An entry whose index field holds a value of the key kind `t`. -/
def KeyedAt (idx : String) (t : GTypeId) (e : Entry) : Prop :=
  ∃ k, e.lookup idx = some k ∧ scalarMatches t k = true

theorem byKeyGT_negtrans (idx : String) (t : GTypeId) (a b c : Entry)
    (ha : KeyedAt idx t a) (hb : KeyedAt idx t b) (hc : KeyedAt idx t c)
    (h1 : byKeyGT (some idx) a b = false) (h2 : byKeyGT (some idx) b c = false) :
    byKeyGT (some idx) a c = false := by
  obtain ⟨ka, hka, hta⟩ := ha
  obtain ⟨kb, hkb, htb⟩ := hb
  obtain ⟨kc, hkc, htc⟩ := hc
  have ha' : entryKeyO (some idx) a = some ka := hka
  have hb' : entryKeyO (some idx) b = some kb := hkb
  have hc' : entryKeyO (some idx) c = some kc := hkc
  unfold byKeyGT at h1 h2 ⊢
  rw [ha', hb'] at h1
  rw [hb', hc'] at h2
  rw [ha', hc']
  exact jsGTv_negtrans t ka kb kc hta htb htc h1 h2

/-- The head of the comparator-sorted batch is a minimal element, and the
strict bound it satisfies transfers to every batch element. -/
theorem sorted_head_min_keys (idx : String) (t : GTypeId) (batch : List Entry)
    (hb : ∀ e ∈ batch, KeyedAt idx t e)
    (hd : Entry) (hhd : (jsSortBy (byKeyGT (some idx)) batch).head? = some hd) :
    ∀ e ∈ batch, byKeyGT (some idx) hd e = false := by
  intro e he
  have hmem : ∀ x ∈ jsSortBy (byKeyGT (some idx)) batch, KeyedAt idx t x :=
    fun x hx => hb x ((mem_jsSortBy _ batch x).mp hx)
  have hsorted : SortedGT (byKeyGT (some idx)) (jsSortBy (byKeyGT (some idx)) batch) :=
    sortedGT_jsSortBy _ (byKeyGT_asymm (some idx)) batch
  exact sortedGT_head_min _ (KeyedAt idx t)
    (byKeyGT_negtrans idx t) (fun a _ => byKeyGT_irrefl (some idx) a)
    _ hsorted hmem hd hhd e ((mem_jsSortBy _ batch e).mpr he)

/-- C4. The writer of a CSV `put` batch chooses append mode exactly when
the partition file exists, the batch is non-empty, the partition's probed
last entry carries an index value, and every batch entry's index value is
strictly greater than it (equivalently: the minimum index among the batch
is strictly greater than the existing last entry's index); in every other
case `writePartition` takes the rewrite branch. The left-hand side is the
verbatim guard of `writePartition`, applied to the sorted batch head. -/
theorem claim_C4_append_iff (idx : String) (t : GTypeId) (batch : List Entry)
    (fileExists : Bool) (lastE? : Option Entry)
    (hb : ∀ e ∈ batch, KeyedAt idx t e) :
    CSV.decideAppend (some idx) fileExists
        (jsSortBy (byKeyGT (some idx)) batch).head? lastE? = true ↔
      fileExists = true ∧ batch ≠ [] ∧
        ∃ eL kL, lastE? = some eL ∧ eL.lookup idx = some kL ∧
          ∀ e ∈ batch, ∀ k, e.lookup idx = some k → jsGTv k kL = true := by
  constructor
  · intro h
    unfold CSV.decideAppend at h
    rw [Bool.and_eq_true] at h
    obtain ⟨hfe, hgt⟩ := h
    refine ⟨hfe, ?_⟩
    cases hsor : jsSortBy (byKeyGT (some idx)) batch with
    | nil => rw [hsor] at hgt; simp [jsGTo] at hgt
    | cons hd tl =>
        rw [hsor] at hgt
        have hhd : (jsSortBy (byKeyGT (some idx)) batch).head? = some hd := by
          rw [hsor]; rfl
        have hdmem : hd ∈ batch :=
          (mem_jsSortBy _ batch hd).mp (by rw [hsor]; exact List.mem_cons_self hd tl)
        obtain ⟨hk, hhk, hthk⟩ := hb hd hdmem
        have hdk : entryKeyO (some idx) hd = some hk := hhk
        cases hLE : lastE? with
        | none => rw [hLE] at hgt; simp [jsGTo] at hgt
        | some eL =>
            rw [hLE] at hgt
            have hgt' : jsGTo (entryKeyO (some idx) hd)
                (entryKeyO (some idx) eL) = true := hgt
            cases hkL : eL.lookup idx with
            | none =>
                have heL : entryKeyO (some idx) eL = none := hkL
                rw [hdk, heL] at hgt'
                simp [jsGTo] at hgt'
            | some kL =>
                have heL : entryKeyO (some idx) eL = some kL := hkL
                rw [hdk, heL] at hgt'
                rw [show jsGTo (some hk) (some kL) = jsGTv hk kL from rfl] at hgt'
                refine ⟨by intro hbe; rw [hbe] at hsor; exact List.noConfusion hsor,
                  eL, kL, rfl, hkL, ?_⟩
                intro e he k hke
                obtain ⟨k0, hk0, htk0⟩ := hb e he
                obtain rfl : k0 = k := by rw [hk0] at hke; injection hke
                have hek : entryKeyO (some idx) e = some k0 := hk0
                have hmin := sorted_head_min_keys idx t batch hb hd hhd e he
                unfold byKeyGT at hmin
                rw [hdk, hek] at hmin
                rw [show jsGTo (some hk) (some k0) = jsGTv hk k0 from rfl] at hmin
                exact jsGTv_rev t hk k0 kL hthk htk0 hmin hgt' 
  · rintro ⟨hfe, hbne, eL, kL, rfl, hkL, hall⟩
    cases hsor : jsSortBy (byKeyGT (some idx)) batch with
    | nil =>
        obtain ⟨e, he⟩ := List.exists_mem_of_ne_nil batch hbne
        have : e ∈ jsSortBy (byKeyGT (some idx)) batch :=
          (mem_jsSortBy _ batch e).mpr he
        rw [hsor] at this
        cases this
    | cons hd tl =>
        have hdmem : hd ∈ batch :=
          (mem_jsSortBy _ batch hd).mp (by rw [hsor]; exact List.mem_cons_self hd tl)
        obtain ⟨hk, hhk, hthk⟩ := hb hd hdmem
        have hgt : jsGTv hk kL = true := hall hd hdmem hk hhk
        have hdk : entryKeyO (some idx) hd = some hk := hhk
        have heL : entryKeyO (some idx) eL = some kL := hkL
        unfold CSV.decideAppend
        rw [Bool.and_eq_true]
        refine ⟨hfe, ?_⟩
        show jsGTo ((some hd).bind (entryKeyO (some idx)))
          ((some eL).bind (entryKeyO (some idx))) = true
        rw [show (some hd).bind (entryKeyO (some idx)) =
          entryKeyO (some idx) hd from rfl]
        rw [show (some eL).bind (entryKeyO (some idx)) =
          entryKeyO (some idx) eL from rfl]
        rw [hdk, heL]
        exact hgt

theorem claim_C4_append_iff_witness :
    CSV.decideAppend (some "id") true
        (jsSortBy (byKeyGT (some "id")) [[("id", Value.number 2)]]).head?
        (some [("id", Value.number 1)]) = true ∧
      ([[("id", Value.number 2)]] : List Entry) ≠ [] := by
  refine ⟨?_, by simp⟩
  refine (claim_C4_append_iff "id" .Number [[("id", Value.number 2)]] true
    (some [("id", Value.number 1)]) ?_).mpr ?_
  · intro e he
    simp only [List.mem_singleton] at he
    subst he
    exact ⟨Value.number 2, rfl, rfl⟩
  · refine ⟨rfl, by simp, [("id", Value.number 1)], Value.number 1, rfl, rfl, ?_⟩
    intro e he k hke
    simp only [List.mem_singleton] at he
    subst he
    obtain rfl : Value.number 2 = k := by
      rw [show ([("id", Value.number 2)] : Entry).lookup "id" =
        some (Value.number 2) from rfl] at hke
      injection hke
    show decide ((1 : Rat) < 2) = true
    norm_num

/-! ## Claim C5: the rewrite-mode content -/

/-- Peeling the success of `writePartition` in rewrite mode: the store
afterwards holds the merged partition under the header of its first
entry. -/
theorem writePartition_rewrite_eq (schema : SchemaL) (st : CSV.CSVState)
    (p : String) (batch : List Entry) (st' : CSV.CSVState) (lastE? : Option Entry)
    (hprobe : CSV.probeLast schema.map (st.files.lookup p) = .ok lastE?)
    (hmode : CSV.decideAppend schema.index (st.files.lookup p).isSome
      (jsSortBy (byKeyGT schema.index) batch).head? lastE? = false)
    (h : CSV.writePartition schema st p batch = .ok st') :
    ∃ merged rows,
      CSV.mixPartitionWith schema st p (jsSortBy (byKeyGT schema.index) batch) =
        .ok merged ∧
      merged.mapM CSV.hydrateEntry = .ok rows ∧
      st' = (⟨st.schemaFile,
        CSV.setFile st.files p
          (⟨(match merged.head? with | some e => e.map Prod.fst | none => []),
            rows⟩ : CSV.CSVFile),
        st.cache⟩ : CSV.CSVState) := by
  unfold CSV.writePartition at h
  simp only [bind] at h
  cases hval : List.forM batch (fun e => validate schema.map e) with
  | error err => rw [hval] at h; exact Except.noConfusion h
  | ok u =>
      simp only [hval, exceptBind_ok] at h
      simp only [hprobe, exceptBind_ok] at h
      simp only [hmode, Bool.false_eq_true, if_false] at h
      cases hmix : CSV.mixPartitionWith schema st p
          (jsSortBy (byKeyGT schema.index) batch) with
      | error e2 => rw [hmix] at h; exact Except.noConfusion h
      | ok merged =>
          simp only [hmix, exceptBind_ok] at h
          cases hrows : merged.mapM CSV.hydrateEntry with
          | error e3 => rw [hrows] at h; exact Except.noConfusion h
          | ok rows =>
              simp only [hrows, exceptBind_ok] at h
              refine ⟨merged, rows, rfl, hrows, ?_⟩
              injection h with h2
              exact h2.symm

/-- Peeling the success of `writePartition` in append mode: the existing
rows stay in place and the hydrated sorted batch is appended, each row
keyed by the file header over the cells read in the first-record column
order. -/
theorem writePartition_append_eq (schema : SchemaL) (st : CSV.CSVState)
    (p : String) (batch : List Entry) (st' : CSV.CSVState) (lastE? : Option Entry)
    (f : CSV.CSVFile)
    (hfile : st.files.lookup p = some f)
    (hprobe : CSV.probeLast schema.map (st.files.lookup p) = .ok lastE?)
    (hmode : CSV.decideAppend schema.index (st.files.lookup p).isSome
      (jsSortBy (byKeyGT schema.index) batch).head? lastE? = true)
    (h : CSV.writePartition schema st p batch = .ok st') :
    ∃ rowsNew,
      (jsSortBy (byKeyGT schema.index) batch).mapM CSV.hydrateEntry = .ok rowsNew ∧
      st' = (⟨st.schemaFile,
        CSV.setFile st.files p (⟨f.header, f.rows ++ rowsNew.map fun r =>
          f.header.zip ((match rowsNew.head? with
            | some r0 => r0.map Prod.fst
            | none => []).map fun c =>
              ((r.lookup c).getD (CSV.Cell.raw "")))⟩ : CSV.CSVFile),
        st.cache⟩ : CSV.CSVState) := by
  unfold CSV.writePartition at h
  simp only [bind] at h
  cases hval : List.forM batch (fun e => validate schema.map e) with
  | error err => rw [hval] at h; exact Except.noConfusion h
  | ok u =>
      simp only [hval, exceptBind_ok] at h
      simp only [hprobe, exceptBind_ok] at h
      simp only [hmode, if_true] at h
      cases hrows : (jsSortBy (byKeyGT schema.index) batch).mapM CSV.hydrateEntry with
      | error e3 => rw [hrows] at h; exact Except.noConfusion h
      | ok rowsNew =>
          simp only [hrows, exceptBind_ok, hfile] at h
          refine ⟨rowsNew, rfl, ?_⟩
          injection h with h2
          exact h2.symm

/-- C5, amended. In rewrite mode the partition afterwards holds, under a
header naming the fields of the first merged entry, the hydrated merge of
the (sorted) batch with the previously stored entries, deduplicated by
index key keeping the EARLIEST occurrence in iteration order — the batch
before the stored entries, `uniqByKey` keeping first occurrences — and
sorted ascending by index. The spec says the LATEST occurrence is kept;
`claim_C5_counterexample` refutes that reading. -/
theorem claim_C5_rewrite_mode (schema : SchemaL) (st : CSV.CSVState)
    (p : String) (batch : List Entry) (st' : CSV.CSVState) (lastE? : Option Entry)
    (existing : List Entry)
    (hex : (CSV.partitionRows st p).mapM (CSV.dehydrateRow schema.map) = .ok existing)
    (hprobe : CSV.probeLast schema.map (st.files.lookup p) = .ok lastE?)
    (hmode : CSV.decideAppend schema.index (st.files.lookup p).isSome
      (jsSortBy (byKeyGT schema.index) batch).head? lastE? = false)
    (h : CSV.writePartition schema st p batch = .ok st') :
    ∃ merged rows,
      merged = jsSortBy (byKeyGT schema.index)
        (uniqByKey schema.index (jsSortBy (byKeyGT schema.index) batch ++ existing)) ∧
      merged.mapM CSV.hydrateEntry = .ok rows ∧
      st'.files.lookup p = some
        ⟨(match merged.head? with | some e => e.map Prod.fst | none => []), rows⟩ ∧
      SortedGT (byKeyGT schema.index) merged ∧
      ∀ e ∈ merged, e ∈ batch ∨ e ∈ existing := by
  obtain ⟨merged, rows, hmix, hrows, hst⟩ :=
    writePartition_rewrite_eq schema st p batch st' lastE? hprobe hmode h
  have hmerged : merged = jsSortBy (byKeyGT schema.index)
      (uniqByKey schema.index (jsSortBy (byKeyGT schema.index) batch ++ existing)) := by
    unfold CSV.mixPartitionWith at hmix
    simp only [bind] at hmix
    simp only [hex, exceptBind_ok] at hmix
    injection hmix with h2
    exact h2.symm
  refine ⟨merged, rows, hmerged, hrows, ?_, ?_, ?_⟩
  · rw [hst]
    exact setFile_lookup_self st.files p _
  · rw [hmerged]
    exact sortedGT_jsSortBy _ (byKeyGT_asymm schema.index) _
  · intro e he
    rw [hmerged] at he
    have he2 := (mem_jsSortBy _ _ e).mp he
    have he3 := mem_uniqByKeyAux schema.index _ [] e he2
    rcases List.mem_append.mp he3 with h4 | h4
    · exact Or.inl ((mem_jsSortBy _ _ e).mp h4)
    · exact Or.inr h4

/-- The deduplication in the words of the specification: keep the LATEST
occurrence of every index key in iteration order. -/
def uniqByKeyLastSpec (idx : Option String) (l : List Entry) : List Entry :=
  (uniqByKeyAux idx [] l.reverse).reverse

/-- The C5 scenario: one stored entry and one batch entry with the same
numeric index key. -/
def schemaN : SchemaL :=
  ⟨some "id", [("id", ⟨.Number, false, false⟩), ("v", ⟨.String, false, false⟩)]⟩

def e0C5 : Entry := [("id", .number 1), ("v", .str "old")]

def e1C5 : Entry := [("id", .number 1), ("v", .str "new")]

def r0C5 : CSV.RowN := [("id", CSV.Cell.dec 1), ("v", CSV.Cell.raw "old")]

def r1C5 : CSV.RowN := [("id", CSV.Cell.dec 1), ("v", CSV.Cell.raw "new")]

def stC5 : CSV.CSVState := ⟨none, [("p", ⟨["id", "v"], [r0C5]⟩)], none⟩

/-- C5 counterexample: a rewrite-mode write whose batch duplicates a
stored key keeps the BATCH entry — the earliest occurrence of the merged
iteration order — while the merge the specification describes (latest
occurrence wins) would keep the stored entry; the two contents differ. -/
theorem claim_C5_counterexample :
    CSV.writePartition schemaN stC5 "p" [e1C5] =
      .ok { stC5 with files := [("p", ⟨["id", "v"], [r1C5]⟩)] } ∧
    (jsSortBy (byKeyGT schemaN.index)
        (uniqByKeyLastSpec schemaN.index ([e1C5] ++ [e0C5]))).mapM CSV.hydrateEntry =
      .ok [r0C5] ∧
    ([r1C5] : List CSV.RowN) ≠ [r0C5] := by
  refine ⟨rfl, rfl, ?_⟩
  simp [r0C5, r1C5]

theorem claim_C5_rewrite_mode_witness :
    ∃ merged rows,
      merged = jsSortBy (byKeyGT schemaN.index)
        (uniqByKey schemaN.index
          (jsSortBy (byKeyGT schemaN.index) [e1C5] ++ [e0C5])) ∧
      merged.mapM CSV.hydrateEntry = .ok rows ∧
      ({ stC5 with files := [("p", ⟨["id", "v"], [r1C5]⟩)] } :
          CSV.CSVState).files.lookup "p" = some
        ⟨(match merged.head? with | some e => e.map Prod.fst | none => []), rows⟩ ∧
      SortedGT (byKeyGT schemaN.index) merged ∧
      ∀ e ∈ merged, e ∈ [e1C5] ∨ e ∈ [e0C5] :=
  claim_C5_rewrite_mode schemaN stC5 "p" [e1C5]
    { stC5 with files := [("p", ⟨["id", "v"], [r1C5]⟩)] }
    (some e0C5) [e0C5] rfl rfl rfl rfl

/-! ## Claims C1 and C6: machinery for put-then-get -/

theorem forall₂_mem_right {α β : Type} {R : α → β → Prop} :
    ∀ {l : List α} {r : List β}, List.Forall₂ R l r →
      ∀ b ∈ r, ∃ a ∈ l, R a b := by
  intro l r hf
  induction hf with
  | nil => intro b hb; cases hb
  | cons hab hf2 ih =>
      intro b hb
      rcases List.mem_cons.mp hb with rfl | hb2
      · exact ⟨_, List.mem_cons_self _ _, hab⟩
      · obtain ⟨a2, ha2, hR⟩ := ih b hb2
        exact ⟨a2, List.mem_cons_of_mem _ ha2, hR⟩

theorem forall₂_getLast {α β : Type} {R : α → β → Prop} :
    ∀ {l : List α} {r : List β}, List.Forall₂ R l r →
      ∀ b, r.getLast? = some b → ∃ a, l.getLast? = some a ∧ R a b := by
  intro l r hf
  induction hf with
  | nil => intro b hb; exact Option.noConfusion hb
  | @cons a0 b0 l2 r2 hab hf2 ih =>
      intro b hb
      cases hf2 with
      | nil =>
          obtain rfl : b0 = b := by
            rw [show ([b0] : List β).getLast? = some b0 from rfl] at hb
            injection hb
          exact ⟨a0, rfl, hab⟩
      | @cons a1 b1 l3 r3 hab2 hf3 =>
          rw [List.getLast?_cons_cons] at hb
          obtain ⟨a2, ha2, hR⟩ := ih b hb
          exact ⟨a2, by rw [List.getLast?_cons_cons]; exact ha2, hR⟩

theorem mapM_ok_of_forall₂ {α β : Type} (f : α → Except Err β) :
    ∀ {l : List α} {r : List β}, List.Forall₂ (fun a b => f a = .ok b) l r →
      l.mapM f = .ok r := by
  intro l r hf
  induction hf with
  | nil => rfl
  | cons hab hf2 ih =>
      rw [List.mapM_cons, hab, ih]
      rfl

theorem mapM_congr {α β : Type} (f g : α → Except Err β) :
    ∀ (l : List α), (∀ x ∈ l, f x = g x) → l.mapM f = l.mapM g := by
  intro l
  induction l with
  | nil => intro _; rfl
  | cons x xs ih =>
      intro h
      rw [List.mapM_cons, List.mapM_cons, h x (List.mem_cons_self x xs),
        ih fun z hz => h z (List.mem_cons_of_mem x hz)]

/-- Linearity of the comparator transferred to entries: an entry not
above `y` is above anything `y` is strictly above. -/
theorem byKeyGT_rev (idx : String) (t : GTypeId) (y z : Entry)
    (hy : KeyedAt idx t y) (hz : KeyedAt idx t z) (w : Entry)
    (h1 : byKeyGT (some idx) y z = false) (h2 : byKeyGT (some idx) y w = true) :
    byKeyGT (some idx) z w = true := by
  obtain ⟨ky, hky, hty⟩ := hy
  obtain ⟨kz, hkz, htz⟩ := hz
  have hy' : entryKeyO (some idx) y = some ky := hky
  have hz' : entryKeyO (some idx) z = some kz := hkz
  unfold byKeyGT at h1 h2 ⊢
  rw [hy', hz'] at h1
  rw [hy'] at h2
  rw [hz']
  cases hw : entryKeyO (some idx) w with
  | none => rw [hw] at h2; exact Bool.noConfusion h2
  | some kw =>
      rw [hw] at h2
      exact jsGTv_rev t ky kz kw hty htz h1 h2

/-- The key-matching predicate of `get`, factored through the index
value: does the value hydrate to a cell string-equal to the probe? -/
def pkHyd (ck : CSV.Cell) : Option Value → Bool
  | some v => match CSV.hydrate v with | .ok c => CSV.cellBeq c ck | .error _ => false
  | none => false

theorem pkHyd_svz (ck : CSV.Cell) (s k' : Option Value)
    (h : svzEqO s k' = true) : pkHyd ck s = pkHyd ck k' := by
  cases s with
  | none => cases k' with
    | none => rfl
    | some v => exact Bool.noConfusion h
  | some v => cases k' with
    | none => exact Bool.noConfusion h
    | some w =>
        have hvw : CSV.hydrate v = CSV.hydrate w := svzEq_hydrate_eq v w h
        simp only [pkHyd, hvw]

/-- Two entries whose keys both hydrate onto the probed cell are never
strictly ordered (ties of the dedup class). -/
theorem pkHyd_ties (idx : String) (ck : CSV.Cell) (a b : Entry)
    (ha : pkHyd ck (entryKeyO (some idx) a) = true)
    (hb : pkHyd ck (entryKeyO (some idx) b) = true) :
    byKeyGT (some idx) a b = false := by
  unfold byKeyGT
  cases hka : entryKeyO (some idx) a with
  | none => rw [hka] at ha; exact Bool.noConfusion ha
  | some va =>
      cases hkb : entryKeyO (some idx) b with
      | none => rw [hkb] at hb; exact Bool.noConfusion hb
      | some vb =>
          rw [hka] at ha
          rw [hkb] at hb
          simp only [pkHyd] at ha hb
          cases hca : CSV.hydrate va with
          | error e => rw [hca] at ha; exact Bool.noConfusion ha
          | ok ca =>
              cases hcb : CSV.hydrate vb with
              | error e => rw [hcb] at hb; exact Bool.noConfusion hb
              | ok cb =>
                  rw [hca] at ha
                  rw [hcb] at hb
                  have hcab : CSV.cellBeq ca cb = true := by
                    refine cellBeq_trans ca ck cb ha ?_
                    rw [cellBeq_comm]
                    exact hb
                  exact hydEq_not_gt va vb ca cb hca hcb hcab

/-- Per-value CSV round-trip in existential form. -/
theorem csv_value_roundtrip_ex (meta : TypeMeta) (v : Value)
    (h : valueMatches meta v = true) :
    ∃ c, CSV.hydrate v = .ok c ∧ CSV.dehydrate meta c = .ok v := by
  have hb := (value_roundtrip_both meta v h).1
  cases hc : CSV.hydrate v with
  | error e => rw [hc] at hb; exact Except.noConfusion hb
  | ok c => rw [hc] at hb; exact ⟨c, rfl, hb⟩

/-- Per-value SQLite round-trip in existential form. -/
theorem sql_value_roundtrip_ex (meta : TypeMeta) (v : Value)
    (h : valueMatches meta v = true) :
    ∃ c, SQLite.hydrate v = .ok c ∧ SQLite.dehydrate meta c = .ok v := by
  have hb := (value_roundtrip_both meta v h).2
  cases hc : SQLite.hydrate v with
  | error e => rw [hc] at hb; exact Except.noConfusion hb
  | ok c => rw [hc] at hb; exact ⟨c, rfl, hb⟩

/-- A well-typed entry hydrates to a CSV row that dehydrates back to it. -/
theorem csv_entry_roundtrip (map : TypeMapL) (e : Entry)
    (hm : EntryMatchesMap map e) :
    ∃ r, CSV.hydrateEntry e = .ok r ∧ CSV.dehydrateRow map r = .ok e :=
  entry_roundtrip_gen CSV.hydrate CSV.dehydrate csv_value_roundtrip_ex map e hm

/-- A well-typed entry hydrates to a SQLite parameter list that
dehydrates back to it. -/
theorem sql_entry_roundtrip (map : TypeMapL) (e : Entry)
    (hm : EntryMatchesMap map e) :
    ∃ r, e.mapM (fun kv => do pure (kv.1, ← SQLite.hydrate kv.2)) = .ok r ∧
      SQLite.dehydrateRowS map r = .ok e :=
  entry_roundtrip_gen SQLite.hydrate SQLite.dehydrate sql_value_roundtrip_ex map e hm

/-- On a hydrated partition, dehydration recovers exactly the stored
entries. -/
theorem good_rows_dehydrate (map : TypeMapL) :
    ∀ {es : List Entry} {rows : List CSV.RowN},
      List.Forall₂ (fun e r => CSV.hydrateEntry e = .ok r) es rows →
      (∀ e ∈ es, EntryMatchesMap map e) →
      rows.mapM (CSV.dehydrateRow map) = .ok es := by
  intro es rows hf
  induction hf with
  | nil => intro _; rfl
  | @cons e r es2 rows2 her hf2 ih =>
      intro hm
      obtain ⟨r0, hr0, hd0⟩ := csv_entry_roundtrip map e (hm e (List.mem_cons_self e es2))
      obtain rfl : r = r0 := by rw [her] at hr0; injection hr0
      rw [List.mapM_cons, hd0, ih fun q hq => hm q (List.mem_cons_of_mem e hq)]
      rfl

/-- Single-row flavour of `good_rows_dehydrate`. -/
theorem hyd_deh_single (map : TypeMapL) (e : Entry) (r : CSV.RowN)
    (hm : EntryMatchesMap map e) (her : CSV.hydrateEntry e = .ok r) :
    CSV.dehydrateRow map r = .ok e := by
  obtain ⟨r0, hr0, hd0⟩ := csv_entry_roundtrip map e hm
  obtain rfl : r = r0 := by rw [her] at hr0; injection hr0
  exact hd0

theorem forall₂_append_my {α β : Type} {R : α → β → Prop}
    {l₁ l₂ : List α} {r₁ r₂ : List β} (h₁ : List.Forall₂ R l₁ r₁)
    (h₂ : List.Forall₂ R l₂ r₂) : List.Forall₂ R (l₁ ++ l₂) (r₁ ++ r₂) := by
  induction h₁ with
  | nil => exact h₂
  | cons hab hf ih => exact List.Forall₂.cons hab ih

/-- A `put` of a single entry on a schema-resolved store is one
`writePartition` call on the partition of the index key of the entry. -/
theorem csv_put_single (cfg : CSV.CSVConfig) (st : CSV.CSVState) (schema : SchemaL)
    (e : Entry) (st' : CSV.CSVState)
    (hcache : st.cache = some schema)
    (hput : CSV.put cfg st [e] = .ok st') :
    CSV.writePartition schema st
      (cfg.partitioner.getPartition (entryKeyO schema.index e)) [e] = .ok st' := by
  unfold CSV.put at hput
  simp only [bind] at hput
  simp only [csv_ensureSchema_hit cfg st schema hcache, exceptBind_ok] at hput
  cases hv : List.forM [e] (fun x => validate schema.map x) with
  | error err => rw [hv] at hput; exact Except.noConfusion hput
  | ok u =>
      simp only [hv, exceptBind_ok] at hput
      rw [show jsSortBy (byKeyGT schema.index) [e] = [e] from rfl] at hput
      simp only [List.map_cons, List.map_nil] at hput
      rw [show dedupFirst [cfg.partitioner.getPartition (entryKeyO schema.index e)] =
        [cfg.partitioner.getPartition (entryKeyO schema.index e)] by
          rw [dedupFirst]
          rw [show List.filter (fun x =>
            !(x == cfg.partitioner.getPartition (entryKeyO schema.index e))) [] =
            [] from rfl]
          rw [dedupFirst]] at hput
      simp only [List.foldlM_cons, List.foldlM_nil, bind] at hput
      rw [show List.filter (fun x => cfg.partitioner.getPartition
          (entryKeyO schema.index x) == cfg.partitioner.getPartition
          (entryKeyO schema.index e)) [e] = [e] by
        simp [List.filter]] at hput
      cases hwp : CSV.writePartition schema st
          (cfg.partitioner.getPartition (entryKeyO schema.index e)) [e] with
      | error err => rw [hwp] at hput; exact Except.noConfusion hput
      | ok s2 =>
          rw [hwp, exceptBind_ok] at hput
          obtain rfl : s2 = st' := by injection hput
          rfl

/-- A single-entry `put` on a schema-resolved store equals the single
`writePartition` call it drains (both fail identically when validation
fails). -/
theorem csv_put_single_eq (cfg : CSV.CSVConfig) (st : CSV.CSVState)
    (schema : SchemaL) (e : Entry) (hcache : st.cache = some schema) :
    CSV.put cfg st [e] =
      CSV.writePartition schema st
        (cfg.partitioner.getPartition (entryKeyO schema.index e)) [e] := by
  cases hp : CSV.put cfg st [e] with
  | ok st' => exact (csv_put_single cfg st schema e st' hcache hp).symm
  | error err =>
      unfold CSV.put at hp
      simp only [bind] at hp
      simp only [csv_ensureSchema_hit cfg st schema hcache, exceptBind_ok] at hp
      cases hv : List.forM [e] (fun x => validate schema.map x) with
      | error err0 =>
          rw [hv] at hp
          have herr : err0 = err := by
            have hp2 : (Except.error err0 : Except Err CSV.CSVState) =
                Except.error err := hp
            injection hp2
          subst herr
          unfold CSV.writePartition
          simp only [bind]
          rw [hv]
          rfl
      | ok u =>
          simp only [hv, exceptBind_ok] at hp
          rw [show jsSortBy (byKeyGT schema.index) [e] = [e] from rfl] at hp
          simp only [List.map_cons, List.map_nil] at hp
          rw [show dedupFirst [cfg.partitioner.getPartition
              (entryKeyO schema.index e)] =
            [cfg.partitioner.getPartition (entryKeyO schema.index e)] by
              rw [dedupFirst]
              rw [show List.filter (fun x =>
                !(x == cfg.partitioner.getPartition (entryKeyO schema.index e))) [] =
                [] from rfl]
              rw [dedupFirst]] at hp
          simp only [List.foldlM_cons, List.foldlM_nil, bind] at hp
          rw [show List.filter (fun x => cfg.partitioner.getPartition
              (entryKeyO schema.index x) == cfg.partitioner.getPartition
              (entryKeyO schema.index e)) [e] = [e] by
            simp [List.filter]] at hp
          cases hwp : CSV.writePartition schema st
              (cfg.partitioner.getPartition (entryKeyO schema.index e)) [e] with
          | error e2 =>
              rw [hwp] at hp
              have hp2 : (Except.error e2 : Except Err CSV.CSVState) =
                  Except.error err := hp
              injection hp2 with h3
              rw [h3]
          | ok s2 =>
              rw [hwp, exceptBind_ok] at hp
              exact Except.noConfusion hp
/-- Forward computation of `get` once the matching row and its
dehydration are known. -/
theorem csv_get_found (cfg : CSV.CSVConfig) (st : CSV.CSVState) (schema : SchemaL)
    (k : Value) (ck : CSV.Cell) (r : CSV.RowN) (e : Entry)
    (hcache : st.cache = some schema)
    (hck : CSV.hydrate k = .ok ck)
    (hfind : (CSV.partitionRows st (cfg.partitioner.getPartition (some k))).find?
        (fun r2 => CSV.cellBeqO (schema.index.bind fun i => r2.lookup i) (some ck)) =
      some r)
    (hdeh : CSV.dehydrateRow schema.map r = .ok e) :
    CSV.get cfg st k = .ok (some e, st) := by
  unfold CSV.get
  simp only [bind]
  simp only [csv_ensureSchema_hit cfg st schema hcache, exceptBind_ok]
  simp only [hck, exceptBind_ok]
  rw [hfind]
  simp only [hdeh, exceptBind_ok]
  rfl

/-- Keys are preserved by field-wise hydration. -/
theorem mapM_pair_keys {β : Type} (f : Value → Except Err β) :
    ∀ (e : Entry) (r : List (String × β)),
      e.mapM (fun kv => (do pure (kv.1, ← f kv.2) : Except Err (String × β))) =
        .ok r →
      r.map Prod.fst = e.map Prod.fst := by
  intro e r h
  have hf := mapM_ok_forall₂ _ e r h
  clear h
  induction hf with
  | nil => rfl
  | cons hab hf2 ih =>
      simp only [List.map_cons]
      rw [(pairM_ok _ _ _ hab).1, ih]

/-- Reading the values of an association list back through its own
(duplicate free) keys, with a default for misses, yields its values. -/
theorem map_lookup_selfkeys {β : Type} (d : β) :
    ∀ (r : List (String × β)), (r.map Prod.fst).Nodup →
      (r.map Prod.fst).map (fun c => ((r.lookup c).getD d)) = r.map Prod.snd := by
  intro r
  induction r with
  | nil => intro _; rfl
  | cons kv rest ih =>
      intro hnd
      simp only [List.map_cons] at hnd ⊢
      obtain ⟨hk1, hnd2⟩ := List.nodup_cons.mp hnd
      rw [show (((kv :: rest).lookup kv.1 : Option β)).getD d = kv.2 by
        show (List.lookup kv.1 (kv :: rest)).getD d = kv.2
        rw [List.lookup]
        rw [show (kv.1 == kv.1) = true from beq_self_eq_true kv.1]
        rfl]
      rw [List.map_congr_left fun c hc => by
        show ((kv :: rest).lookup c).getD d = ((rest.lookup c).getD d)
        have hcne : (c == kv.1) = false := by
          rw [beq_eq_false_iff_ne]
          intro heq
          exact hk1 (heq ▸ hc)
        show (List.lookup c (kv :: rest)).getD d = _
        rw [List.lookup, hcne]]
      rw [ih hnd2]

/-- Zipping the keys of an association list with its values restores
it. -/
theorem zip_fst_snd {β : Type} :
    ∀ (r : List (String × β)), (r.map Prod.fst).zip (r.map Prod.snd) = r := by
  intro r
  induction r with
  | nil => rfl
  | cons kv rest ih =>
      simp only [List.map_cons, List.zip_cons_cons, ih]

/-- The lookup of the index column of a hydrated row. -/
theorem hydrate_row_key (e : Entry) (r : CSV.RowN) (idx : String) (k : Value)
    (c : CSV.Cell) (her : CSV.hydrateEntry e = .ok r) (hk : e.lookup idx = some k)
    (hc : CSV.hydrate k = .ok c) : r.lookup idx = some c := by
  have hf := mapM_ok_forall₂ _ e r
    (show e.mapM (fun kv => (do pure (kv.1, ← CSV.hydrate kv.2) :
      Except Err (String × CSV.Cell))) = Except.ok r from her)
  obtain ⟨c2, hc2, hr2⟩ := (forall₂_lookup CSV.hydrate e r hf idx).2 k hk
  rw [hc] at hc2
  obtain rfl : c = c2 := by injection hc2
  exact hr2

/-- The file invariant of the CSV correctness lemmas: every stored
partition file is the hydration of a list of well-typed, index-keyed
entries sorted ascending by index. -/
def GoodFileAt (schema : SchemaL) (idx : String) (t : GTypeId)
    (st : CSV.CSVState) (p : String) : Prop :=
  ∀ f, st.files.lookup p = some f →
    f.header = schema.map.map Prod.fst ∧
    ∃ es, List.Forall₂ (fun e2 r2 => CSV.hydrateEntry e2 = .ok r2) es f.rows ∧
      (∀ e2 ∈ es, EntryMatchesMap schema.map e2 ∧ KeyedAt idx t e2 ∧
        e2.map Prod.fst = schema.map.map Prod.fst) ∧
      SortedGT (byKeyGT (some idx)) es

/-- Writing one entry into an empty (or absent) partition in rewrite
mode: `get` on its key finds it again and the partition invariant is
re-established. -/
theorem csv_fresh_write_get (schema : SchemaL) (idx : String) (t : GTypeId)
    (cfg : CSV.CSVConfig) (st : CSV.CSVState) (e : Entry) (k : Value)
    (ck : CSV.Cell) (re : CSV.RowN) (st' : CSV.CSVState) (lastE? : Option Entry)
    (hidx : schema.index = some idx)
    (hcache : st.cache = some schema)
    (hmatch : EntryMatchesMap schema.map e)
    (hkey : e.lookup idx = some k) (htk : scalarMatches t k = true)
    (horder : e.map Prod.fst = schema.map.map Prod.fst)
    (hck : CSV.hydrate k = .ok ck) (hbeq : CSV.cellBeq ck ck = true)
    (hre : CSV.hydrateEntry e = .ok re)
    (hdehre : CSV.dehydrateRow schema.map re = .ok e)
    (hempty : CSV.partitionRows st (cfg.partitioner.getPartition (some k)) = [])
    (hprobe : CSV.probeLast schema.map
      (st.files.lookup (cfg.partitioner.getPartition (some k))) = .ok lastE?)
    (hmode : CSV.decideAppend schema.index
      (st.files.lookup (cfg.partitioner.getPartition (some k))).isSome
      (jsSortBy (byKeyGT schema.index) [e]).head? lastE? = false)
    (hwp0 : CSV.writePartition schema st
      (cfg.partitioner.getPartition (some k)) [e] = .ok st') :
    CSV.get cfg st' k = .ok (some e, st') ∧ st'.cache = some schema ∧
    GoodFileAt schema idx t st' (cfg.partitioner.getPartition (some k)) := by
  obtain ⟨merged, rows', hmix, hrows', hst⟩ :=
    writePartition_rewrite_eq schema st (cfg.partitioner.getPartition (some k))
      [e] st' lastE? hprobe hmode hwp0
  have hmix2 : CSV.mixPartitionWith schema st (cfg.partitioner.getPartition (some k))
      (jsSortBy (byKeyGT schema.index) [e]) = .ok [e] := by
    unfold CSV.mixPartitionWith
    simp only [bind]
    rw [hempty]
    rfl
  have hmeq : merged = [e] := by
    rw [hmix2] at hmix
    injection hmix with h2
    exact h2.symm
  subst hmeq
  have hrows2 : rows' = [re] := by
    rw [show ([e] : List Entry).mapM CSV.hydrateEntry = Except.ok [re] by
      rw [List.mapM_cons, hre]; rfl] at hrows'
    injection hrows' with h2
    exact h2.symm
  subst hrows2
  have hcache' : st'.cache = some schema := by rw [hst]; exact hcache
  have hrekey : re.lookup idx = some ck := hydrate_row_key e re idx k ck hre hkey hck
  have hpred : CSV.cellBeqO (schema.index.bind fun i => re.lookup i) (some ck) = true := by
    rw [hidx]
    show CSV.cellBeqO (re.lookup idx) (some ck) = true
    rw [hrekey]
    exact hbeq
  refine ⟨?_, hcache', ?_⟩
  · refine csv_get_found cfg st' schema k ck re e hcache' hck ?_ hdehre
    rw [hst]
    show (CSV.partitionRows
      (⟨st.schemaFile, CSV.setFile st.files (cfg.partitioner.getPartition (some k)) _,
        st.cache⟩ : CSV.CSVState) (cfg.partitioner.getPartition (some k))).find? _ =
      some re
    unfold CSV.partitionRows
    rw [show (CSV.setFile st.files (cfg.partitioner.getPartition (some k))
        (⟨(match ([e] : List Entry).head? with
            | some e2 => e2.map Prod.fst | none => []), [re]⟩ : CSV.CSVFile)).lookup
        (cfg.partitioner.getPartition (some k)) = some
        (⟨(match ([e] : List Entry).head? with
            | some e2 => e2.map Prod.fst | none => []), [re]⟩ : CSV.CSVFile) from
      setFile_lookup_self _ _ _]
    exact List.find?_cons_of_pos _ hpred
  · intro f2 hf2
    rw [hst] at hf2
    rw [show (CSV.setFile st.files (cfg.partitioner.getPartition (some k))
        (⟨(match ([e] : List Entry).head? with
            | some e2 => e2.map Prod.fst | none => []), [re]⟩ : CSV.CSVFile)).lookup
        (cfg.partitioner.getPartition (some k)) = some
        (⟨(match ([e] : List Entry).head? with
            | some e2 => e2.map Prod.fst | none => []), [re]⟩ : CSV.CSVFile) from
      setFile_lookup_self _ _ _] at hf2
    obtain rfl : (⟨(match ([e] : List Entry).head? with
        | some e2 => e2.map Prod.fst | none => []), [re]⟩ : CSV.CSVFile) = f2 := by
      injection hf2
    refine ⟨horder, [e], ?_, ?_, ?_⟩
    · exact List.Forall₂.cons hre List.Forall₂.nil
    · intro e2 he2
      rcases List.mem_singleton.mp he2 with rfl
      exact ⟨hmatch, ⟨k, hkey, htk⟩, horder⟩
    · exact List.chain'_singleton e

/-- Central CSV read-your-writes lemma: on a schema-resolved store whose
target partition satisfies the file invariant, `put` of one valid entry
followed by `get` of its index key returns that entry, and the invariant
is re-established. -/
theorem csv_put_single_get (schema : SchemaL) (idx : String) (t : GTypeId)
    (cfg : CSV.CSVConfig) (st : CSV.CSVState) (e : Entry) (k : Value)
    (st' : CSV.CSVState)
    (hidx : schema.index = some idx) (hkt : keyKind t)
    (hcache : st.cache = some schema)
    (hmatch : EntryMatchesMap schema.map e)
    (hkey : e.lookup idx = some k) (htk : scalarMatches t k = true)
    (hnodupC : (schema.map.map Prod.fst).Nodup)
    (horder : e.map Prod.fst = schema.map.map Prod.fst)
    (hgood : GoodFileAt schema idx t st (cfg.partitioner.getPartition (some k)))
    (hput : CSV.put cfg st [e] = .ok st') :
    CSV.get cfg st' k = .ok (some e, st') ∧
    st'.cache = some schema ∧
    GoodFileAt schema idx t st' (cfg.partitioner.getPartition (some k)) := by
  have hkeyO : entryKeyO schema.index e = some k := by rw [hidx]; exact hkey
  have hwp0 := csv_put_single cfg st schema e st' hcache hput
  rw [hkeyO] at hwp0
  obtain ⟨ck, hck, hbeq⟩ := hydrate_key_self_beq t k hkt htk
  obtain ⟨re, hre, hdehre⟩ := csv_entry_roundtrip schema.map e hmatch
  have hrekey : re.lookup idx = some ck := hydrate_row_key e re idx k ck hre hkey hck
  cases hf : st.files.lookup (cfg.partitioner.getPartition (some k)) with
  | none =>
      refine csv_fresh_write_get schema idx t cfg st e k ck re st' none hidx hcache
        hmatch hkey htk horder hck hbeq hre hdehre ?_ ?_ ?_ hwp0
      · unfold CSV.partitionRows
        rw [hf]
      · rw [hf]
        rfl
      · rw [hf]
        rfl
  | some f =>
      obtain ⟨hdr, rows⟩ := f
      obtain ⟨hhdr, es, hfa, hek, hsort⟩ := hgood ⟨hdr, rows⟩ hf
      have hhdr2 : hdr = schema.map.map Prod.fst := hhdr
      have hdehs : rows.mapM (CSV.dehydrateRow schema.map) = .ok es :=
        good_rows_dehydrate schema.map hfa fun e2 he2 => (hek e2 he2).1
      cases hfa with
      | nil =>
          refine csv_fresh_write_get schema idx t cfg st e k ck re st' (some [])
            hidx hcache hmatch hkey htk horder hck hbeq hre hdehre ?_ ?_ ?_ hwp0
          · unfold CSV.partitionRows
            rw [hf]
          · rw [hf]
            rfl
          · rw [hf]
            unfold CSV.decideAppend
            rw [show (jsSortBy (byKeyGT schema.index) [e]).head? = some e from rfl]
            rw [show (some e).bind (entryKeyO schema.index) =
              entryKeyO schema.index e from rfl, hkeyO]
            rw [show ((some ([] : Entry)).bind (entryKeyO schema.index)) =
              entryKeyO schema.index [] from rfl]
            rw [show entryKeyO schema.index ([] : Entry) = none by rw [hidx]; rfl]
            rfl
      | @cons e0 r0 es2 rows2 he0 hfa2 =>
          have hfa : List.Forall₂ (fun e2 r2 => CSV.hydrateEntry e2 = .ok r2)
              (e0 :: es2) (r0 :: rows2) := List.Forall₂.cons he0 hfa2
          obtain ⟨rL, hL⟩ : ∃ rL, (r0 :: rows2).getLast? = some rL :=
            ⟨(r0 :: rows2).getLast (by simp), List.getLast?_eq_getLast _ _⟩
          obtain ⟨eL, hLes, heL⟩ := forall₂_getLast hfa rL hL
          have heLmem : eL ∈ e0 :: es2 := mem_of_getLast? _ _ hLes
          have hdeL : CSV.dehydrateRow schema.map rL = .ok eL :=
            hyd_deh_single schema.map eL rL (hek eL heLmem).1 heL
          have hde0 : CSV.dehydrateRow schema.map r0 = .ok e0 :=
            hyd_deh_single schema.map e0 r0 (hek e0 (List.mem_cons_self e0 es2)).1 he0
          have hprobe : CSV.probeLast schema.map
              (st.files.lookup (cfg.partitioner.getPartition (some k))) =
              .ok (some eL) := by
            rw [hf]
            show CSV.probeLast schema.map
              (some (⟨hdr, r0 :: rows2⟩ : CSV.CSVFile)) = .ok (some eL)
            unfold CSV.probeLast CSV.firstEntryOfFile CSV.lastEntryOfFile
            simp only [bind, List.head?_cons, hde0, exceptBind_ok, hL, hdeL]
            rfl
          have hmodeq : CSV.decideAppend schema.index
              (st.files.lookup (cfg.partitioner.getPartition (some k))).isSome
              (jsSortBy (byKeyGT schema.index) [e]).head? (some eL) =
              jsGTo (some k) (entryKeyO (some idx) eL) := by
            rw [hf]
            unfold CSV.decideAppend
            rw [show (jsSortBy (byKeyGT schema.index) [e]).head? = some e from rfl]
            rw [show (some e).bind (entryKeyO schema.index) =
              entryKeyO schema.index e from rfl, hkeyO]
            rw [show ((some eL).bind (entryKeyO schema.index)) =
              entryKeyO schema.index eL from rfl, hidx]
            rfl
          cases hmode : jsGTo (some k) (entryKeyO (some idx) eL) with
          | true =>
              -- append mode
              cases hkL : entryKeyO (some idx) eL with
              | none => rw [hkL] at hmode; exact Bool.noConfusion hmode
              | some kL =>
              rw [hkL] at hmode
              have hgt : jsGTv k kL = true := hmode
              obtain ⟨kL2, hkL2, htkL⟩ := (hek eL heLmem).2.1
              obtain rfl : kL = kL2 := by
                have : eL.lookup idx = some kL := hkL
                rw [this] at hkL2
                injection hkL2
              obtain ⟨rowsNew, hrn, hst⟩ :=
                writePartition_append_eq schema st
                  (cfg.partitioner.getPartition (some k)) [e] st' (some eL)
                  ⟨hdr, r0 :: rows2⟩ hf hprobe (hmodeq.trans (by rw [hkL]; exact hmode))
                  hwp0
              have hrn2 : rowsNew = [re] := by
                rw [show jsSortBy (byKeyGT schema.index) [e] = [e] from rfl] at hrn
                rw [show ([e] : List Entry).mapM CSV.hydrateEntry = Except.ok [re] by
                  rw [List.mapM_cons, hre]; rfl] at hrn
                injection hrn with h2
                exact h2.symm
              subst hrn2
              have hkeysre : re.map Prod.fst = schema.map.map Prod.fst := by
                rw [mapM_pair_keys CSV.hydrate e re
                  (show e.mapM (fun kv => (do pure (kv.1, ← CSV.hydrate kv.2) :
                    Except Err (String × CSV.Cell))) = Except.ok re from hre)]
                exact horder
              have happrow : hdr.zip ((re.map Prod.fst).map fun c =>
                  ((re.lookup c).getD (CSV.Cell.raw ""))) = re := by
                rw [map_lookup_selfkeys (CSV.Cell.raw "") re
                  (by rw [hkeysre]; exact hnodupC)]
                rw [hhdr2, ← hkeysre]
                exact zip_fst_snd re
              simp only [List.map_cons, List.map_nil, List.head?_cons] at hst
              rw [happrow] at hst
              have hcache' : st'.cache = some schema := by rw [hst]; exact hcache
              have hmax : ∀ x ∈ e0 :: es2, byKeyGT (some idx) x eL = false :=
                sortedGT_getLast_max _ (KeyedAt idx t) (byKeyGT_negtrans idx t)
                  (fun a _ => byKeyGT_irrefl (some idx) a) _ hsort
                  (fun x hx => (hek x hx).2.1) eL hLes
              have hpredold : ∀ r2 ∈ r0 :: rows2,
                  CSV.cellBeqO (schema.index.bind fun i => r2.lookup i) (some ck) =
                    false := by
                intro r2 hr2
                obtain ⟨e2, he2mem, he2r⟩ := forall₂_mem_right hfa r2 hr2
                obtain ⟨k2, hk2, htk2⟩ := (hek e2 he2mem).2.1
                obtain ⟨c2, hc2, -⟩ := hydrate_key_self_beq t k2 hkt htk2
                have hr2k : r2.lookup idx = some c2 :=
                  hydrate_row_key e2 r2 idx k2 c2 he2r hk2 hc2
                rw [hidx]
                show CSV.cellBeqO (r2.lookup idx) (some ck) = false
                rw [hr2k]
                show CSV.cellBeq c2 ck = false
                have hko : jsGTv k k2 = true := by
                  have h1 : byKeyGT (some idx) e2 eL = false := hmax e2 he2mem
                  have h1k : jsGTv k2 kL = false := by
                    unfold byKeyGT at h1
                    rw [show entryKeyO (some idx) e2 = some k2 from hk2, hkL] at h1
                    exact h1
                  exact jsGTv_rev2 t k2 kL k htk2 htkL h1k hgt
                cases hbc : CSV.cellBeq c2 ck with
                | false => rfl
                | true =>
                    have hnot := hydEq_not_gt k k2 ck c2 hck hc2
                      (by rw [cellBeq_comm]; exact hbc)
                    rw [hnot] at hko
                    exact Bool.noConfusion hko
              have hprede : CSV.cellBeqO
                  (schema.index.bind fun i => re.lookup i) (some ck) = true := by
                rw [hidx]
                show CSV.cellBeqO (re.lookup idx) (some ck) = true
                rw [hrekey]
                exact hbeq
              have hfilter : ((r0 :: rows2) ++ [re]).filter
                  (fun r2 => CSV.cellBeqO (schema.index.bind fun i => r2.lookup i)
                    (some ck)) = [re] := by
                rw [List.filter_append]
                have h1 : List.filter (fun r2 =>
                    CSV.cellBeqO (schema.index.bind fun i => r2.lookup i) (some ck))
                    (r0 :: rows2) = [] :=
                  List.filter_eq_nil_iff.mpr fun r2 hr2 => by
                    rw [hpredold r2 hr2]; exact Bool.false_ne_true
                rw [h1, List.filter_cons]
                simp [hprede]
              refine ⟨?_, hcache', ?_⟩
              · refine csv_get_found cfg st' schema k ck re e hcache' hck ?_ hdehre
                rw [hst]
                unfold CSV.partitionRows
                rw [setFile_lookup_self]
                rw [find_eq_filter_head]
                rw [hfilter]
                rfl
              · intro f2 hf2
                rw [hst] at hf2
                rw [setFile_lookup_self] at hf2
                obtain rfl : (⟨hdr, (r0 :: rows2) ++ [re]⟩ : CSV.CSVFile) = f2 := by
                  injection hf2
                refine ⟨hhdr, (e0 :: es2) ++ [e], ?_, ?_, ?_⟩
                · exact forall₂_append_my hfa (List.Forall₂.cons hre List.Forall₂.nil)
                · intro e2 he2
                  rcases List.mem_append.mp he2 with h4 | h4
                  · exact hek e2 h4
                  · rcases List.mem_singleton.mp h4 with rfl
                    exact ⟨hmatch, ⟨k, hkey, htk⟩, horder⟩
                · show List.Chain' (fun a b => byKeyGT (some idx) a b = false)
                    ((e0 :: es2) ++ [e])
                  rw [List.chain'_append]
                  refine ⟨hsort, List.chain'_singleton e, ?_⟩
                  intro x hx y hy
                  rw [hLes] at hx
                  obtain rfl : eL = x := by injection hx
                  obtain rfl : e = y := by injection hy
                  unfold byKeyGT
                  rw [show entryKeyO (some idx) eL = some kL from hkL,
                    show entryKeyO (some idx) e = some k from hkey]
                  exact jsGTv_asymm k kL hgt
          | false =>
              -- rewrite mode
              obtain ⟨merged, rows', hmix, hrows', hst⟩ :=
                writePartition_rewrite_eq schema st
                  (cfg.partitioner.getPartition (some k)) [e] st' (some eL) hprobe
                  (hmodeq.trans hmode) hwp0
              have hmix2 : CSV.mixPartitionWith schema st
                  (cfg.partitioner.getPartition (some k))
                  (jsSortBy (byKeyGT schema.index) [e]) =
                  .ok (jsSortBy (byKeyGT schema.index)
                    (uniqByKey schema.index
                      (jsSortBy (byKeyGT schema.index) [e] ++ (e0 :: es2)))) := by
                unfold CSV.mixPartitionWith
                simp only [bind]
                rw [show CSV.partitionRows st
                    (cfg.partitioner.getPartition (some k)) = r0 :: rows2 by
                  unfold CSV.partitionRows; rw [hf]]
                simp only [hdehs, exceptBind_ok]
                rfl
              have hmeq : merged = jsSortBy (byKeyGT (some idx))
                  (uniqByKey (some idx) ([e] ++ (e0 :: es2))) := by
                have h2 : merged = jsSortBy (byKeyGT schema.index)
                    (uniqByKey schema.index
                      (jsSortBy (byKeyGT schema.index) [e] ++ (e0 :: es2))) := by
                  rw [hmix2] at hmix
                  injection hmix with h3
                  exact h3.symm
                rw [hidx] at h2
                exact h2
              have hcache' : st'.cache = some schema := by rw [hst]; exact hcache
              have hSl : ∀ x ∈ uniqByKey (some idx) ([e] ++ (e0 :: es2)),
                  KeyedAt idx t x := by
                intro x hx
                have hx2 : x ∈ [e] ++ (e0 :: es2) :=
                  mem_uniqByKeyAux (some idx) ([e] ++ (e0 :: es2)) [] x hx
                rcases List.mem_append.mp hx2 with h4 | h4
                · rcases List.mem_singleton.mp h4 with rfl
                  exact ⟨k, hkey, htk⟩
                · exact (hek x h4).2.1
              have hpe : pkHyd ck (entryKeyO (some idx) e) = true := by
                rw [show entryKeyO (some idx) e = some k from hkey]
                simp only [pkHyd, hck]
                exact hbeq
              have hmhead : (merged.filter
                  (fun e2 => pkHyd ck (entryKeyO (some idx) e2))).head? = some e := by
                rw [hmeq]
                rw [filter_jsSortBy _ (KeyedAt idx t)
                  (fun e2 => pkHyd ck (entryKeyO (some idx) e2))
                  (byKeyGT_asymm (some idx))
                  (fun y z w hy hz _ h1 h2 => byKeyGT_rev idx t y z hy hz w h1 h2)
                  (fun a b ha hb => pkHyd_ties idx ck a b ha hb)
                  (fun a _ => byKeyGT_irrefl (some idx) a)
                  _ hSl]
                rw [show uniqByKey (some idx) ([e] ++ (e0 :: es2)) =
                  uniqByKeyAux (some idx) [] ([e] ++ (e0 :: es2)) from rfl]
                rw [uniq_filter_head (some idx) (pkHyd ck) (pkHyd_svz ck)
                  ([e] ++ (e0 :: es2)) [] (fun s hs => absurd hs (List.not_mem_nil s))]
                rw [show ([e] ++ (e0 :: es2)) = e :: (e0 :: es2) from rfl]
                rw [List.filter_cons]
                simp [hpe]
              have hforall := mapM_ok_forall₂ CSV.hydrateEntry merged rows' hrows'
              have hpq : ∀ (a : Entry) (b : CSV.RowN), CSV.hydrateEntry a = .ok b →
                  (fun r2 => CSV.cellBeqO (schema.index.bind fun i => r2.lookup i)
                    (some ck)) b =
                  (fun e2 => pkHyd ck (entryKeyO (some idx) e2)) a := by
                intro a b hab
                show CSV.cellBeqO (schema.index.bind fun i => b.lookup i) (some ck) =
                  pkHyd ck (entryKeyO (some idx) a)
                rw [hidx]
                have hfab := mapM_ok_forall₂ _ a b
                  (show a.mapM (fun kv => (do pure (kv.1, ← CSV.hydrate kv.2) :
                    Except Err (String × CSV.Cell))) = Except.ok b from hab)
                have hfl := forall₂_lookup CSV.hydrate a b hfab idx
                cases hka : a.lookup idx with
                | none =>
                    rw [show entryKeyO (some idx) a = (none : Option Value) from hka]
                    rw [show ((some idx).bind fun i => b.lookup i) =
                      b.lookup idx from rfl]
                    rw [hfl.1 hka]
                    rfl
                | some v =>
                    obtain ⟨c, hc, hbl⟩ := hfl.2 v hka
                    rw [show ((some idx).bind fun i => b.lookup i) =
                      b.lookup idx from rfl]
                    rw [hbl]
                    rw [show entryKeyO (some idx) a = some v from hka]
                    show CSV.cellBeq c ck = pkHyd ck (some v)
                    simp only [pkHyd, hc]
              obtain ⟨b0, hfind0, hab0⟩ :=
                (forall₂_find (fun a b => CSV.hydrateEntry a = .ok b)
                  (fun e2 => pkHyd ck (entryKeyO (some idx) e2))
                  (fun r2 => CSV.cellBeqO (schema.index.bind fun i => r2.lookup i)
                    (some ck))
                  merged rows' hforall hpq).1 e hmhead
              obtain rfl : re = b0 := by
                rw [hre] at hab0
                injection hab0
              refine ⟨?_, hcache', ?_⟩
              · refine csv_get_found cfg st' schema k ck re e hcache' hck ?_ hdehre
                rw [hst]
                unfold CSV.partitionRows
                rw [setFile_lookup_self]
                exact hfind0
              · intro f2 hf2
                rw [hst] at hf2
                rw [setFile_lookup_self] at hf2
                obtain rfl : (⟨(match merged.head? with
                    | some e2 => e2.map Prod.fst | none => []), rows'⟩ : CSV.CSVFile) =
                    f2 := by injection hf2
                have hordmem : ∀ e2 ∈ merged,
                    e2.map Prod.fst = schema.map.map Prod.fst := by
                  intro e2 he2
                  rw [hmeq] at he2
                  have he3 := (mem_jsSortBy _ _ e2).mp he2
                  have he4 : e2 ∈ [e] ++ (e0 :: es2) :=
                    mem_uniqByKeyAux (some idx) ([e] ++ (e0 :: es2)) [] e2 he3
                  rcases List.mem_append.mp he4 with h4 | h4
                  · rcases List.mem_singleton.mp h4 with rfl
                    exact horder
                  · exact (hek e2 h4).2.2
                have hemem : e ∈ merged := by
                  rw [hmeq]
                  refine (mem_jsSortBy _ _ e).mpr ?_
                  show e ∈ uniqByKeyAux (some idx) [] (e :: (e0 :: es2))
                  exact List.mem_cons_self e _
                have hh0 : ∃ h0, merged.head? = some h0 ∧ h0 ∈ merged := by
                  cases merged with
                  | nil => cases hemem
                  | cons a l => exact ⟨a, rfl, List.mem_cons_self a l⟩
                obtain ⟨h0, hh0eq, hh0mem⟩ := hh0
                refine ⟨?_, merged, hforall, ?_, ?_⟩
                · show (match merged.head? with
                    | some e2 => e2.map Prod.fst | none => []) =
                    schema.map.map Prod.fst
                  rw [hh0eq]
                  exact hordmem h0 hh0mem
                · intro e2 he2
                  rw [hmeq] at he2
                  have he3 := (mem_jsSortBy _ _ e2).mp he2
                  have he4 : e2 ∈ [e] ++ (e0 :: es2) :=
                    mem_uniqByKeyAux (some idx) ([e] ++ (e0 :: es2)) [] e2 he3
                  rcases List.mem_append.mp he4 with h4 | h4
                  · rcases List.mem_singleton.mp h4 with rfl
                    exact ⟨hmatch, ⟨k, hkey, htk⟩, horder⟩
                  · exact hek e2 h4
                · rw [hmeq]
                  exact sortedGT_jsSortBy _ (byKeyGT_asymm (some idx)) _

/-- Reading an association list back in the order of its own (duplicate
free) keys reproduces it. -/
theorem lookup_selfmap :
    ∀ (l : SQLite.RowS), (l.map Prod.fst).Nodup →
      SQLite.rowLookupOrdered l (l.map Prod.fst) = .ok l := by
  intro l
  induction l with
  | nil => intro _; rfl
  | cons kv rest ih =>
      intro hnd
      simp only [List.map_cons] at hnd ⊢
      have hk1 : kv.1 ∉ rest.map Prod.fst := (List.nodup_cons.mp hnd).1
      have hnd2 : (rest.map Prod.fst).Nodup := (List.nodup_cons.mp hnd).2
      unfold SQLite.rowLookupOrdered at ih ⊢
      rw [List.mapM_cons]
      rw [show ((kv :: rest).lookup kv.1 : Option SQLite.Cell) = some kv.2 by
        show List.lookup kv.1 (kv :: rest) = some kv.2
        rw [List.lookup]
        rw [show (kv.1 == kv.1) = true from beq_self_eq_true kv.1]]
      rw [mapM_congr _ (fun f => (match rest.lookup f with
          | some c => pure (f, c)
          | none => .error Err.storageNotFound : Except Err (String × SQLite.Cell)))
        (rest.map Prod.fst) ?_]
      · rw [ih hnd2]
        rfl
      · intro f hf
        have hfne : (f == kv.1) = false := by
          rw [beq_eq_false_iff_ne]
          intro heq
          exact hk1 (heq ▸ hf)
        rw [show ((kv :: rest).lookup f : Option SQLite.Cell) = rest.lookup f by
          show List.lookup f (kv :: rest) = List.lookup f rest
          rw [List.lookup, hfne]]

/-- With the entry listing exactly the schema fields in order, the
`INSERT` parameter row is the hydrated entry itself. -/
theorem entryRow_eq (fields : List String) (e : Entry) (he : SQLite.RowS)
    (horder : e.map Prod.fst = fields) (hnodup : fields.Nodup)
    (hhe : e.mapM (fun kv => (do pure (kv.1, ← SQLite.hydrate kv.2) :
      Except Err (String × SQLite.Cell))) = .ok he) :
    SQLite.entryRow fields e = .ok he := by
  unfold SQLite.entryRow
  simp only [bind]
  simp only [show e.mapM (fun kv => (SQLite.hydrate kv.2).bind fun c =>
      (pure (kv.1, c) : Except Err (String × SQLite.Cell))) =
    Except.ok he from hhe, exceptBind_ok]
  have hkeys : he.map Prod.fst = fields := by
    rw [mapM_pair_keys SQLite.hydrate e he hhe, horder]
  rw [← hkeys]
  exact lookup_selfmap he (by rw [hkeys]; exact hnodup)

/-- SQL flavour of `hydrate_row_key`. -/
theorem hydrate_row_key_sql (e : Entry) (r : SQLite.RowS) (idx : String)
    (k : Value) (c : SQLite.Cell)
    (her : e.mapM (fun kv => (do pure (kv.1, ← SQLite.hydrate kv.2) :
      Except Err (String × SQLite.Cell))) = .ok r)
    (hk : e.lookup idx = some k) (hc : SQLite.hydrate k = .ok c) :
    r.lookup idx = some c := by
  have hf := mapM_ok_forall₂ _ e r her
  obtain ⟨c2, hc2, hr2⟩ := (forall₂_lookup SQLite.hydrate e r hf idx).2 k hk
  rw [hc] at hc2
  obtain rfl : c = c2 := by injection hc2
  exact hr2

/-- lodash `chunk` of a singleton with a positive size. -/
theorem jsChunk_singleton {α : Type} (sz : Nat) (hsz : sz ≠ 0) (x : α) :
    jsChunk sz [x] = [[x]] := by
  unfold jsChunk
  rw [if_neg hsz]
  obtain ⟨n, rfl⟩ := Nat.exists_eq_succ_of_ne_zero hsz
  show jsChunkGo (n + 1) 1 [x] = [[x]]
  rw [show (1 : Nat) = 0 + 1 from rfl]
  rw [jsChunkGo]
  · simp [jsChunkGo]
  · exact List.cons_ne_nil x []

/-- Peeling a singleton `put` on a schema-resolved SQLite store. -/
theorem sql_put_single (cfg : SQLite.SQLConfig) (st : SQLite.SQLState)
    (schema : SchemaL) (e : Entry) (re : SQLite.RowS) (st' : SQLite.SQLState)
    (hcache : st.cache = some schema)
    (hlen : schema.map.length ≤ 999) (hne : schema.map ≠ [])
    (hrow : SQLite.entryRow (schema.map.map Prod.fst) e = .ok re)
    (hput : SQLite.put cfg st [e] = .ok st') :
    st' = ⟨st.schemaTable,
      SQLite.insertRow schema.index st.records re, st.cache⟩ := by
  unfold SQLite.put at hput
  rw [show ([e] : List Entry).isEmpty = false from rfl] at hput
  simp only [Bool.false_eq_true, if_false, bind] at hput
  simp only [sql_ensureSchema_hit cfg st schema hcache, exceptBind_ok] at hput
  cases hv : List.forM [e] (fun x => validate schema.map x) with
  | error err => rw [hv] at hput; exact Except.noConfusion hput
  | ok u =>
      simp only [hv, exceptBind_ok] at hput
      have hszne : 999 / (schema.map.map Prod.fst).length ≠ 0 := by
        rw [List.length_map]
        have h1 : 1 ≤ schema.map.length := by
          cases hm : schema.map with
          | nil => exact absurd hm hne
          | cons a l => simp
        have := Nat.le_div_iff_mul_le h1 |>.mpr (by omega : 1 * schema.map.length ≤ 999)
        omega
      rw [jsChunk_singleton _ hszne e] at hput
      simp only [List.foldlM_cons, List.foldlM_nil, bind] at hput
      rw [show ([e] : List Entry).mapM
          (SQLite.entryRow (schema.map.map Prod.fst)) = Except.ok [re] by
        rw [List.mapM_cons, hrow]; rfl] at hput
      simp only [exceptBind_ok] at hput
      injection hput with h2
      exact h2.symm

/-- Forward computation of SQLite `get` on a found row. -/
theorem sql_get_found (cfg : SQLite.SQLConfig) (st : SQLite.SQLState)
    (schema : SchemaL) (idx : String) (k : Value) (ck : SQLite.Cell)
    (r : SQLite.RowS) (e : Entry)
    (hidx : schema.index = some idx) (hcache : st.cache = some schema)
    (hck : SQLite.hydrate k = .ok ck)
    (hfind : st.records.find?
      (fun r2 => SQLite.cellBeqSO (r2.lookup idx) (some ck)) = some r)
    (hdeh : SQLite.dehydrateRowS schema.map r = .ok e) :
    SQLite.get cfg st k = .ok (some e, st) := by
  unfold SQLite.get
  simp only [bind]
  simp only [sql_ensureSchema_hit cfg st schema hcache, exceptBind_ok]
  simp only [hck, exceptBind_ok]
  simp only [hidx]
  simp only [hfind]
  simp only [show (r.mapM fun kv => (match schema.map.lookup kv.1 with
      | some meta => (SQLite.dehydrate meta kv.2).bind fun c => pure (kv.1, c)
      | none => .error Err.unsupportedType : Except Err (String × Value))) =
    Except.ok e from hdeh, exceptBind_ok]
  rfl

/-- Central SQLite read-your-writes lemma under a fresh index key: the
inserted row lands, `get` on the key dehydrates it back, and the shape
of the new state is exposed for chaining. -/
theorem sql_put_fresh_get (schema : SchemaL) (idx : String) (t : GTypeId)
    (cfg : SQLite.SQLConfig) (st : SQLite.SQLState) (e : Entry) (k : Value)
    (ck : SQLite.Cell) (st' : SQLite.SQLState)
    (hidx : schema.index = some idx) (hkt : keyKind t)
    (hnodup : (schema.map.map Prod.fst).Nodup)
    (hlen : schema.map.length ≤ 999) (hne : schema.map ≠ [])
    (hcache : st.cache = some schema)
    (hmatch : EntryMatchesMap schema.map e)
    (horder : e.map Prod.fst = schema.map.map Prod.fst)
    (hkey : e.lookup idx = some k) (htk : scalarMatches t k = true)
    (hck : SQLite.hydrate k = .ok ck)
    (hfresh : ∀ r ∈ st.records, SQLite.cellBeqSO (r.lookup idx) (some ck) = false)
    (hput : SQLite.put cfg st [e] = .ok st') :
    SQLite.get cfg st' k = .ok (some e, st') ∧
    st'.cache = some schema ∧ st'.schemaTable = st.schemaTable ∧
    ∃ re, st'.records = st.records ++ [re] ∧ re.lookup idx = some ck ∧
      SQLite.dehydrateRowS schema.map re = .ok e := by
  obtain ⟨he, hhe, hdehe⟩ := sql_entry_roundtrip schema.map e hmatch
  have hhe2 : e.mapM (fun kv => (do pure (kv.1, ← SQLite.hydrate kv.2) :
      Except Err (String × SQLite.Cell))) = .ok he := hhe
  have hrow : SQLite.entryRow (schema.map.map Prod.fst) e = .ok he :=
    entryRow_eq (schema.map.map Prod.fst) e he horder hnodup hhe2
  have hhekey : he.lookup idx = some ck := hydrate_row_key_sql e he idx k ck hhe2 hkey hck
  obtain ⟨ck2, hck2, hbeqS⟩ := hydrateS_key_self_beq t k hkt htk
  obtain rfl : ck = ck2 := by rw [hck] at hck2; injection hck2
  have hst : st' = ⟨st.schemaTable,
      SQLite.insertRow schema.index st.records he, st.cache⟩ :=
    sql_put_single cfg st schema e he st' hcache hlen hne hrow hput
  have hins : SQLite.insertRow schema.index st.records he = st.records ++ [he] := by
    rw [hidx]
    have hany : (st.records.any fun r0 =>
        SQLite.cellBeqSO (r0.lookup idx) (he.lookup idx)) = false := by
      rw [List.any_eq_false]
      intro r hr
      rw [hhekey, hfresh r hr]
      exact Bool.false_ne_true
    simp [SQLite.insertRow, hany]
  have hrec : st'.records = st.records ++ [he] := by rw [hst]; exact hins
  have hcache' : st'.cache = some schema := by rw [hst]; exact hcache
  refine ⟨?_, hcache', by rw [hst], he, hrec, hhekey, hdehe⟩
  refine sql_get_found cfg st' schema idx k ck he e hidx hcache' hck ?_ hdehe
  rw [hrec]
  rw [find_eq_filter_head, List.filter_append]
  rw [List.filter_eq_nil_iff.mpr fun r2 hr2 => by
    rw [hfresh r2 hr2]; exact Bool.false_ne_true]
  rw [List.filter_cons]
  have hpe : SQLite.cellBeqSO (he.lookup idx) (some ck) = true := by
    rw [hhekey]
    exact hbeqS
  simp [hpe]

/-- The C1/C6 concrete scenario on the relational backend. -/
def sqlCfgN : SQLite.SQLConfig := ⟨none⟩

def r0S : SQLite.RowS := [("id", SQLite.Cell.num 1), ("v", SQLite.Cell.text "old")]

def r1S : SQLite.RowS := [("id", SQLite.Cell.num 1), ("v", SQLite.Cell.text "new")]

def stSQL1 : SQLite.SQLState := ⟨some (encodeSchema schemaN), [r0S], some schemaN⟩

/-- Concrete stores for the C1/C6 witnesses. -/
def partW : CSV.Partitioner := ⟨fun _ => "p", fun _ => none⟩

def csvCfgW : CSV.CSVConfig := ⟨partW, none⟩

def stCW : CSV.CSVState := ⟨none, [], some schemaN⟩

def stCW1 : CSV.CSVState := ⟨none, [("p", ⟨["id", "v"], [r0C5]⟩)], some schemaN⟩

def stCWend : CSV.CSVState := ⟨none, [("p", ⟨["id", "v"], [r1C5]⟩)], some schemaN⟩

def stSW : SQLite.SQLState := ⟨some (encodeSchema schemaN), [], some schemaN⟩

def stSWend : SQLite.SQLState := ⟨some (encodeSchema schemaN), [r1S], some schemaN⟩

/-- The C1 null-field scenario: a nullable String field holding the
null marker. -/
def schemaNull : SchemaL :=
  ⟨some "id", [("id", ⟨.Number, false, false⟩), ("v", ⟨.String, false, true⟩)]⟩

def eNull : Entry := [("id", .number 1), ("v", .vnull)]

def stNull : CSV.CSVState := ⟨none, [], some schemaNull⟩

def rNull : CSV.RowN := [("id", CSV.Cell.dec 1), ("v", CSV.Cell.jsonTxt JSONVal.null)]

def stNullEnd : CSV.CSVState := ⟨none, [("p", ⟨["id", "v"], [rNull]⟩)], some schemaNull⟩

/-- The C1 order scenario: a valid entry listing its fields in the
reverse of the file header order. -/
def eRev : Entry := [("v", .str "x"), ("id", .number 2)]

def rGarbled : CSV.RowN := [("id", CSV.Cell.raw "x"), ("v", CSV.Cell.dec 2)]

def stGEnd : CSV.CSVState :=
  ⟨none, [("p", ⟨["id", "v"], [r0C5, rGarbled]⟩)], some schemaN⟩

/-- C1 counterexamples.  Three claim-covered scenarios in which `put(e)`
succeeds on a schema-resolved store yet `get(e[index])` does not return
`e`.  (1) Relational: a row under the key already exists and
`ON CONFLICT DO NOTHING` drops the insert, so `get` returns the
previously stored entry.  (2) CSV: a valid entry with a null-valued
nullable field — accepted by `validate` through the nullable relaxation
— hydrates to the JSON text `null`, which does not dehydrate back to
the null marker under the `String` meta, so the entry is not read back
equal.  (3) CSV: a valid entry whose key order differs from the file
header is appended without a header in its own column order and
re-parses column-garbled under the file header, so `get` on its key
finds nothing.  The three parts force, respectively, the fresh-key,
the present-non-null-fields and the schema-field-order premises of the
amended claim. -/
theorem claim_C1_counterexample :
    (validate schemaN.map e1C5 = .ok () ∧
      e1C5.lookup "id" = some (Value.number 1) ∧
      SQLite.put sqlCfgN stSQL1 [e1C5] = .ok stSQL1 ∧
      SQLite.get sqlCfgN stSQL1 (Value.number 1) = .ok (some e0C5, stSQL1) ∧
      some e0C5 ≠ some e1C5) ∧
    (validate schemaNull.map eNull = .ok () ∧
      eNull.lookup "id" = some (Value.number 1) ∧
      CSV.put csvCfgW stNull [eNull] = .ok stNullEnd ∧
      CSV.get csvCfgW stNullEnd (Value.number 1) ≠ .ok (some eNull, stNullEnd)) ∧
    (validate schemaN.map eRev = .ok () ∧
      eRev.lookup "id" = some (Value.number 2) ∧
      CSV.put csvCfgW stCW1 [eRev] = .ok stGEnd ∧
      CSV.get csvCfgW stGEnd (Value.number 2) = .ok (none, stGEnd) ∧
      (none : Option Entry) ≠ some eRev) := by
  refine ⟨⟨rfl, rfl, rfl, rfl, ?_⟩, ⟨rfl, rfl, ?_, ?_⟩, ⟨rfl, rfl, ?_, ?_, ?_⟩⟩
  · simp [e0C5, e1C5]
  · exact (csv_put_single_eq csvCfgW stNull schemaNull eNull rfl).trans rfl
  · rw [show CSV.get csvCfgW stNullEnd (Value.number 1) =
      (.error .unsupportedType : Except Err (Option Entry × CSV.CSVState)) from rfl]
    simp
  · exact (csv_put_single_eq csvCfgW stCW1 schemaN eRev rfl).trans rfl
  · exact rfl
  · simp

/-- C1, amended. Read-your-writes after a single-entry `put` on a
schema-resolved store holds for entries whose fields hold present,
non-null values of the declared kinds, listed in the schema field
order: on the CSV backend for stores whose partition files carry the
schema-field header and the hydration of such entries sorted by index
(`GoodFileAt`), and on the relational backend under the extra premise
that no stored row already carries the index key.  Each premise is
forced by one part of `claim_C1_counterexample`: dropping the fresh-key
premise, admitting a null-valued nullable field, or dropping the order
discipline each makes the conclusion false. -/
theorem claim_C1_read_your_writes :
    (∀ (schema : SchemaL) (idx : String) (t : GTypeId) (cfg : CSV.CSVConfig)
        (st : CSV.CSVState) (e : Entry) (k : Value) (st' : CSV.CSVState),
      schema.index = some idx → keyKind t → st.cache = some schema →
      EntryMatchesMap schema.map e → e.lookup idx = some k →
      scalarMatches t k = true →
      (schema.map.map Prod.fst).Nodup →
      e.map Prod.fst = schema.map.map Prod.fst →
      GoodFileAt schema idx t st (cfg.partitioner.getPartition (some k)) →
      CSV.put cfg st [e] = .ok st' →
      CSV.get cfg st' k = .ok (some e, st')) ∧
    (∀ (schema : SchemaL) (idx : String) (t : GTypeId) (cfg : SQLite.SQLConfig)
        (st : SQLite.SQLState) (e : Entry) (k : Value) (ck : SQLite.Cell)
        (st' : SQLite.SQLState),
      schema.index = some idx → keyKind t →
      (schema.map.map Prod.fst).Nodup → schema.map.length ≤ 999 →
      schema.map ≠ [] → st.cache = some schema →
      EntryMatchesMap schema.map e → e.map Prod.fst = schema.map.map Prod.fst →
      e.lookup idx = some k → scalarMatches t k = true →
      SQLite.hydrate k = .ok ck →
      (∀ r ∈ st.records, SQLite.cellBeqSO (r.lookup idx) (some ck) = false) →
      SQLite.put cfg st [e] = .ok st' →
      SQLite.get cfg st' k = .ok (some e, st')) := by
  constructor
  · intro schema idx t cfg st e k st' h1 h2 h3 h4 h5 h6 h7 h8 h9 h10
    exact (csv_put_single_get schema idx t cfg st e k st'
      h1 h2 h3 h4 h5 h6 h7 h8 h9 h10).1
  · intro schema idx t cfg st e k ck st' h1 h2 h3 h4 h5 h6 h7 h8 h9 h10 h11 h12 h13
    exact (sql_put_fresh_get schema idx t cfg st e k ck st'
      h1 h2 h3 h4 h5 h6 h7 h8 h9 h10 h11 h12 h13).1


theorem matchesN_e1 : EntryMatchesMap schemaN.map e1C5 := by
  intro kv hkv
  rcases List.mem_cons.mp hkv with rfl | hkv2
  · exact ⟨⟨.Number, false, false⟩, rfl, rfl⟩
  · rcases List.mem_singleton.mp hkv2 with rfl
    exact ⟨⟨.String, false, false⟩, rfl, rfl⟩

theorem claim_C1_read_your_writes_witness :
    CSV.get csvCfgW stCWend (Value.number 1) = .ok (some e1C5, stCWend) ∧
    SQLite.get sqlCfgN stSWend (Value.number 1) = .ok (some e1C5, stSWend) := by
  constructor
  · exact claim_C1_read_your_writes.1 schemaN "id" .Number csvCfgW stCW e1C5
      (Value.number 1) stCWend rfl (Or.inl rfl) rfl matchesN_e1 rfl rfl
      (by decide) rfl (fun f hf => Option.noConfusion hf)
      ((csv_put_single_eq csvCfgW stCW schemaN e1C5 rfl).trans rfl)
  · exact claim_C1_read_your_writes.2 schemaN "id" .Number sqlCfgN stSW e1C5
      (Value.number 1) (SQLite.Cell.num 1) stSWend rfl (Or.inl rfl)
      (by decide) (by decide) (by decide) rfl matchesN_e1 rfl rfl rfl rfl
      (fun r hr => absurd hr (List.not_mem_nil r)) rfl

/-- A partitioner whose range is the first and last populated name. -/
def partV : CSV.Partitioner :=
  ⟨fun _ => "p", fun names =>
    match names, names.getLast? with
    | n :: _, some m => some (n, m)
    | _, _ => none⟩

def cfgC9 : CSV.CSVConfig := ⟨partV, some schemaN⟩

/-- One populated partition, schema not yet resolved. -/
def stC9 : CSV.CSVState := ⟨none, [("p", ⟨["id", "v"], [r0C5]⟩)], none⟩

/-- The same store after resolution persisted the template. -/
def stC9A : CSV.CSVState :=
  ⟨some (encodeSchema schemaN), [("p", ⟨["id", "v"], [r0C5]⟩)], some schemaN⟩

/-- C9 counterexample: on a CSV store whose schema is not yet resolved,
`first` returns a stored entry carrying an index value, but `firstKey`
returns `none` — the getter captures `this.schema?.index` before
awaiting `first`, so the projection claim fails exactly in the
spec-highlighted unresolved-schema case. -/
theorem claim_C9_counterexample :
    CSV.getFirst cfgC9 stC9 = .ok (some e0C5, stC9A) ∧
    e0C5.lookup "id" = some (Value.number 1) ∧
    CSV.firstKey cfgC9 stC9 = .ok (none, stC9A) ∧
    (none : Option Value) ≠ some (Value.number 1) := by
  refine ⟨rfl, rfl, rfl, ?_⟩
  simp

/-- C9, amended. On a store whose schema is already resolved, `firstKey`
and `lastKey` project the index field of the entry `first` and `last`
return (on the relational backend this holds as stated in the spec; on
CSV the resolved cache is required, see `claim_C9_counterexample`), and
on an empty store with a resolved schema all four return `none` (for
CSV, relative to a partitioner whose range over no partitions is empty;
for SQLite, with an index column declared). -/
theorem claim_C9_keys_projection :
    (∀ (cfg : CSV.CSVConfig) (st : CSV.CSVState) (schema : SchemaL)
        (e? : Option Entry) (st' : CSV.CSVState),
      st.cache = some schema →
      (CSV.getFirst cfg st = .ok (e?, st') →
        CSV.firstKey cfg st = .ok
          ((schema.index.bind fun i => e?.bind fun e => e.lookup i), st')) ∧
      (CSV.getLast cfg st = .ok (e?, st') →
        CSV.lastKey cfg st = .ok
          ((schema.index.bind fun i => e?.bind fun e => e.lookup i), st'))) ∧
    (∀ (cfg : SQLite.SQLConfig) (st : SQLite.SQLState) (schema : SchemaL)
        (e? : Option Entry) (st' : SQLite.SQLState),
      st.cache = some schema →
      (SQLite.getFirst cfg st = .ok (e?, st') →
        SQLite.firstKey cfg st = .ok
          ((e?.bind fun e => schema.index.bind fun i => e.lookup i), st)) ∧
      (SQLite.getLast cfg st = .ok (e?, st') →
        SQLite.lastKey cfg st = .ok
          ((e?.bind fun e => schema.index.bind fun i => e.lookup i), st))) ∧
    (∀ (cfg : CSV.CSVConfig) (st : CSV.CSVState) (schema : SchemaL),
      st.cache = some schema → st.files = [] →
      cfg.partitioner.getRange [] = none →
      CSV.getFirst cfg st = .ok (none, st) ∧
      CSV.getLast cfg st = .ok (none, st) ∧
      CSV.firstKey cfg st = .ok (none, st) ∧
      CSV.lastKey cfg st = .ok (none, st)) ∧
    (∀ (cfg : SQLite.SQLConfig) (st : SQLite.SQLState) (schema : SchemaL)
        (i : String),
      st.cache = some schema → st.records = [] → schema.index = some i →
      SQLite.getFirst cfg st = .ok (none, st) ∧
      SQLite.getLast cfg st = .ok (none, st) ∧
      SQLite.firstKey cfg st = .ok (none, st) ∧
      SQLite.lastKey cfg st = .ok (none, st)) := by
  refine ⟨?_, ?_, ?_, ?_⟩
  · intro cfg st schema e? st' hcache
    constructor
    · intro hget
      unfold CSV.firstKey
      simp only [bind]
      simp only [hget, exceptBind_ok]
      simp only [hcache]
      rw [show ((some schema).bind fun a => a.index) = schema.index from rfl]
      cases schema.index with
      | none => rfl
      | some i => rfl
    · intro hget
      unfold CSV.lastKey
      simp only [bind]
      simp only [hget, exceptBind_ok]
      simp only [hcache]
      rw [show ((some schema).bind fun a => a.index) = schema.index from rfl]
      cases schema.index with
      | none => rfl
      | some i => rfl
  · intro cfg st schema e? st' hcache
    have hstate := sql_readop_state cfg st schema hcache
    constructor
    · intro hget
      have hst' : st' = st := hstate.1 (e?, st') hget
      subst hst'
      unfold SQLite.firstKey
      simp only [bind]
      simp only [hget, exceptBind_ok]
      simp only [hcache]
      cases e? with
      | none => rfl
      | some e => rfl
    · intro hget
      have hst' : st' = st := hstate.2.1 (e?, st') hget
      subst hst'
      unfold SQLite.lastKey
      simp only [bind]
      simp only [hget, exceptBind_ok]
      simp only [hcache]
      cases e? with
      | none => rfl
      | some e => rfl
  · intro cfg st schema hcache hfiles hrange
    have hpr : CSV.partitionRange cfg st = none := by
      unfold CSV.partitionRange CSV.collectionNames
      rw [hfiles]
      exact hrange
    have hgf : CSV.getFirst cfg st = .ok (none, st) := by
      unfold CSV.getFirst
      simp only [bind]
      simp only [csv_ensureSchema_hit cfg st schema hcache, exceptBind_ok]
      simp only [hpr]
      rfl
    have hgl : CSV.getLast cfg st = .ok (none, st) := by
      unfold CSV.getLast
      simp only [bind]
      simp only [csv_ensureSchema_hit cfg st schema hcache, exceptBind_ok]
      simp only [hpr]
      rfl
    refine ⟨hgf, hgl, ?_, ?_⟩
    · unfold CSV.firstKey
      simp only [bind]
      simp only [hgf, exceptBind_ok]
      simp only [hcache]
      rw [show ((some schema).bind fun a => a.index) = schema.index from rfl]
      cases schema.index with
      | none => rfl
      | some i => rfl
    · unfold CSV.lastKey
      simp only [bind]
      simp only [hgl, exceptBind_ok]
      simp only [hcache]
      rw [show ((some schema).bind fun a => a.index) = schema.index from rfl]
      cases schema.index with
      | none => rfl
      | some i => rfl
  · intro cfg st schema i hcache hrecords hidx
    have hgf : SQLite.getFirst cfg st = .ok (none, st) := by
      unfold SQLite.getFirst
      simp only [bind]
      simp only [sql_ensureSchema_hit cfg st schema hcache, exceptBind_ok]
      simp only [hidx]
      simp only [hrecords]
      rfl
    have hgl : SQLite.getLast cfg st = .ok (none, st) := by
      unfold SQLite.getLast
      simp only [bind]
      simp only [sql_ensureSchema_hit cfg st schema hcache, exceptBind_ok]
      simp only [hidx]
      simp only [hrecords]
      rfl
    refine ⟨hgf, hgl, ?_, ?_⟩
    · unfold SQLite.firstKey
      simp only [bind]
      simp only [hgf, exceptBind_ok]
      rfl
    · unfold SQLite.lastKey
      simp only [bind]
      simp only [hgl, exceptBind_ok]
      rfl

theorem claim_C9_keys_projection_witness :
    CSV.firstKey cfgC9 stC9A = .ok (some (Value.number 1), stC9A) ∧
    SQLite.firstKey sqlCfgN stSQL1 = .ok (some (Value.number 1), stSQL1) ∧
    CSV.firstKey cfgC9 stCW = .ok (none, stCW) ∧
    SQLite.firstKey sqlCfgN stSW = .ok (none, stSW) := by
  refine ⟨?_, ?_, ?_, ?_⟩
  · exact (claim_C9_keys_projection.1 cfgC9 stC9A schemaN (some e0C5) stC9A rfl).1 rfl
  · exact (claim_C9_keys_projection.2.1 sqlCfgN stSQL1 schemaN (some e0C5) stSQL1
      rfl).1 rfl
  · exact (claim_C9_keys_projection.2.2.1 cfgC9 stCW schemaN rfl rfl rfl).2.2.1
  · exact (claim_C9_keys_projection.2.2.2 sqlCfgN stSW schemaN "id" rfl rfl
      rfl).2.2.1

end Entrystore
